import Mathlib

/-!
# Latency benchmark: metric store, target registry and table builder

A shallow embedding of `pkg/benchmark/workload.go` (with the pieces of
`neo4j.go`, `neo4j_job.go` and `neo4j_result.go` it relies on), followed by the
properties proved about it.

Conventions of the embedding:

* `int64` and `int` (64-bit) values are integers; every arithmetic operation
  of the source that can overflow is wrapped with `wrap64`.
* A Go `map[string]Result` is an `AList` (association list without duplicate
  keys).  Go iterates a map in an unspecified order; the only iteration in the
  source (`MinMax`) is a fold, modelled over the list of entries.
* A run-time `index out of range` failure is the error value `Panic`.
* The `TimestampMaker` interface is the stream of values its successive calls
  return together with the number of calls made so far.
* A Go string is a `String` (valid UTF-8); byte-wise comparison goes through
  the UTF-8 encoding.
* Pointers to `Neo4jJob` are the values they point to.
-/

namespace Benchmark

/-! ## Machine integers -/

def MaxInt64 : Int := 9223372036854775807

def MinInt64 : Int := -9223372036854775808

/-- Two's complement wrap-around of a mathematical integer into `int64`. -/
def wrap64 (x : Int) : Int :=
  (x + 9223372036854775808) % 18446744073709551616 - 9223372036854775808

/-- The value is representable as an `int64`. -/
def IsInt64 (x : Int) : Prop := MinInt64 ≤ x ∧ x ≤ MaxInt64

instance (x : Int) : Decidable (IsInt64 x) := by
  unfold IsInt64
  infer_instance

/-! ## Timestamp source (`TimestampMaker`) -/

/-- The interface `TimestampMaker`: `stream n` is what the `n`-th call of
`CurrentTimestamp` returns, `calls` counts the calls made so far. -/
structure TimestampMaker where
  stream : Nat → Int
  calls : Nat

def TimestampMaker.CurrentTimestamp (t : TimestampMaker) : Int × TimestampMaker :=
  (t.stream t.calls, { t with calls := t.calls + 1 })

/-- The test double of `server_test.go`: `t.counter += 1; return t.counter`. -/
def TestTimestampMaker : TimestampMaker :=
  { stream := fun n => wrap64 ((n : Int) + 1), calls := 0 }

/-! ## Metric series store (`Result`, `Results`) -/

structure Result where
  client : String
  verb : String
  timestamps : List Int
  durations : List Int
  deriving DecidableEq, Repr

structure Results where
  timestampMaker : TimestampMaker
  results : AList (fun _ : String => Result)

/-- The key `fmt.Sprintf("%s:%s", verb, dbid)`. -/
def resultKey (verb dbid : String) : String := verb ++ ":" ++ dbid

def NewResults (timestampMaker : TimestampMaker) : Results :=
  { timestampMaker := timestampMaker, results := ∅ }

def Results.Clear (r : Results) : Results :=
  { r with results := ∅ }

def Results.Add (r : Results) (verb dbid : String) (value : Int) : Results :=
  let key := resultKey verb dbid
  let res : Result :=
    match r.results.lookup key with
    | some res => res
    | none => { client := dbid, verb := verb, timestamps := [], durations := [] }
  let now := r.timestampMaker.CurrentTimestamp
  let res := { res with timestamps := res.timestamps ++ [now.1] }
  let res := { res with durations := res.durations ++ [value] }
  { timestampMaker := now.2, results := r.results.insert key res }

def Results.For (r : Results) (dbid verb : String) : Result :=
  let key := resultKey verb dbid
  match r.results.lookup key with
  | none => { client := dbid, verb := verb, timestamps := [], durations := [] }
  | some res => res

/-- One iteration of the loop of `MinMax`. -/
def minMaxStep (mm : Int × Int) (results : Result) : Int × Int :=
  if 0 < results.timestamps.length then
    let first := results.timestamps.getD 0 0
    let last := results.timestamps.getD (results.timestamps.length - 1) 0
    (if mm.1 > first then first else mm.1, if mm.2 < last then last else mm.2)
  else mm

def Results.MinMax (r : Results) : Int × Int :=
  r.results.entries.foldl (fun mm e => minMaxStep mm e.2) (MaxInt64, MinInt64)

def Results.Len (r : Results) (dbid verb : String) : Nat :=
  let key := resultKey verb dbid
  match r.results.lookup key with
  | none => 0
  | some res => res.durations.length

/-- A call of the store made by its sole writer, or by `Start`. -/
inductive StoreOp where
  | add (verb dbid : String) (value : Int)
  | clear
  deriving DecidableEq, Repr

def Results.apply (r : Results) : StoreOp → Results
  | .add verb dbid value => r.Add verb dbid value
  | .clear => r.Clear

def Results.run (r : Results) (ops : List StoreOp) : Results :=
  ops.foldl Results.apply r

/-- Every timestamp held by the store, over all series. -/
def Results.allTimestamps (r : Results) : List Int :=
  r.results.entries.flatMap (fun e => e.2.timestamps)

/-! ## Targets (`Neo4j`, `Neo4jJob`) and query results (`Neo4jResult`) -/

structure Neo4j where
  dbid : String
  database : String
  neo4jAddress : String
  username : String
  password : String
  deriving DecidableEq, Repr

def NewNeo4j (dbid neo4jAddress username password : String) : Neo4j :=
  { dbid := dbid, database := "neo4j", neo4jAddress := neo4jAddress,
    username := username, password := password }

/-- A registered target.  The `done` channel of the source carries no data
and is left out. -/
structure Neo4jJob where
  dbid : String
  neo4j : Neo4j
  running : Bool
  deriving DecidableEq, Repr

def NewNeo4jJob (neo4j : Neo4j) : Neo4jJob :=
  { dbid := neo4j.dbid, neo4j := neo4j, running := false }

/-- The access modes of the driver (`neo4j.AccessMode`); `other` stands for a
value that is neither `AccessModeRead` nor `AccessModeWrite`. -/
inductive AccessMode where
  | read
  | write
  | other
  deriving DecidableEq, Repr

def nameOf : AccessMode → String
  | .read => "read"
  | .write => "write"
  | .other => "INVALID"

/-- The interface `SessionMaker`, reduced to what the registry and the store
observe: the outcome of opening a session and running its `Check` (`none` is
success, `some e` the error), the timestamp source it hands out, the
outcome of the model initialisation query of `createModel` run through it
(`none` when it returns exactly one record, `some e` otherwise), and the
outcome of `NewQuerySession` when a worker opens its session (`none` is
success). -/
structure SessionMaker where
  checkError : Neo4j → Option String
  newTimestampMaker : TimestampMaker
  modelError : Neo4j → Option String := fun _ => none
  sessionError : Neo4j → AccessMode → Option String := fun _ _ => none

def Neo4jJob.Check (n : Neo4jJob) (maker : SessionMaker) : Option String :=
  maker.checkError n.neo4j

/-- A dynamically typed cell of a result row (`interface{}`). -/
inductive Value where
  | str (s : String)
  | int (n : Int)
  | int64 (n : Int)
  | bool (b : Bool)
  | null
  deriving DecidableEq, Repr

structure Neo4jResult where
  Header : List String
  Rows : List (List Value)
  deriving DecidableEq, Repr

def NewNeo4jResult (keys : List String) : Neo4jResult :=
  { Header := keys, Rows := [] }

def Neo4jResult.add (r : Neo4jResult) (values : List Value) : Neo4jResult :=
  { r with Rows := r.Rows ++ [values] }

/-! ## Target registry (`Workload.Add`, `Remove`, `List`) -/

structure Workload where
  runnerMaker : SessionMaker
  clients : List Neo4jJob
  running : Bool
  results : Results

def NewWorkload (runnerMaker : SessionMaker) : Workload :=
  { runnerMaker := runnerMaker, clients := [], running := false,
    results := NewResults runnerMaker.newTimestampMaker }

/-- Returns the new state and the error (`none` for `nil`). -/
def Workload.Add (w : Workload) (client : Neo4jJob) : Workload × Option String :=
  match client.Check w.runnerMaker with
  | some err => (w, some err)
  | none => ({ w with clients := w.clients ++ [client] }, none)

def removeAt (clients : List Neo4jJob) (i : Nat) : List Neo4jJob :=
  match clients.getLast? with
  | none => clients
  | some last => (clients.set i last).dropLast

def indexOf (clients : List Neo4jJob) (client : Neo4jJob) : Int :=
  match clients.findIdx? (fun x => x.neo4j.dbid == client.neo4j.dbid) with
  | some i => (i : Int)
  | none => -1

def Workload.Remove (w : Workload) (client : Neo4jJob) : Workload × Option String :=
  let found := indexOf w.clients client
  if found < 0 then
    (w, some ("Could not find client for database '" ++ client.neo4j.dbid ++ "'"))
  else
    ({ w with clients := removeAt w.clients found.toNat }, none)

/-- UTF-8 encoding of one character, as the bytes of a Go string. -/
def utf8Bytes (c : Char) : List Nat :=
  let n := c.toNat
  if n < 128 then [n]
  else if n < 2048 then [192 + n / 64, 128 + n % 64]
  else if n < 65536 then [224 + n / 4096, 128 + n / 64 % 64, 128 + n % 64]
  else [240 + n / 262144, 128 + n / 4096 % 64, 128 + n / 64 % 64, 128 + n % 64]

def stringBytes (s : String) : List Nat := s.toList.flatMap utf8Bytes

/-- The library function `strings.Compare`: byte-wise lexicographic
comparison, with result `-1`, `0` or `+1`. -/
def stringsCompare (a b : String) : Int :=
  if stringBytes a = stringBytes b then 0
  else if stringBytes a < stringBytes b then -1
  else 1

/-- The library function `sort.Slice`, as the insertion sort the library runs
on slices of at most 12 elements: an element moves left past the elements it is
`less` than.  On longer slices the library runs a sort that is not stable: its
result is the same as here whenever no two elements compare equal, and the
order it gives to elements that compare equal is not modelled. -/
def sortSlice {α : Type} (less : α → α → Bool) (l : List α) : List α :=
  l.insertionSort (fun a b => less b a = false)

def Workload.List (w : Workload) : List Neo4jJob :=
  sortSlice (fun a b => decide (stringsCompare a.neo4j.dbid b.neo4j.dbid < 0)) w.clients

/-- A call on the registry. -/
inductive RegistryOp where
  | add (client : Neo4jJob)
  | remove (client : Neo4jJob)
  deriving DecidableEq, Repr

def applyRegistryOp (w : Workload) : RegistryOp → Workload
  | .add client => (w.Add client).1
  | .remove client => (w.Remove client).1

def runRegistry (w : Workload) (ops : List RegistryOp) : Workload :=
  ops.foldl applyRegistryOp w

/-! ## Table builder (`Workload.ResultsTable`)

The slice `data` of the source is a list of rows of `int64` cells: every cell
the source stores is an `int64` (the timestamp, the sentinel `int64(0)`, a
duration), so the type assertions `.(int64)` always succeed.  Rows are created
by `add_data` only, all with `2*len(w.clients)+1` cells, and a column index
never exceeds that width. -/

/-- A Go run-time panic. -/
inductive Panic where
  | indexOutOfRange
  deriving DecidableEq, Repr

abbrev Grid := List (List Int)

/-- The cell `data[i][col]` (read where the source has the index in range). -/
def getCell (data : Grid) (i col : Nat) : Int := (data.getD i []).getD col 0

/-- The assignment `data[i][col] = v`. -/
def setCell (data : Grid) (i col : Nat) (v : Int) : Grid :=
  data.set i ((data.getD i []).set col v)

/-- The row `add_data` appends when the grid holds `len` rows:
`row[0] = min + int64(len(data))`, every other cell `int64(0)`. -/
def newRow (nclients : Nat) (min : Int) (len : Nat) : List Int :=
  wrap64 (min + (len : Int)) :: List.replicate (2 * nclients) 0

/-- The loop `for len(data) < offset+1 { ...; data = append(data, row) }`,
run for the `n` rows that are missing. -/
def growRows (nclients : Nat) (min : Int) : Nat → Grid → Grid
  | 0, data => data
  | n + 1, data => growRows nclients min n (data ++ [newRow nclients min data.length])

/-- The closure `add_data`, walking `result.timestamps` and the durations at
the same positions; `durations[i]` out of range and `data[offset]` out of
range panic. -/
def add_data (nclients : Nat) (min : Int) (column_index : Nat) :
    List Int → List Int → Grid → Except Panic Grid
  | [], _, data => .ok data
  | _ :: _, [], _ => .error .indexOutOfRange
  | timestamp :: timestamps, duration :: durations, data =>
    let offset := wrap64 (timestamp - min)
    let data := growRows nclients min (wrap64 (offset + 1) - (data.length : Int)).toNat data
    if 0 ≤ offset ∧ offset < (data.length : Int) then
      add_data nclients min column_index timestamps durations
        (setCell data offset.toNat column_index duration)
    else .error .indexOutOfRange

/-- The loop over `w.clients` that calls `add_data` for the read and the write
series of each client. -/
def addClients (nclients : Nat) (min : Int) (r : Results) :
    Nat → List Neo4jJob → Grid → Except Panic Grid
  | _, [], data => .ok data
  | client_index, client :: clients, data =>
    match add_data nclients min (client_index * 2 + 1)
        (r.For client.dbid "read").timestamps (r.For client.dbid "read").durations data with
    | .error e => .error e
    | .ok data =>
      match add_data nclients min (client_index * 2 + 2)
          (r.For client.dbid "write").timestamps (r.For client.dbid "write").durations data with
      | .error e => .error e
      | .ok data => addClients nclients min r (client_index + 1) clients data

/-- The loop of the closure `find_valid`; `fuel` bounds the number of times
the loop condition is evaluated (`len(data)` of them are enough, since `i`
moves by `step` and leaves the grid after at most that many moves). -/
def find_valid_loop (data : Grid) (col : Nat) (step : Int) : Nat → Nat → Int
  | 0, i => getCell data i col
  | fuel + 1, i =>
    if getCell data i col = 0 then
      let j : Int := (i : Int) + step
      if j ≥ (data.length : Int) ∨ j < 0 then getCell data i col
      else find_valid_loop data col step fuel j.toNat
    else getCell data i col

def find_valid (data : Grid) (col i : Nat) (step : Int) : Int :=
  find_valid_loop data col step data.length i

/-- The body of the loop over the cells of row `i`, at column `col`. -/
def fillCell (count : Int) (i col : Nat) (data : Grid) : Grid :=
  let value := getCell data i col
  if 0 < col ∧ value = 0 then
    if i = 0 then
      setCell data i col (find_valid data col i 1)
    else if (i : Int) = wrap64 (count - 1) then
      setCell data i col (find_valid data col i (-1))
    else
      let prev := find_valid data col i (-1)
      let next := find_valid data col i 1
      setCell data i col (Int.tdiv (wrap64 (wrap64 (9 * prev) + next)) 10)
  else data

/-- The loop `for col, value := range row` on row `i`. -/
def fillRow (count : Int) (i : Nat) (data : Grid) : Grid :=
  (List.range (data.getD i []).length).foldl (fun d col => fillCell count i col d) data

/-- The loop `for i := 0; i < count; i++`, with `n` iterations left; `rows`
are the rows added to the result so far. -/
def fillLoop (count : Int) : Nat → Nat → Grid → Grid → Except Panic Grid
  | 0, _, _, rows => .ok rows
  | n + 1, i, data, rows =>
    if i < data.length then
      let data := fillRow count i data
      fillLoop count n (i + 1) data (rows ++ [data.getD i []])
    else .error .indexOutOfRange

/-- The header of the table. -/
def tableColumns (clients : List Neo4jJob) : List String :=
  "timestamp" :: clients.flatMap (fun client =>
    [resultKey "read" client.dbid, resultKey "write" client.dbid])

/-- The value `count := int(max - min + 1)`. -/
def tableCount (r : Results) : Int :=
  wrap64 (wrap64 (r.MinMax.2 - r.MinMax.1) + 1)

/-- The grid after the calls of `add_data`, before gap filling. -/
def sampleGrid (w : Workload) : Except Panic Grid :=
  addClients w.clients.length w.results.MinMax.1 w.results 0 w.clients []

/-- The rows of the table, as `int64` cells. -/
def tableRows (w : Workload) : Except Panic Grid :=
  match sampleGrid w with
  | .error e => .error e
  | .ok data => fillLoop (tableCount w.results) (tableCount w.results).toNat 0 data []

/-- The outcome is a panic or the table; the `error` the source returns next
to the table is always `nil`. -/
def Workload.ResultsTable (w : Workload) : Except Panic Neo4jResult :=
  match tableRows w with
  | .error e => .error e
  | .ok rows =>
    .ok { Header := tableColumns w.clients,
          Rows := rows.map (fun row => row.map Value.int64) }

/-! ## Orchestrator lifecycle (`Start`, `Stop`, `readLoop`, `WaitForAtLeast`)

`Start` and `Stop` are embedded as the sequential code of the call: what the
call leaves in the workload, what it sends on its channels and what it
returns.  A send is taken to complete (a channel with room or with a
receiver); the goroutines launched by `Start` (the workers and `readLoop`) run
after the call and are not part of it. -/

structure Message where
  verb : String
  dbid : String
  value : Int
  deriving DecidableEq, Repr

def Neo4jJob.createModel (n : Neo4jJob) (maker : SessionMaker) : Option String :=
  maker.modelError n.neo4j

/-- The job after `Neo4jJob.Start` and the message the call sends on the
channel, if any. -/
def Neo4jJob.Start (n : Neo4jJob) (maker : SessionMaker) : Neo4jJob × Option Message :=
  if !n.running then
    match n.createModel maker with
    | some _ => (n, some { verb := "model:error", dbid := n.dbid, value := -1 })
    | none => ({ n with running := true }, none)
  else (n, none)

/-- The loop `for _, client := range w.clients { client.Start(ch, w.runnerMaker) }`:
the jobs after it and the messages sent on the channel, in order. -/
def startClients (maker : SessionMaker) : List Neo4jJob → List Neo4jJob × List Message
  | [] => ([], [])
  | client :: clients =>
    ((client.Start maker).1 :: (startClients maker clients).1,
     (client.Start maker).2.toList ++ (startClients maker clients).2)

/-- What a call of `Start` leaves: the workload, the content of the channel
`ch` it created, and the pair `(string, error)` it returns. -/
structure StartResult where
  state : Workload
  channel : List Message
  result : String
  err : Option String

def Workload.Start (w : Workload) : StartResult :=
  if !w.running then
    { state := { w with running := true,
                        clients := (startClients w.runnerMaker w.clients).1,
                        results := w.results.Clear },
      channel := (startClients w.runnerMaker w.clients).2,
      result := "Started", err := none }
  else
    { state := w, channel := [], result := "", err := some "Already started" }

/-- What a call of `Stop` leaves: the workload (the call writes none of its
fields), the ids of the clients whose `done` channel received a signal,
whether a signal was handed to the aggregator on `w.done`, and the pair
`(string, error)` it returns. -/
structure StopResult where
  state : Workload
  signalled : List String
  done : Bool
  result : String
  err : Option String

def Workload.Stop (w : Workload) : StopResult :=
  if w.running then
    { state := w, signalled := w.clients.map (fun client => client.dbid), done := true,
      result := "Stopped", err := none }
  else
    { state := w, signalled := [], done := false, result := "", err := some "Already stopped" }

/-- What one `select` of `readLoop` receives. -/
inductive LoopEvent where
  | message (msg : Message)
  | done
  deriving DecidableEq, Repr

/-- The body of the loop of `readLoop`, for the event its `select` receives. -/
def readLoopStep (w : Workload) : LoopEvent → Workload
  | .message msg =>
    if msg.verb = "read" then
      { w with results := w.results.Add msg.verb msg.dbid msg.value }
    else if msg.verb = "write" then
      { w with results := w.results.Add msg.verb msg.dbid msg.value }
    else w
  | .done => { w with running := false }

/-- The loop `for w.running { select { ... } }` on the events received, in
order; events left when the loop exits are not consumed. -/
def readLoop (w : Workload) : List LoopEvent → Workload
  | [] => w
  | event :: events => if w.running then readLoop (readLoopStep w event) events else w

def Workload.maxDurationCount (w : Workload) : Nat :=
  ["read", "write"].foldl (fun max verb =>
    w.clients.foldl (fun max client =>
      let count := w.results.Len client.dbid verb
      if max < count then count else max) max) 0

/-- The loop of `WaitForAtLeast`.  The store changes while the call waits:
`obs k` is the workload as the `k`-th call of `maxDurationCount` made by
`WaitForAtLeast` reads it (the loop condition, the log line of the loop body,
the returned string).  `fuel` bounds the evaluations of the loop condition and
`sleeps` counts the calls of `time.Sleep`; the result is the string returned
and the number of sleeps, or `none` when the fuel is used up. -/
def waitLoop (threshold : Int) (obs : Nat → Workload) : Nat → Nat → Nat → Option (String × Nat)
  | 0, _, _ => none
  | fuel + 1, k, sleeps =>
    if ((obs k).maxDurationCount : Int) < threshold then
      waitLoop threshold obs fuel (k + 2) (sleeps + 1)
    else some (toString (obs (k + 1)).maxDurationCount, sleeps)

def WaitForAtLeast (obs : Nat → Workload) (threshold : Int) (fuel : Nat) :
    Option (String × Nat) :=
  waitLoop threshold obs fuel 0 0

/-! ## Accessors (`Results`, `ResultsFor`, `CountsFor`) -/

/-- The table and the `error`, which is always `nil`. -/
def Workload.Results (w : Workload) : Neo4jResult × Option String :=
  ({ Header := ["dbid", "verb", "count"],
     Rows := ["read", "write"].flatMap (fun verb =>
       w.clients.map (fun client =>
         [Value.str client.dbid, Value.str verb,
          Value.int (w.results.Len client.dbid verb)])) }, none)

/-- The loop `for i, duration := range results.durations` of `ResultsFor`;
`results.timestamps[i]` out of range panics. -/
def resultsForRows : List Int → List Int → Except Panic (List (List Value))
  | _, [] => .ok []
  | [], _ :: _ => .error .indexOutOfRange
  | timestamp :: timestamps, duration :: durations =>
    match resultsForRows timestamps durations with
    | .error e => .error e
    | .ok rows => .ok ([Value.int64 timestamp, Value.int64 duration] :: rows)

/-- A panic, or the pair `(*Neo4jResult, error)` the call returns. -/
def Workload.ResultsFor (w : Workload) (dbid verb : String) :
    Except Panic (Option Neo4jResult × Option String) :=
  if verb ≠ "read" ∧ verb ≠ "write" then
    .ok (none, some ("Invalid result verb: " ++ verb))
  else
    match resultsForRows (w.results.For dbid verb).timestamps
        (w.results.For dbid verb).durations with
    | .error e => .error e
    | .ok rows => .ok (some { Header := ["timestamp", "duration"], Rows := rows }, none)

/-- The pair `(int, error)` the call returns. -/
def Workload.CountsFor (w : Workload) (dbid verb : String) : Int × Option String :=
  if verb ≠ "read" ∧ verb ≠ "write" then
    (-1, some ("Invalid result verb: " ++ verb))
  else ((w.results.Len dbid verb : Nat), none)

/-! ## Filtering query results (`neo4j_result.go`) -/

def Neo4jResult.contains (r : Neo4jResult) (values : List Value) : Bool :=
  r.Rows.any (fun row =>
    if row.length = values.length then
      decide ((List.zip values row).countP (fun p => p.1 = p.2) = values.length)
    else false)

/-- The loop `for headerIndex, header := range headers` of `FilterResultByRows`
for one key of the filter: the indexes (from `x` on) of the headers equal to
the key. -/
def matchingIndexes (key : String) : List String → Nat → List Nat
  | [], _ => []
  | header :: headers, x =>
    if key = header then x :: matchingIndexes key headers (x + 1)
    else matchingIndexes key headers (x + 1)

/-- The loop `for _, headerIndex := range columnIndexes` on one row: the
copies of the row that are added to the result; `row[headerIndex]` out of
range panics.  A key absent from the filter reads as `nil`. -/
def filterRow (header : List String) (filter : AList (fun _ : String => Value))
    (row : List Value) : List Nat → Except Panic (List (List Value))
  | [] => .ok []
  | headerIndex :: columnIndexes =>
    match row[headerIndex]? with
    | none => .error .indexOutOfRange
    | some value =>
      match filterRow header filter row columnIndexes with
      | .error e => .error e
      | .ok added =>
        if value = (filter.lookup (header.getD headerIndex "")).getD Value.null then
          .ok (row :: added)
        else .ok added

/-- The loop `for _, row := range r.Rows` of `FilterResultByRows`. -/
def filterRows (header : List String) (filter : AList (fun _ : String => Value))
    (columnIndexes : List Nat) : List (List Value) → Except Panic (List (List Value))
  | [] => .ok []
  | row :: rows =>
    match filterRow header filter row columnIndexes with
    | .error e => .error e
    | .ok added =>
      match filterRows header filter columnIndexes rows with
      | .error e => .error e
      | .ok rest => .ok (added ++ rest)

/-- The filter is a Go map: its keys are distinct, and the order in which
`range filter` visits them is the order of the entries. -/
def Neo4jResult.FilterResultByRows (r : Neo4jResult)
    (filter : AList (fun _ : String => Value)) : Except Panic Neo4jResult :=
  if filter.entries.length = 0 then .ok r
  else
    let columnIndexes := filter.keys.flatMap (fun key => matchingIndexes key r.Header 0)
    if columnIndexes.length = filter.entries.length then
      match filterRows r.Header filter columnIndexes r.Rows with
      | .error e => .error e
      | .ok rows => .ok { Header := r.Header, Rows := rows }
    else .ok { Header := r.Header, Rows := [] }

/-- The loop `for x, h := range headers` of `FilterResultByColumns` for the
column `c`: the index of the last header equal to `c`, or the start value. -/
def columnIndexOf (c : String) : List String → Nat → Int → Int
  | [], _, index => index
  | h :: headers, x, index =>
    columnIndexOf c headers (x + 1) (if c = h then (x : Int) else index)

/-- The loop `for i, coli := range columnIndexes` that builds `newRow`;
`row[coli]` out of range panics. -/
def projectRow (row : List Value) : List Int → Except Panic (List Value)
  | [] => .ok []
  | coli :: columnIndexes =>
    match projectRow row columnIndexes with
    | .error e => .error e
    | .ok rest =>
      if coli ≥ 0 then
        match row[coli.toNat]? with
        | none => .error .indexOutOfRange
        | some value => .ok (value :: rest)
      else .ok (Value.str "" :: rest)

/-- The loop `for _, row := range r.Rows` of `FilterResultByColumns`. -/
def columnRows (columnIndexes : List Int) :
    List (List Value) → Neo4jResult → Except Panic Neo4jResult
  | [], newResult => .ok newResult
  | row :: rows, newResult =>
    match projectRow row columnIndexes with
    | .error e => .error e
    | .ok newRow =>
      if !newResult.contains newRow then columnRows columnIndexes rows (newResult.add newRow)
      else columnRows columnIndexes rows newResult

def Neo4jResult.FilterResultByColumns (r : Neo4jResult) (columns : List String) :
    Except Panic Neo4jResult :=
  if columns.length = 0 then .ok r
  else
    let columnIndexes := columns.map (fun c => columnIndexOf c r.Header 0 (-1))
    if columnIndexes.any (fun coli => decide (coli ≥ 0)) then
      columnRows columnIndexes r.Rows (NewNeo4jResult columns)
    else .ok (NewNeo4jResult columns)

/-! ## Worker loop (`runWorkload`)

One worker is embedded as a function of what its iterations meet, in order: the
stop signal, the outcome of the query it runs, or the flag `n.running` found
cleared by the other worker of the target.  The sleeps are left out and a send
on the channel is taken to complete. -/

/-- The outcome of one call of `runner.RunCypherQuery`: an error of the client,
or a result with `count` rows, `elapsed` being the milliseconds of
`time.Since(started)` read after it. -/
inductive QueryOutcome where
  | failed
  | rows (count : Nat) (elapsed : Int)
  deriving DecidableEq, Repr

/-- What one evaluation of the loop condition and the `select` after it meet. -/
inductive WorkerEvent where
  | flagCleared
  | done
  | query (outcome : QueryOutcome)
  deriving DecidableEq, Repr

/-- The variables of `runWorkload`, the messages sent on the channel so far
and the outcomes of the queries executed so far, both in order. -/
structure WorkerState where
  countErrors : Int
  running : Bool
  sent : List Message
  executed : List QueryOutcome
  deriving DecidableEq, Repr

/-- The `default` branch of the `select`, after `RunCypherQuery` returned
`outcome`. -/
def workerQuery (accessModeName errorMsg dbid : String) (s : WorkerState)
    (outcome : QueryOutcome) : WorkerState :=
  match outcome with
  | .failed =>
    { s with countErrors := s.countErrors + 1,
             sent := s.sent ++ [{ verb := errorMsg, dbid := dbid, value := s.countErrors + 1 }],
             executed := s.executed ++ [outcome] }
  | .rows count elapsed =>
    if count ≠ 1 then
      { s with countErrors := s.countErrors + 1,
               sent := s.sent ++ [{ verb := errorMsg, dbid := dbid, value := s.countErrors + 1 }],
               executed := s.executed ++ [outcome] }
    else
      { s with sent := s.sent ++ [{ verb := accessModeName, dbid := dbid, value := elapsed }],
               executed := s.executed ++ [outcome] }

/-- The loop `for n.running && countErrors < maxErrors`, with `maxErrors` 10,
on the events met, in order; events left when the loop exits are not met. -/
def workerLoop (accessModeName errorMsg dbid : String) :
    WorkerState → List WorkerEvent → WorkerState
  | s, [] => s
  | s, event :: events =>
    if s.running ∧ s.countErrors < 10 then
      match event with
      | .flagCleared => { s with running := false }
      | .done => workerLoop accessModeName errorMsg dbid { s with running := false } events
      | .query outcome =>
        workerLoop accessModeName errorMsg dbid
          (workerQuery accessModeName errorMsg dbid s outcome) events
    else s

/-- The worker of `accessMode` for the target `n`: when the session cannot be
opened it sends one message with the value -1 and returns; otherwise it sets
the flag `n.running` if it is not set and runs the loop. -/
def Neo4jJob.runWorkload (n : Neo4jJob) (maker : SessionMaker) (accessMode : AccessMode)
    (events : List WorkerEvent) : WorkerState :=
  match maker.sessionError n.neo4j accessMode with
  | some _ =>
    { countErrors := 0, running := n.running,
      sent := [{ verb := nameOf accessMode ++ ":error", dbid := n.dbid, value := -1 }],
      executed := [] }
  | none =>
    workerLoop (nameOf accessMode) (nameOf accessMode ++ ":error") n.dbid
      { countErrors := 0, running := true, sent := [], executed := [] } events

/-! ## Notions used by the statements -/

/-- All rows of the grid have `W` cells. -/
def Uniform (W : Nat) (data : Grid) : Prop := ∀ row ∈ data, row.length = W

/-- The cell `(r, c)` of the grid once it has grown to hold row `r`: the cell
itself when the row exists, otherwise the cell of the row that `add_data`
would append. -/
def vcell (min : Int) (data : Grid) (r c : Nat) : Int :=
  if r < data.length then getCell data r c
  else if c = 0 then wrap64 (min + (r : Int)) else 0

/-- The duration of the last sample recorded at tick `t` in a series given by
its timestamps and durations, if there is one. -/
def lastAt : List Int → List Int → Int → Option Int
  | [], _, _ => none
  | _ :: _, [], _ => none
  | t0 :: ts, d0 :: ds, t =>
    match lastAt ts ds t with
    | some d => some d
    | none => if t0 = t then some d0 else none

/-- The duration of the last sample of the series recorded at tick `t`. -/
def Result.sampleAt (res : Result) (t : Int) : Option Int :=
  lastAt res.timestamps res.durations t

/-- What the table builder and `MinMax` rely on: every series is sorted by
timestamp, holds as many timestamps as durations, and its timestamps are
`int64` values. -/
def Results.Sound (r : Results) : Prop :=
  ∀ e ∈ r.results.entries,
    e.2.timestamps.Sorted (· ≤ ·) ∧ e.2.timestamps.length = e.2.durations.length ∧
    ∀ t ∈ e.2.timestamps, IsInt64 t

/-- Every stored timestamp was returned by an earlier call of the source. -/
def Results.Past (r : Results) : Prop :=
  ∀ e ∈ r.results.entries, ∀ t ∈ e.2.timestamps,
    ∃ j, j < r.timestampMaker.calls ∧ t = r.timestampMaker.stream j

/-- The series can be placed on a grid whose first tick is `min`: a
duration for every timestamp, and every offset `timestamp - min` a
non-negative `int64` below `MaxInt64`. -/
def SeriesOK (min : Int) (s : Result) : Prop :=
  s.timestamps.length ≤ s.durations.length ∧
  ∀ t ∈ s.timestamps, 0 ≤ t - min ∧ t - min < MaxInt64

/-- The value the fill loop leaves in cell `(i, col)` when the grid is `data`
at the time the cell is visited. -/
def fillValue (count : Int) (i col : Nat) (data : Grid) : Int :=
  if 0 < col ∧ getCell data i col = 0 then
    if i = 0 then find_valid data col i 1
    else if (i : Int) = wrap64 (count - 1) then find_valid data col i (-1)
    else Int.tdiv (wrap64 (wrap64 (9 * find_valid data col i (-1)) + find_valid data col i 1)) 10
  else getCell data i col

/-- The states on which the table can be built: the store is sound, the range
of its timestamps fits `int64`, and the latest tick of the store belongs to
the read or write series of a registered target. -/
def TableReady (w : Workload) : Prop :=
  w.results.Sound ∧ w.results.MinMax.2 - w.results.MinMax.1 < MaxInt64 ∧
  ∃ client ∈ w.clients, ∃ verb, (verb = "read" ∨ verb = "write") ∧
    w.results.MinMax.2 ∈ (w.results.For client.dbid verb).timestamps

/-- The cell in row `i`, column `c` of a result. -/
def Neo4jResult.cell (T : Neo4jResult) (i c : Nat) : Option Value :=
  (T.Rows[i]?).bind (fun row => row[c]?)

/-- The column of the table that holds the series of operation `verb` of the
target at position `client_index` of the registry
(`client_index*2+1` for read, `client_index*2+2` for write). -/
def seriesColumn (client_index : Nat) (verb : String) : Nat :=
  if verb = "write" then client_index * 2 + 2 else client_index * 2 + 1

/-- The table builder succeeds on `w` with sample grid `G` and filled rows
`T`, both of `L` rows: the shape of the two grids, the cells of `G` in terms of
the samples of the store, and every cell of `T` as the value the fill loop
computes on the grid whose rows above are already filled. -/
structure TableFacts (w : Workload) (G T : Grid) (L : Nat) : Prop where
  grid_ok : sampleGrid w = .ok G
  rows_ok : tableRows w = .ok T
  grid_length : G.length = L
  rows_length : T.length = L
  pos : 1 ≤ L
  length_eq : (L : Int) = w.results.MinMax.2 - w.results.MinMax.1 + 1
  length_int64 : (L : Int) ≤ MaxInt64
  count_eq : tableCount w.results = (L : Int)
  grid_uniform : Uniform (2 * w.clients.length + 1) G
  rows_uniform : Uniform (2 * w.clients.length + 1) T
  min_int64 : IsInt64 w.results.MinMax.1
  max_int64 : IsInt64 w.results.MinMax.2
  timestamp_cell : ∀ i, i < L → getCell G i 0 = w.results.MinMax.1 + (i : Int)
  sample_cell : ∀ j client verb, w.clients[j]? = some client → verb = "read" ∨ verb = "write" →
    ∀ i, i < L → getCell G i (seriesColumn j verb) =
      ((w.results.For client.dbid verb).sampleAt (w.results.MinMax.1 + (i : Int))).getD 0
  fill_cell : ∀ i, i < L → ∀ c, c < 2 * w.clients.length + 1 →
    getCell T i c = fillValue (L : Int) i c (T.take i ++ G.drop i)

instance {ε α : Type} [DecidableEq ε] [DecidableEq α] : DecidableEq (Except ε α) :=
  fun a b =>
    match a, b with
    | .ok x, .ok y =>
      if h : x = y then isTrue (by rw [h]) else isFalse (fun h2 => h (Except.ok.inj h2))
    | .error x, .error y =>
      if h : x = y then isTrue (by rw [h]) else isFalse (fun h2 => h (Except.error.inj h2))
    | .ok _, .error _ => isFalse (fun h => Except.noConfusion h)
    | .error _, .ok _ => isFalse (fun h => Except.noConfusion h)

instance (r : Results) : Decidable r.Sound := by
  unfold Results.Sound
  infer_instance

/-- A target as the serving layer creates it for the id `dbid`. -/
def exampleJob (dbid : String) : Neo4jJob :=
  NewNeo4jJob (NewNeo4j dbid ("neo4j+s://" ++ dbid ++ "-testenv.databases.neo4j.io") "ignored" "secret")

/-- A session maker whose connectivity check always succeeds, with the
incrementing timestamp source of the tests. -/
def exampleMaker : SessionMaker :=
  { checkError := fun _ => none, newTimestampMaker := TestTimestampMaker }

/-- A store holding the given samples `(verb, dbid, timestamp, duration)`, in
this order within each series. -/
def storeOf (samples : List (String × String × Int × Int)) : Results :=
  { timestampMaker := TestTimestampMaker,
    results := samples.foldl (fun m s =>
      let key := resultKey s.1 s.2.1
      let res : Result :=
        match m.lookup key with
        | some res => res
        | none => { client := s.2.1, verb := s.1, timestamps := [], durations := [] }
      m.insert key { res with timestamps := res.timestamps ++ [s.2.2.1],
                              durations := res.durations ++ [s.2.2.2] }) ∅ }

/-- A stopped workload with the given registered ids and stored samples. -/
def exampleWorkload (ids : List String) (samples : List (String × String × Int × Int)) :
    Workload :=
  { runnerMaker := exampleMaker, clients := ids.map exampleJob, running := false,
    results := storeOf samples }

/-- The state after: `Add` of the targets `abc` and `xyz`; a run (the store is
cleared by `Start`) during which the aggregator stores a read sample of `abc`
and then one of `xyz`; `Remove` of `xyz`. -/
def removedTargetState : Workload :=
  let added := runRegistry (NewWorkload exampleMaker)
    [.add (exampleJob "abc"), .add (exampleJob "xyz")]
  let ran := { added with
    results := added.results.Clear.run [.add "read" "abc" 1000, .add "read" "xyz" 1000] }
  runRegistry ran [.remove (exampleJob "xyz")]


/-- The samples of a run on the targets `abc` and `xyz`: a read of `abc` that
took 10 at tick 1 and a read of `xyz` that took 20 at tick 2. -/
def orderSamples : List (String × String × Int × Int) :=
  [("read", "abc", 1, 10), ("read", "xyz", 2, 20)]

/-- The targets `abc` and `xyz` in the order of their `Add`. -/
def addedOrderState : Workload := exampleWorkload ["abc", "xyz"] orderSamples

/-- The same store and the same two targets after `Remove` of `def` from the
registry `def, abc, xyz`: the swap with the last entry leaves `xyz, abc`. -/
def swappedOrderState : Workload :=
  ((exampleWorkload ["def", "abc", "xyz"] orderSamples).Remove (exampleJob "def")).1

/-- A registry that holds two targets with the id `abc`, added with different
user names. -/
def duplicateIdState (first second : String) : Workload :=
  { runnerMaker := exampleMaker,
    clients := [NewNeo4jJob (NewNeo4j "abc" "neo4j+s://abc-testenv.databases.neo4j.io" first "secret"),
                NewNeo4jJob (NewNeo4j "abc" "neo4j+s://abc-testenv.databases.neo4j.io" second "secret")],
    running := false, results := storeOf [] }

/-- The result of `SHOW DATABASES` given as the example in `neo4j_result.go`. -/
def showDatabases : Neo4jResult :=
  { Header := ["name", "address", "role", "requestedStatus", "currentStatus", "error",
               "default", "systemDefault"],
    Rows := [
      [.str "neo4j", .str "neo4j-core-61e22a5f-2.craigtaverner-orch-0001.neo4j.io:7687",
       .str "leader", .str "online", .str "online", .str "", .bool true, .bool true],
      [.str "neo4j", .str "neo4j-core-61e22a5f-1.craigtaverner-orch-0001.neo4j.io:7687",
       .str "follower", .str "online", .str "online", .str "", .bool true, .bool true],
      [.str "neo4j", .str "neo4j-core-61e22a5f-3.craigtaverner-orch-0001.neo4j.io:7687",
       .str "follower", .str "online", .str "online", .str "", .bool true, .bool true],
      [.str "system", .str "neo4j-core-61e22a5f-2.craigtaverner-orch-0001.neo4j.io:7687",
       .str "follower", .str "online", .str "online", .str "", .bool false, .bool false],
      [.str "system", .str "neo4j-core-61e22a5f-1.craigtaverner-orch-0001.neo4j.io:7687",
       .str "leader", .str "online", .str "online", .str "", .bool false, .bool false],
      [.str "system", .str "neo4j-core-61e22a5f-3.craigtaverner-orch-0001.neo4j.io:7687",
       .str "follower", .str "online", .str "online", .str "", .bool false, .bool false]] }

/-- The filter `map[string]interface{}{"name": "system", "role": "follower"}`
of the example in `neo4j_result.go`, its keys visited in the order `name`,
`role`. -/
def systemFollowerFilter : AList (fun _ : String => Value) :=
  AList.insert "name" (Value.str "system") (AList.insert "role" (Value.str "follower") ∅)

/-- The same filter, its keys visited in the order `role`, `name`. -/
def followerSystemFilter : AList (fun _ : String => Value) :=
  AList.insert "role" (Value.str "follower") (AList.insert "name" (Value.str "system") ∅)

/-- The position of the last header equal to the column `c`, if there is
one. -/
def lastHeaderIndex (c : String) : List String → Option Nat
  | [] => none
  | h :: headers =>
    match lastHeaderIndex c headers with
    | some x => some (x + 1)
    | none => if c = h then some 0 else none

/-- The projection of a row onto the columns, in the order of the columns: the
cell under the (last) header equal to the column, and the empty string for a
column that is not a header. -/
def projection (header columns : List String) (row : List Value) : List Value :=
  columns.map (fun c =>
    match lastHeaderIndex c header with
    | some x => row.getD x Value.null
    | none => Value.str "")

/-- The number of samples the store holds for the ids: the sum of `Len` over
the ids and the two operations. -/
def totalSamples (r : Results) (ids : List String) : Nat :=
  (ids.map (fun id => r.Len id "read" + r.Len id "write")).sum

/-- The message carries a sample: its operation is exactly `read` or `write`. -/
def Message.isSample (m : Message) : Bool :=
  decide (m.verb = "read" ∨ m.verb = "write")

/-- The query failed: an error of the client, or a row count other than 1. -/
def QueryOutcome.isFailure : QueryOutcome → Bool
  | .failed => true
  | .rows count _ => decide (count ≠ 1)

/-- The messages a worker owes for the outcomes of its queries, `k` failures
having occurred before: the elapsed milliseconds under the operation for a
success, the number of failures so far under the operation with the suffix
`:error` for a failure. -/
def expectedMessages (operation dbid : String) : Nat → List QueryOutcome → List Message
  | _, [] => []
  | k, .failed :: outcomes =>
    { verb := operation ++ ":error", dbid := dbid, value := (k : Int) + 1 } ::
      expectedMessages operation dbid (k + 1) outcomes
  | k, .rows count elapsed :: outcomes =>
    if count = 1 then
      { verb := operation, dbid := dbid, value := elapsed } ::
        expectedMessages operation dbid k outcomes
    else
      { verb := operation ++ ":error", dbid := dbid, value := (k : Int) + 1 } ::
        expectedMessages operation dbid (k + 1) outcomes

/-- The outcomes of the queries among the events, in order. -/
def offeredQueries : List WorkerEvent → List QueryOutcome
  | [] => []
  | .query outcome :: events => outcome :: offeredQueries events
  | _ :: events => offeredQueries events

/-- The values of a run of gap cells below the sample `p`, with the next sample
`n` below the run: the cell `j` of the run blends the cell above it, already
filled, with `n`. -/
def blendChain (p n : Int) : Nat → Int
  | 0 => p
  | j + 1 => (9 * blendChain p n j + n) / 10

/-! ## `List` -/

theorem stringsCompare_neg_iff (a b : String) :
    stringsCompare a b < 0 ↔ stringBytes a < stringBytes b := by
  unfold stringsCompare
  split_ifs with h1 h2
  · simp [h1]
  · simp [h2]
  · simp [h2]

theorem stringsCompare_nonpos_iff (a b : String) :
    stringsCompare a b ≤ 0 ↔ stringBytes a ≤ stringBytes b := by
  unfold stringsCompare
  split_ifs with h1 h2
  · simp [h1]
  · simp [le_of_lt h2]
  · simp only [show ¬ ((1 : Int) ≤ 0) by decide, false_iff, not_le]
    exact lt_of_le_of_ne (not_lt.mp h2) (Ne.symm h1)

theorem sortSlice_perm {α : Type} (less : α → α → Bool) (l : List α) :
    (sortSlice less l).Perm l :=
  List.perm_insertionSort _ l

theorem sortSlice_sorted_of_key {α : Type} (key : α → List Nat) (less : α → α → Bool)
    (hless : ∀ a b, less a b = true ↔ key a < key b) (l : List α) :
    (sortSlice less l).Sorted (fun a b => key a ≤ key b) := by
  have hr : ∀ a b, (less b a = false) ↔ key a ≤ key b := by
    intro a b
    rw [← not_lt, ← hless b a]
    simp
  haveI : IsTotal α (fun a b => less b a = false) :=
    ⟨fun a b => by rw [hr, hr]; exact le_total _ _⟩
  haveI : IsTrans α (fun a b => less b a = false) :=
    ⟨fun a b c => by rw [hr, hr, hr]; exact le_trans⟩
  have := List.sorted_insertionSort (fun a b => less b a = false) l
  exact List.Pairwise.imp (fun {a b} h => (hr a b).mp h) this

/-- C1: after every sequence of registry `Add` and `Remove` calls, `List`
returns a permutation of the registry (the same targets, none added or
dropped) that is sorted ascending by id under the byte-wise comparison
`strings.Compare`. -/
theorem List_sorted_permutation (w0 : Workload) (ops : List RegistryOp) :
    ((runRegistry w0 ops).List).Perm (runRegistry w0 ops).clients ∧
    ((runRegistry w0 ops).List).Sorted
      (fun a b => stringsCompare a.neo4j.dbid b.neo4j.dbid ≤ 0) := by
  refine ⟨sortSlice_perm _ _, ?_⟩
  have h := sortSlice_sorted_of_key (fun a : Neo4jJob => stringBytes a.neo4j.dbid)
    (fun a b => decide (stringsCompare a.neo4j.dbid b.neo4j.dbid < 0))
    (fun a b => by simp [stringsCompare_neg_iff]) (runRegistry w0 ops).clients
  exact List.Pairwise.imp (fun {a b} h => (stringsCompare_nonpos_iff _ _).mpr h) h

/-! ## Store lemmas -/

theorem mono_of_step (stream : Nat → Int) (N : Nat)
    (h : ∀ n, n + 1 < N → stream n ≤ stream (n + 1)) :
    ∀ i j, i ≤ j → j < N → stream i ≤ stream j := by
  intro i j hij
  induction hij with
  | refl => intro _; exact le_refl _
  | step _ ih => intro hj; exact le_trans (ih (by omega)) (h _ hj)

theorem lookup_mem_entries (r : Results) (key : String) (res : Result)
    (h : r.results.lookup key = some res) : (⟨key, res⟩ : Sigma fun _ : String => Result) ∈ r.results.entries :=
  AList.mem_lookup_iff.mp (by rw [h]; exact rfl)

theorem mem_entries_insert {key : String} {res : Result} {s : AList (fun _ : String => Result)}
    {e : Sigma fun _ : String => Result} (h : e ∈ (s.insert key res).entries) :
    e = ⟨key, res⟩ ∨ e ∈ s.entries := by
  rw [AList.insert_entries] at h
  rcases List.mem_cons.mp h with h | h
  · exact Or.inl h
  · exact Or.inr ((List.kerase_sublist key s.entries).subset h)

theorem Add_calls (r : Results) (verb dbid : String) (value : Int) :
    (r.Add verb dbid value).timestampMaker.calls = r.timestampMaker.calls + 1 ∧
    (r.Add verb dbid value).timestampMaker.stream = r.timestampMaker.stream := by
  simp [Results.Add, TimestampMaker.CurrentTimestamp]

theorem Add_mem_entries (r : Results) (verb dbid : String) (value : Int)
    (e : Sigma fun _ : String => Result) (h : e ∈ (r.Add verb dbid value).results.entries) :
    e ∈ r.results.entries ∨
    (e.2.timestamps = [r.timestampMaker.stream r.timestampMaker.calls] ∧ e.2.durations = [value]) ∨
    ∃ e0 ∈ r.results.entries,
      e.2.timestamps = e0.2.timestamps ++ [r.timestampMaker.stream r.timestampMaker.calls] ∧
      e.2.durations = e0.2.durations ++ [value] := by
  unfold Results.Add at h
  rcases mem_entries_insert h with h | h
  · cases hl : r.results.lookup (resultKey verb dbid) with
    | none =>
      right; left
      subst h
      simp [hl, TimestampMaker.CurrentTimestamp]
    | some res =>
      right; right
      refine ⟨⟨resultKey verb dbid, res⟩, lookup_mem_entries r _ _ hl, ?_⟩
      subst h
      simp [hl, TimestampMaker.CurrentTimestamp]
  · exact Or.inl h

theorem Add_preserves (r : Results) (verb dbid : String) (value : Int) (N : Nat)
    (hN : r.timestampMaker.calls < N)
    (hmono : ∀ n, n + 1 < N → r.timestampMaker.stream n ≤ r.timestampMaker.stream (n + 1))
    (hint : ∀ n, n < N → IsInt64 (r.timestampMaker.stream n))
    (hs : r.Sound) (hp : r.Past) :
    (r.Add verb dbid value).Sound ∧ (r.Add verb dbid value).Past := by
  have hcalls := Add_calls r verb dbid value
  constructor
  · intro e he
    rcases Add_mem_entries r verb dbid value e he with h | ⟨h1, h2⟩ | ⟨e0, he0, h1, h2⟩
    · exact hs e h
    · rw [h1, h2]
      refine ⟨List.sorted_singleton _, rfl, ?_⟩
      intro t ht
      rw [List.mem_singleton] at ht
      rw [ht]; exact hint _ hN
    · obtain ⟨hsort, hlen, hi⟩ := hs e0 he0
      rw [h1, h2]
      refine ⟨?_, by simp [hlen], ?_⟩
      · refine List.pairwise_append.mpr ⟨hsort, List.pairwise_singleton _ _, ?_⟩
        intro a ha b hb
        rw [List.mem_singleton] at hb
        obtain ⟨j, hj, rfl⟩ := hp e0 he0 a ha
        rw [hb]
        exact mono_of_step _ N hmono _ _ (le_of_lt hj) hN
      · intro t ht
        rcases List.mem_append.mp ht with ht | ht
        · exact hi t ht
        · rw [List.mem_singleton] at ht; rw [ht]; exact hint _ hN
  · intro e he t ht
    rw [hcalls.1, hcalls.2]
    rcases Add_mem_entries r verb dbid value e he with h | ⟨h1, _⟩ | ⟨e0, he0, h1, _⟩
    · obtain ⟨j, hj, rfl⟩ := hp e h t ht
      exact ⟨j, Nat.lt_succ_of_lt hj, rfl⟩
    · rw [h1, List.mem_singleton] at ht
      exact ⟨_, Nat.lt_succ_self _, ht⟩
    · rw [h1] at ht
      rcases List.mem_append.mp ht with ht | ht
      · obtain ⟨j, hj, rfl⟩ := hp e0 he0 t ht
        exact ⟨j, Nat.lt_succ_of_lt hj, rfl⟩
      · rw [List.mem_singleton] at ht
        exact ⟨_, Nat.lt_succ_self _, ht⟩

theorem Clear_sound (r : Results) : r.Clear.Sound ∧ r.Clear.Past := by
  constructor
  · intro e he; simp [Results.Clear] at he
  · intro e he; simp [Results.Clear] at he

theorem apply_stream (r : Results) (op : StoreOp) :
    (r.apply op).timestampMaker.stream = r.timestampMaker.stream ∧
    (r.apply op).timestampMaker.calls ≤ r.timestampMaker.calls + 1 := by
  cases op with
  | add verb dbid value =>
    exact ⟨(Add_calls r verb dbid value).2, le_of_eq (Add_calls r verb dbid value).1⟩
  | clear => exact ⟨rfl, Nat.le_succ _⟩

/-- Soundness of the store is kept by `Add` and `Clear` as long as the values
the source returns during the run are `int64` and non-decreasing. -/
theorem run_preserves (N : Nat) (ops : List StoreOp) : ∀ (r : Results),
    r.timestampMaker.calls + ops.length ≤ N →
    (∀ n, n + 1 < N → r.timestampMaker.stream n ≤ r.timestampMaker.stream (n + 1)) →
    (∀ n, n < N → IsInt64 (r.timestampMaker.stream n)) →
    r.Sound → r.Past → (r.run ops).Sound ∧ (r.run ops).Past := by
  induction ops with
  | nil => intro r _ _ _ hs hp; exact ⟨hs, hp⟩
  | cons op ops ih =>
    intro r hN hmono hint hs hp
    simp only [List.length_cons] at hN
    have hstep : (r.apply op).Sound ∧ (r.apply op).Past := by
      cases op with
      | add verb dbid value =>
        exact Add_preserves r verb dbid value N (by omega) hmono hint hs hp
      | clear => exact Clear_sound r
    have hst := apply_stream r op
    exact ih (r.apply op) (by omega) (by rw [hst.1]; exact hmono) (by rw [hst.1]; exact hint)
      hstep.1 hstep.2

theorem NewResults_sound (tm : TimestampMaker) : (NewResults tm).Sound ∧ (NewResults tm).Past := by
  constructor
  · intro e he; simp [NewResults] at he
  · intro e he; simp [NewResults] at he

/-! ## `MinMax` -/

theorem sorted_first_le (l : List Int) (hs : l.Sorted (· ≤ ·)) (t : Int) (ht : t ∈ l) :
    l.getD 0 0 ≤ t := by
  cases l with
  | nil => simp at ht
  | cons a l =>
    simp only [List.getD_cons_zero]
    rcases List.mem_cons.mp ht with h | h
    · rw [h]
    · exact List.rel_of_sorted_cons hs t h

theorem sorted_le_last (l : List Int) (hs : l.Sorted (· ≤ ·)) (t : Int) (ht : t ∈ l) :
    t ≤ l.getD (l.length - 1) 0 := by
  obtain ⟨i, hi, rfl⟩ := List.getElem_of_mem ht
  have hpos : l.length - 1 < l.length := by omega
  rw [List.getD_eq_getElem l 0 hpos]
  rcases Nat.eq_or_lt_of_le (Nat.le_sub_one_of_lt hi) with h | h
  · simp [h]
  · exact List.Sorted.rel_get_of_lt hs (a := ⟨i, hi⟩) (b := ⟨l.length - 1, hpos⟩) h

theorem first_mem (l : List Int) (h : 0 < l.length) : l.getD 0 0 ∈ l := by
  rw [List.getD_eq_getElem l 0 h]; exact List.getElem_mem _

theorem last_mem (l : List Int) (h : 0 < l.length) : l.getD (l.length - 1) 0 ∈ l := by
  rw [List.getD_eq_getElem l 0 (by omega : l.length - 1 < l.length)]; exact List.getElem_mem _

/-- The fold of `MinMax` over series that are sorted: lower and upper bound,
attained unless it is the start value. -/
theorem foldl_minMaxStep_spec (rs : List Result)
    (hs : ∀ res ∈ rs, res.timestamps.Sorted (· ≤ ·)) : ∀ (mm : Int × Int),
    let out := rs.foldl minMaxStep mm
    (out.1 ≤ mm.1 ∧ mm.2 ≤ out.2) ∧
    (∀ res ∈ rs, ∀ t ∈ res.timestamps, out.1 ≤ t ∧ t ≤ out.2) ∧
    (out.1 = mm.1 ∨ ∃ res ∈ rs, out.1 ∈ res.timestamps) ∧
    (out.2 = mm.2 ∨ ∃ res ∈ rs, out.2 ∈ res.timestamps) := by
  induction rs with
  | nil => intro mm; simp
  | cons res rs ih =>
    intro mm
    have ih' := ih (fun x hx => hs x (List.mem_cons_of_mem _ hx)) (minMaxStep mm res)
    simp only [List.foldl_cons]
    obtain ⟨⟨h1, h2⟩, h3, h4, h5⟩ := ih'
    have hsr := hs res (List.mem_cons_self _ _)
    have hstep1 : (minMaxStep mm res).1 ≤ mm.1 ∧ mm.2 ≤ (minMaxStep mm res).2 := by
      unfold minMaxStep
      split_ifs
      all_goals simp only [le_refl, and_self, true_and, and_true]
      all_goals omega
    have hstep2 : ∀ t ∈ res.timestamps, (minMaxStep mm res).1 ≤ t ∧ t ≤ (minMaxStep mm res).2 := by
      intro t ht
      have hpos : 0 < res.timestamps.length := List.length_pos_of_mem ht
      have ha := sorted_first_le _ hsr t ht
      have hb := sorted_le_last _ hsr t ht
      unfold minMaxStep; simp only [hpos, if_true]
      constructor
      · split_ifs <;> omega
      · split_ifs <;> omega
    have hstep3 : (minMaxStep mm res).1 = mm.1 ∨ (minMaxStep mm res).1 ∈ res.timestamps := by
      unfold minMaxStep
      by_cases hpos : 0 < res.timestamps.length
      · simp only [hpos, if_true]
        split_ifs
        · exact Or.inr (first_mem _ hpos)
        · exact Or.inl rfl
      · simp [hpos]
    have hstep4 : (minMaxStep mm res).2 = mm.2 ∨ (minMaxStep mm res).2 ∈ res.timestamps := by
      unfold minMaxStep
      by_cases hpos : 0 < res.timestamps.length
      · simp only [hpos, if_true]
        split_ifs
        · exact Or.inr (last_mem _ hpos)
        · exact Or.inl rfl
      · simp [hpos]
    refine ⟨⟨le_trans h1 hstep1.1, le_trans hstep1.2 h2⟩, ?_, ?_, ?_⟩
    · intro x hx t ht
      rcases List.mem_cons.mp hx with hx | hx
      · subst hx
        exact ⟨le_trans h1 (hstep2 t ht).1, le_trans (hstep2 t ht).2 h2⟩
      · exact h3 x hx t ht
    · rcases h4 with h4 | ⟨x, hx, hm⟩
      · rcases hstep3 with h | h
        · exact Or.inl (h4.trans h)
        · exact Or.inr ⟨res, List.mem_cons_self _ _, by rw [h4]; exact h⟩
      · exact Or.inr ⟨x, List.mem_cons_of_mem _ hx, hm⟩
    · rcases h5 with h5 | ⟨x, hx, hm⟩
      · rcases hstep4 with h | h
        · exact Or.inl (h5.trans h)
        · exact Or.inr ⟨res, List.mem_cons_self _ _, by rw [h5]; exact h⟩
      · exact Or.inr ⟨x, List.mem_cons_of_mem _ hx, hm⟩

theorem MinMax_eq_foldl (r : Results) :
    r.MinMax = (r.results.entries.map (fun e => e.2)).foldl minMaxStep (MaxInt64, MinInt64) := by
  unfold Results.MinMax
  rw [List.foldl_map]

theorem mem_allTimestamps (r : Results) (t : Int) :
    t ∈ r.allTimestamps ↔ ∃ e ∈ r.results.entries, t ∈ e.2.timestamps := by
  simp [Results.allTimestamps, List.mem_flatMap]

/-- On a sound store `MinMax` bounds every timestamp, and both bounds are
timestamps of the store when it holds a sample. -/
theorem MinMax_of_sound (r : Results) (hs : r.Sound) :
    (∀ t ∈ r.allTimestamps, r.MinMax.1 ≤ t ∧ t ≤ r.MinMax.2) ∧
    (r.allTimestamps ≠ [] → r.MinMax.1 ∈ r.allTimestamps ∧ r.MinMax.2 ∈ r.allTimestamps) := by
  have hspec := foldl_minMaxStep_spec (r.results.entries.map (fun e => e.2))
    (by
      intro res hres
      obtain ⟨e, he, rfl⟩ := List.mem_map.mp hres
      exact (hs e he).1) (MaxInt64, MinInt64)
  rw [← MinMax_eq_foldl] at hspec
  obtain ⟨_, hb, hmin, hmax⟩ := hspec
  have hbound : ∀ t ∈ r.allTimestamps, r.MinMax.1 ≤ t ∧ t ≤ r.MinMax.2 := by
    intro t ht
    obtain ⟨e, he, hte⟩ := (mem_allTimestamps r t).mp ht
    exact hb e.2 (List.mem_map.mpr ⟨e, he, rfl⟩) t hte
  refine ⟨hbound, ?_⟩
  intro hne
  obtain ⟨t0, ht0⟩ := List.exists_mem_of_ne_nil _ hne
  obtain ⟨e0, he0, hte0⟩ := (mem_allTimestamps r t0).mp ht0
  have hint0 : IsInt64 t0 := (hs e0 he0).2.2 t0 hte0
  constructor
  · rcases hmin with h | ⟨res, hres, hm⟩
    · have : r.MinMax.1 = t0 := by
        have := (hbound t0 ht0).1
        have := hint0.2
        simp only at h
        omega
      rw [this]; exact ht0
    · obtain ⟨e, he, rfl⟩ := List.mem_map.mp hres
      exact (mem_allTimestamps r _).mpr ⟨e, he, hm⟩
  · rcases hmax with h | ⟨res, hres, hm⟩
    · have : r.MinMax.2 = t0 := by
        have := (hbound t0 ht0).2
        have := hint0.1
        simp only at h
        omega
      rw [this]; exact ht0
    · obtain ⟨e, he, rfl⟩ := List.mem_map.mp hres
      exact (mem_allTimestamps r _).mpr ⟨e, he, hm⟩

theorem MinMax_empty (tm : TimestampMaker) : (NewResults tm).MinMax = (MaxInt64, MinInt64) := rfl

/-- C9: for every store built from the empty store by calls of `Add` (and
`Clear`), where the values the timestamp source returns during these calls are
`int64` values in non-decreasing order, `MinMax` returns a lower and an upper
bound of all timestamps of all series, both of them timestamps of the store
when it holds a sample (so they are the smallest and the largest one); for an
empty store, new or cleared, it returns `(MaxInt64, MinInt64)`. -/
theorem MinMax_smallest_largest (stream : Nat → Int) (ops : List StoreOp)
    (hmono : ∀ n, n + 1 < ops.length → stream n ≤ stream (n + 1))
    (hint : ∀ n, n < ops.length → IsInt64 (stream n)) :
    (∀ t ∈ ((NewResults ⟨stream, 0⟩).run ops).allTimestamps,
        ((NewResults ⟨stream, 0⟩).run ops).MinMax.1 ≤ t ∧
        t ≤ ((NewResults ⟨stream, 0⟩).run ops).MinMax.2) ∧
    (((NewResults ⟨stream, 0⟩).run ops).allTimestamps ≠ [] →
        ((NewResults ⟨stream, 0⟩).run ops).MinMax.1 ∈
          ((NewResults ⟨stream, 0⟩).run ops).allTimestamps ∧
        ((NewResults ⟨stream, 0⟩).run ops).MinMax.2 ∈
          ((NewResults ⟨stream, 0⟩).run ops).allTimestamps) ∧
    (NewResults ⟨stream, 0⟩).MinMax = (MaxInt64, MinInt64) ∧
    ((NewResults ⟨stream, 0⟩).run ops).Clear.MinMax = (MaxInt64, MinInt64) := by
  have h := run_preserves ops.length ops (NewResults ⟨stream, 0⟩) (by simp [NewResults])
    hmono hint (NewResults_sound _).1 (NewResults_sound _).2
  have hm := MinMax_of_sound _ h.1
  exact ⟨hm.1, hm.2, rfl, rfl⟩

theorem MinMax_smallest_largest_witness :
    ((NewResults TestTimestampMaker).run
        [.add "read" "abc" 10, .add "write" "abc" 20, .add "read" "abc" 30]).MinMax.1 ∈
      ((NewResults TestTimestampMaker).run
        [.add "read" "abc" 10, .add "write" "abc" 20, .add "read" "abc" 30]).allTimestamps ∧
    ((NewResults TestTimestampMaker).run
        [.add "read" "abc" 10, .add "write" "abc" 20, .add "read" "abc" 30]).MinMax.2 ∈
      ((NewResults TestTimestampMaker).run
        [.add "read" "abc" 10, .add "write" "abc" 20, .add "read" "abc" 30]).allTimestamps :=
  (MinMax_smallest_largest TestTimestampMaker.stream
    [.add "read" "abc" 10, .add "write" "abc" 20, .add "read" "abc" 30]
    (by
      intro n hn
      have hn3 : n + 1 < 3 := hn
      have hn2 : n < 2 := by omega
      interval_cases n <;> decide)
    (by
      intro n hn
      have hn3 : n < 3 := hn
      interval_cases n <;> decide)).2.1 (by decide)

/-! ## `Add`, `For`, `Len` -/

theorem Add_lookup_same (r : Results) (verb dbid : String) (value : Int) :
    (r.Add verb dbid value).results.lookup (resultKey verb dbid) =
      some { r.For dbid verb with
        timestamps := (r.For dbid verb).timestamps ++ [r.timestampMaker.CurrentTimestamp.1],
        durations := (r.For dbid verb).durations ++ [value] } := by
  unfold Results.Add Results.For
  simp only [AList.lookup_insert]
  cases r.results.lookup (resultKey verb dbid) <;> rfl

theorem Add_lookup_other (r : Results) (verb dbid : String) (value : Int) (key : String)
    (h : key ≠ resultKey verb dbid) :
    (r.Add verb dbid value).results.lookup key = r.results.lookup key := by
  unfold Results.Add
  simp only [AList.lookup_insert_ne h]

theorem Len_eq_For (r : Results) (dbid verb : String) :
    r.Len dbid verb = (r.For dbid verb).durations.length := by
  unfold Results.Len Results.For
  cases h : r.results.lookup (resultKey verb dbid) <;> simp only [h, List.length_nil]

theorem run_lookup_none (key : String) (ops : List StoreOp)
    (h : ∀ verb dbid value, StoreOp.add verb dbid value ∈ ops → resultKey verb dbid ≠ key) :
    ∀ (r : Results), r.results.lookup key = none → (r.run ops).results.lookup key = none := by
  induction ops with
  | nil => intro r hr; exact hr
  | cons op ops ih =>
    intro r hr
    have ih' := ih (fun verb dbid value hm => h verb dbid value (List.mem_cons_of_mem _ hm))
    apply ih' (r.apply op)
    cases op with
    | add verb dbid value =>
      have hne := h verb dbid value (List.mem_cons_self _ _)
      show (r.Add verb dbid value).results.lookup key = none
      rw [Add_lookup_other r verb dbid value key (Ne.symm hne)]
      exact hr
    | clear => exact AList.lookup_empty key

/-- C10: `Add(operation, id, value)` turns the series `For(id, operation)`
into the previous series (the empty one when the key was absent) with one
sample appended, whose timestamp is the next value of the timestamp source and
whose duration is `value`, and `Len(id, operation)` grows by one; for a key
that no `Add` has used since the last `Clear`, `For` returns the empty series
and `Len` returns 0; `Len` is always the number of samples `For` returns. -/
theorem Add_For_Len :
    (∀ (r : Results) (verb dbid : String) (value : Int),
      (r.Add verb dbid value).For dbid verb =
        { r.For dbid verb with
          timestamps := (r.For dbid verb).timestamps ++ [r.timestampMaker.CurrentTimestamp.1],
          durations := (r.For dbid verb).durations ++ [value] } ∧
      (r.Add verb dbid value).Len dbid verb = r.Len dbid verb + 1) ∧
    (∀ (r : Results) (verb dbid : String), r.results.lookup (resultKey verb dbid) = none →
      r.For dbid verb = { client := dbid, verb := verb, timestamps := [], durations := [] }) ∧
    (∀ (r : Results) (ops : List StoreOp) (verb dbid : String),
      (∀ v d x, StoreOp.add v d x ∈ ops → resultKey v d ≠ resultKey verb dbid) →
      (r.Clear.run ops).For dbid verb =
        { client := dbid, verb := verb, timestamps := [], durations := [] } ∧
      (r.Clear.run ops).Len dbid verb = 0) ∧
    (∀ (r : Results) (verb dbid : String),
      r.Len dbid verb = (r.For dbid verb).durations.length) := by
  refine ⟨?_, ?_, ?_, ?_⟩
  · intro r verb dbid value
    have hfor : (r.Add verb dbid value).For dbid verb =
        { r.For dbid verb with
          timestamps := (r.For dbid verb).timestamps ++ [r.timestampMaker.CurrentTimestamp.1],
          durations := (r.For dbid verb).durations ++ [value] } := by
      have h := Add_lookup_same r verb dbid value
      conv_lhs => unfold Results.For
      simp only [h]
    refine ⟨hfor, ?_⟩
    rw [Len_eq_For, Len_eq_For, hfor]
    simp
  · intro r verb dbid h
    unfold Results.For
    simp only [h]
  · intro r ops verb dbid h
    have hl := run_lookup_none (resultKey verb dbid) ops h r.Clear (AList.lookup_empty _)
    have hfor : (r.Clear.run ops).For dbid verb =
        { client := dbid, verb := verb, timestamps := [], durations := [] } := by
      unfold Results.For
      simp only [hl]
    refine ⟨hfor, ?_⟩
    rw [Len_eq_For, hfor]
    rfl
  · intro r verb dbid
    exact Len_eq_For r dbid verb

theorem Add_For_Len_witness :
    ((NewResults TestTimestampMaker).Clear.run
        [.add "read" "abc" 10, .add "write" "xyz" 20]).For "abc" "write" =
      { client := "abc", verb := "write", timestamps := [], durations := [] } ∧
    ((NewResults TestTimestampMaker).Clear.run
        [.add "read" "abc" 10, .add "write" "xyz" 20]).Len "abc" "write" = 0 :=
  Add_For_Len.2.2.1 (NewResults TestTimestampMaker)
    [.add "read" "abc" 10, .add "write" "xyz" 20] "write" "abc"
    (by
      intro v d x hm
      simp only [List.mem_cons, StoreOp.add.injEq, List.mem_singleton, List.mem_nil_iff,
        or_false] at hm
      rcases hm with ⟨rfl, rfl, _⟩ | ⟨rfl, rfl, _⟩ <;> decide)

/-! ## Grids -/

theorem wrap64_eq (x : Int) (h : IsInt64 x) : wrap64 x = x := by
  unfold IsInt64 MinInt64 MaxInt64 at h
  unfold wrap64
  omega

theorem wrap64_eq_of_bounds (x : Int) (h1 : -9223372036854775808 ≤ x)
    (h2 : x ≤ 9223372036854775807) : wrap64 x = x := by
  unfold wrap64
  omega

theorem getD_row_length (W : Nat) (data : Grid) (hu : Uniform W data) (i : Nat)
    (hi : i < data.length) : (data.getD i []).length = W := by
  rw [List.getD_eq_getElem data [] hi]
  exact hu _ (List.getElem_mem _)

theorem setCell_length (data : Grid) (i col : Nat) (v : Int) :
    (setCell data i col v).length = data.length := by
  simp [setCell]

theorem setCell_uniform (W : Nat) (data : Grid) (hu : Uniform W data) (i col : Nat) (v : Int) :
    Uniform W (setCell data i col v) := by
  intro row hrow
  unfold setCell at hrow
  by_cases hi : i < data.length
  · rcases List.mem_or_eq_of_mem_set hrow with h | h
    · exact hu row h
    · rw [h, List.length_set]
      exact getD_row_length W data hu i hi
  · rw [List.set_eq_of_length_le (by omega)] at hrow
    exact hu row hrow

theorem getCell_eq (data : Grid) (i c : Nat) :
    getCell data i c = ((data[i]?.getD [])[c]?).getD 0 := by
  simp [getCell, List.getD_eq_getElem?_getD]

theorem getCell_setCell (data : Grid) (i col : Nat) (v : Int) (hi : i < data.length)
    (hc : col < (data.getD i []).length) (r c : Nat) :
    getCell (setCell data i col v) r c = if r = i ∧ c = col then v else getCell data r c := by
  rw [List.getD_eq_getElem?_getD] at hc
  simp only [getCell_eq, setCell, List.getD_eq_getElem?_getD, List.getElem?_set]
  by_cases hr : i = r
  · subst hr
    simp only [hi, if_true, Option.getD_some, true_and, List.getElem?_set]
    by_cases hcc : col = c
    · subst hcc
      simp [hc]
    · have hcc' : ¬ c = col := fun h => hcc h.symm
      simp [hcc, hcc']
  · have hr' : ¬ r = i := fun h => hr h.symm
    simp [hr, hr']

/-- Two grids of the same shape with the same cells are equal. -/
theorem grid_ext (W : Nat) (d d' : Grid) (hl : d.length = d'.length)
    (hu : Uniform W d) (hu' : Uniform W d')
    (h : ∀ r c, r < d.length → c < W → getCell d r c = getCell d' r c) : d = d' := by
  apply List.ext_getElem hl
  intro r h1 h2
  have hw1 : (d[r]).length = W := hu _ (List.getElem_mem _)
  have hw2 : (d'[r]).length = W := hu' _ (List.getElem_mem _)
  apply List.ext_getElem (by rw [hw1, hw2])
  intro c hc1 hc2
  have := h r c h1 (by rw [← hw1]; exact hc1)
  unfold getCell at this
  rw [List.getD_eq_getElem d [] h1, List.getD_eq_getElem d' [] h2,
    List.getD_eq_getElem _ 0 hc1, List.getD_eq_getElem _ 0 hc2] at this
  exact this

theorem getCell_of_length_le (data : Grid) (r c : Nat) (h : data.length ≤ r) :
    getCell data r c = 0 := by
  unfold getCell
  rw [List.getD_eq_default _ _ h]
  rfl

/-! ## Placing the samples (`add_data`) -/

theorem newRow_length (nclients : Nat) (min : Int) (len : Nat) :
    (newRow nclients min len).length = 2 * nclients + 1 := by
  simp [newRow]

theorem newRow_getD (nclients : Nat) (min : Int) (len c : Nat) :
    (newRow nclients min len).getD c 0 = if c = 0 then wrap64 (min + (len : Int)) else 0 := by
  unfold newRow
  cases c with
  | zero => simp
  | succ c =>
    simp only [List.getD_cons_succ, Nat.succ_ne_zero, if_false]
    rw [List.getD_eq_getElem?_getD]
    by_cases h : c < 2 * nclients
    · rw [List.getElem?_eq_getElem (by simp [h])]
      simp
    · rw [List.getElem?_eq_none (by simp; omega)]
      rfl

theorem growRows_spec (nclients : Nat) (min : Int) (n : Nat) : ∀ (data : Grid),
    Uniform (2 * nclients + 1) data →
    (growRows nclients min n data).length = data.length + n ∧
    Uniform (2 * nclients + 1) (growRows nclients min n data) ∧
    ∀ r c, vcell min (growRows nclients min n data) r c = vcell min data r c := by
  induction n with
  | zero => intro data hu; exact ⟨rfl, hu, fun _ _ => rfl⟩
  | succ n ih =>
    intro data hu
    have hu1 : Uniform (2 * nclients + 1) (data ++ [newRow nclients min data.length]) := by
      intro row hrow
      rcases List.mem_append.mp hrow with h | h
      · exact hu row h
      · rw [List.mem_singleton] at h
        rw [h]; exact newRow_length _ _ _
    obtain ⟨h1, h2, h3⟩ := ih _ hu1
    refine ⟨?_, h2, ?_⟩
    · show (growRows nclients min n _).length = _
      rw [h1]; simp; omega
    · intro r c
      show vcell min (growRows nclients min n _) r c = _
      rw [h3]
      unfold vcell getCell
      simp only [List.length_append, List.length_singleton]
      by_cases hr : r < data.length
      · have hr' : r < data.length + 1 := by omega
        simp only [hr, hr', if_true, List.getD_eq_getElem?_getD, List.getElem?_append_left hr]
      · by_cases hr2 : r = data.length
        · subst hr2
          simp only [Nat.lt_succ_self, if_true, lt_irrefl, if_false,
            List.getD_eq_getElem?_getD (l := data ++ _),
            List.getElem?_append_right (le_refl _),
            Nat.sub_self, List.getElem?_cons_zero, Option.getD_some]
          exact newRow_getD _ _ _ _
        · have hr' : ¬ r < data.length + 1 := by omega
          simp only [hr, hr', if_false]

theorem vcell_setCell (min : Int) (data : Grid) (i col : Nat) (v : Int) (hi : i < data.length)
    (hc : col < (data.getD i []).length) (r c : Nat) :
    vcell min (setCell data i col v) r c =
      if r = i ∧ c = col then v else vcell min data r c := by
  unfold vcell
  rw [setCell_length]
  by_cases hr : r < data.length
  · simp only [hr, if_true]
    exact getCell_setCell data i col v hi hc r c
  · have hne : ¬ r = i := by omega
    simp only [hr, if_false, hne, false_and]

theorem eq_toNat_sub_iff (t min : Int) (r : Nat) (h : 0 ≤ t - min) :
    r = (t - min).toNat ↔ t = min + (r : Int) := by
  omega

theorem add_data_spec (nclients : Nat) (min : Int) (col : Nat) (hcol : col < 2 * nclients + 1) :
    ∀ (ts ds : List Int) (data : Grid),
    Uniform (2 * nclients + 1) data → ts.length ≤ ds.length →
    (∀ t ∈ ts, 0 ≤ t - min ∧ t - min < MaxInt64) →
    ∃ data', add_data nclients min col ts ds data = .ok data' ∧
      Uniform (2 * nclients + 1) data' ∧ data.length ≤ data'.length ∧
      (∀ t ∈ ts, t - min < (data'.length : Int)) ∧
      (data'.length = data.length ∨ ∃ t ∈ ts, (data'.length : Int) = t - min + 1) ∧
      ∀ r c, vcell min data' r c =
        if c = col then (lastAt ts ds (min + (r : Int))).getD (vcell min data r c)
        else vcell min data r c := by
  intro ts
  induction ts with
  | nil =>
    intro ds data hu _ _
    refine ⟨data, rfl, hu, le_refl _, ?_, Or.inl rfl, ?_⟩
    · intro t ht; simp at ht
    · intro r c; simp [lastAt]
  | cons t ts ih =>
    intro ds data hu hlen hrange
    cases ds with
    | nil => simp at hlen
    | cons d ds =>
      have ht := hrange t (List.mem_cons_self _ _)
      have hoff : wrap64 (t - min) = t - min :=
        wrap64_eq_of_bounds _ (by omega) (by unfold MaxInt64 at ht; omega)
      have hoff1 : wrap64 (t - min + 1) = t - min + 1 :=
        wrap64_eq_of_bounds _ (by omega) (by unfold MaxInt64 at ht; omega)
      obtain ⟨hg1, hg2, hg3⟩ := growRows_spec nclients min
        (t - min + 1 - (data.length : Int)).toNat data hu
      generalize hgdef : growRows nclients min (t - min + 1 - (data.length : Int)).toNat data = g
        at hg1 hg2 hg3
      have hlt : (t - min).toNat < g.length := by rw [hg1]; omega
      have hrowlen : col < (g.getD (t - min).toNat []).length := by
        rw [getD_row_length _ g hg2 _ hlt]; exact hcol
      have hu1 := setCell_uniform _ g hg2 (t - min).toNat col d
      have hl1 := setCell_length g (t - min).toNat col d
      obtain ⟨data', hok, hu', hle, hcov, hlen', hcells⟩ := ih ds
        (setCell g (t - min).toNat col d) hu1 (by simpa using hlen)
        (fun x hx => hrange x (List.mem_cons_of_mem _ hx))
      refine ⟨data', ?_, hu', ?_, ?_, ?_, ?_⟩
      · unfold add_data
        simp only [hoff, hoff1, hgdef]
        rw [if_pos ⟨ht.1, by omega⟩]
        exact hok
      · rw [hl1, hg1] at hle; omega
      · intro x hx
        rcases List.mem_cons.mp hx with h | h
        · rw [h]; rw [hl1] at hle; omega
        · exact hcov x h
      · rcases hlen' with h | ⟨x, hx, h⟩
        · rw [hl1, hg1] at h
          by_cases hgrow : t - min + 1 ≤ (data.length : Int)
          · left; omega
          · right; exact ⟨t, List.mem_cons_self _ _, by omega⟩
        · right; exact ⟨x, List.mem_cons_of_mem _ hx, h⟩
      · intro r c
        rw [hcells r c, vcell_setCell min g _ col d hlt hrowlen, hg3]
        by_cases hc : c = col
        · simp only [hc, if_true, and_true, lastAt]
          cases hla : lastAt ts ds (min + (r : Int)) with
          | some x => simp
          | none =>
            simp only [Option.getD_none]
            have hiff := eq_toNat_sub_iff t min r ht.1
            by_cases hr : r = (t - min).toNat
            · rw [if_pos hr, if_pos (hiff.mp hr)]
              rfl
            · rw [if_neg hr, if_neg (fun h => hr (hiff.mpr h))]
              rfl
        · simp [hc]

theorem addClients_spec (nclients : Nat) (min : Int) (r : Results) :
    ∀ (clients : List Neo4jJob) (k0 : Nat) (data : Grid),
    Uniform (2 * nclients + 1) data → k0 + clients.length ≤ nclients →
    (∀ client ∈ clients, SeriesOK min (r.For client.dbid "read") ∧
      SeriesOK min (r.For client.dbid "write")) →
    ∃ data', addClients nclients min r k0 clients data = .ok data' ∧
      Uniform (2 * nclients + 1) data' ∧ data.length ≤ data'.length ∧
      (∀ client ∈ clients, ∀ verb, verb = "read" ∨ verb = "write" →
        ∀ t ∈ (r.For client.dbid verb).timestamps, t - min < (data'.length : Int)) ∧
      (data'.length = data.length ∨ ∃ client ∈ clients, ∃ verb, (verb = "read" ∨ verb = "write") ∧
        ∃ t ∈ (r.For client.dbid verb).timestamps, (data'.length : Int) = t - min + 1) ∧
      (∀ i c, (c < 2 * k0 + 1 ∨ 2 * (k0 + clients.length) < c) →
        vcell min data' i c = vcell min data i c) ∧
      (∀ j client, clients[j]? = some client → ∀ i,
        vcell min data' i (2 * (k0 + j) + 1) =
          ((r.For client.dbid "read").sampleAt (min + (i : Int))).getD
            (vcell min data i (2 * (k0 + j) + 1)) ∧
        vcell min data' i (2 * (k0 + j) + 2) =
          ((r.For client.dbid "write").sampleAt (min + (i : Int))).getD
            (vcell min data i (2 * (k0 + j) + 2))) := by
  intro clients
  induction clients with
  | nil =>
    intro k0 data hu _ _
    refine ⟨data, rfl, hu, le_refl _, ?_, Or.inl rfl, fun _ _ _ => rfl, ?_⟩
    · intro client hc; simp at hc
    · intro j client hj; simp at hj
  | cons client rest ih =>
    intro k0 data hu hk hser
    simp only [List.length_cons] at hk
    obtain ⟨hread, hwrite⟩ := hser client (List.mem_cons_self _ _)
    obtain ⟨d1, hok1, hu1, hle1, hcov1, hlen1, hcell1⟩ :=
      add_data_spec nclients min (k0 * 2 + 1) (by omega) _ _ data hu hread.1 hread.2
    obtain ⟨d2, hok2, hu2, hle2, hcov2, hlen2, hcell2⟩ :=
      add_data_spec nclients min (k0 * 2 + 2) (by omega) _ _ d1 hu1 hwrite.1 hwrite.2
    obtain ⟨d3, hok3, hu3, hle3, hcov3, hlen3, hframe3, hcell3⟩ :=
      ih (k0 + 1) d2 hu2 (by omega) (fun c hc => hser c (List.mem_cons_of_mem _ hc))
    refine ⟨d3, ?_, hu3, by omega, ?_, ?_, ?_, ?_⟩
    · unfold addClients
      simp only [hok1, hok2]
      exact hok3
    · intro c hc verb hverb t ht
      rcases List.mem_cons.mp hc with h | h
      · subst h
        rcases hverb with hv | hv
        · subst hv
          have := hcov1 t ht
          omega
        · subst hv
          have := hcov2 t ht
          omega
      · exact hcov3 c h verb hverb t ht
    · rcases hlen3 with h3 | ⟨c, hc, verb, hverb, t, ht, h⟩
      · rcases hlen2 with h2 | ⟨t, ht, h⟩
        · rcases hlen1 with h1 | ⟨t, ht, h⟩
          · left; omega
          · right
            exact ⟨client, List.mem_cons_self _ _, "read", Or.inl rfl, t, ht, by omega⟩
        · right
          exact ⟨client, List.mem_cons_self _ _, "write", Or.inr rfl, t, ht, by omega⟩
      · right
        exact ⟨c, List.mem_cons_of_mem _ hc, verb, hverb, t, ht, h⟩
    · intro i c hc
      simp only [List.length_cons] at hc
      rw [hframe3 i c (by omega), hcell2 i c, if_neg (by omega), hcell1 i c, if_neg (by omega)]
    · intro j cl hj i
      cases j with
      | zero =>
        simp only [List.getElem?_cons_zero, Option.some.injEq] at hj
        subst hj
        constructor
        · rw [hframe3 i _ (by omega), hcell2 i _, if_neg (by omega), hcell1 i _,
            if_pos (by omega)]
          have : 2 * (k0 + 0) + 1 = k0 * 2 + 1 := by omega
          rw [this]
          rfl
        · rw [hframe3 i _ (by omega), hcell2 i _, if_pos (by omega), hcell1 i _,
            if_neg (by omega)]
          have : 2 * (k0 + 0) + 2 = k0 * 2 + 2 := by omega
          rw [this]
          rfl
      | succ j =>
        simp only [List.getElem?_cons_succ] at hj
        have h := hcell3 j cl hj i
        have e1 : 2 * (k0 + (j + 1)) + 1 = 2 * (k0 + 1 + j) + 1 := by omega
        have e2 : 2 * (k0 + (j + 1)) + 2 = 2 * (k0 + 1 + j) + 2 := by omega
        rw [e1, e2, h.1, h.2]
        rw [hcell2 i _, if_neg (by omega), hcell1 i _, if_neg (by omega)]
        rw [hcell2 i _, if_neg (by omega), hcell1 i _, if_neg (by omega)]
        exact ⟨rfl, rfl⟩

/-! ## Gap filling -/

theorem find_valid_loop_congr (d d' : Grid) (col : Nat) (step : Int)
    (hl : d.length = d'.length) (hc : ∀ r, getCell d r col = getCell d' r col) :
    ∀ (fuel i : Nat), find_valid_loop d col step fuel i = find_valid_loop d' col step fuel i := by
  intro fuel
  induction fuel with
  | zero => intro i; simp [find_valid_loop, hc]
  | succ fuel ih =>
    intro i
    simp only [find_valid_loop, hc, hl, ih]

theorem find_valid_congr (d d' : Grid) (col i : Nat) (step : Int)
    (hl : d.length = d'.length) (hc : ∀ r, getCell d r col = getCell d' r col) :
    find_valid d col i step = find_valid d' col i step := by
  unfold find_valid
  rw [hl]
  exact find_valid_loop_congr d d' col step hl hc _ _

theorem fillValue_congr (count : Int) (d d' : Grid) (i col : Nat)
    (hl : d.length = d'.length) (hc : ∀ r, getCell d r col = getCell d' r col) :
    fillValue count i col d = fillValue count i col d' := by
  unfold fillValue
  rw [hc i, find_valid_congr d d' col i 1 hl hc, find_valid_congr d d' col i (-1) hl hc]

theorem fillCell_spec (W : Nat) (count : Int) (i col : Nat) (d : Grid) (hu : Uniform W d)
    (hi : i < d.length) (hc : col < W) :
    (fillCell count i col d).length = d.length ∧ Uniform W (fillCell count i col d) ∧
    ∀ r c, getCell (fillCell count i col d) r c =
      if r = i ∧ c = col then fillValue count i col d else getCell d r c := by
  have hrow : col < (d.getD i []).length := by rw [getD_row_length W d hu i hi]; exact hc
  unfold fillCell fillValue
  by_cases hcond : 0 < col ∧ getCell d i col = 0
  · simp only [hcond, and_self, if_true]
    by_cases h0 : i = 0
    · simp only [h0, if_true]
      rw [h0] at hi hrow
      exact ⟨setCell_length _ _ _ _, setCell_uniform W d hu _ _ _,
        fun r c => getCell_setCell d 0 col _ hi hrow r c⟩
    · simp only [h0, if_false]
      by_cases hlast : (i : Int) = wrap64 (count - 1)
      · simp only [hlast, if_true]
        exact ⟨setCell_length _ _ _ _, setCell_uniform W d hu _ _ _,
          fun r c => getCell_setCell d i col _ hi hrow r c⟩
      · simp only [hlast, if_false]
        exact ⟨setCell_length _ _ _ _, setCell_uniform W d hu _ _ _,
          fun r c => getCell_setCell d i col _ hi hrow r c⟩
  · rw [if_neg hcond, if_neg hcond]
    refine ⟨rfl, hu, ?_⟩
    intro r c
    by_cases h : r = i ∧ c = col
    · rw [if_pos h, h.1, h.2]
    · rw [if_neg h]

theorem fillRow_upto (W : Nat) (count : Int) (i : Nat) (d : Grid) (hu : Uniform W d)
    (hi : i < d.length) : ∀ k, k ≤ W →
    ((List.range k).foldl (fun g col => fillCell count i col g) d).length = d.length ∧
    Uniform W ((List.range k).foldl (fun g col => fillCell count i col g) d) ∧
    ∀ r c, getCell ((List.range k).foldl (fun g col => fillCell count i col g) d) r c =
      if r = i ∧ c < k then fillValue count i c d else getCell d r c := by
  intro k
  induction k with
  | zero =>
    intro _
    refine ⟨rfl, hu, ?_⟩
    intro r c
    simp
  | succ k ih =>
    intro hk
    obtain ⟨hl, hug, hcells⟩ := ih (by omega)
    rw [List.range_succ, List.foldl_append]
    simp only [List.foldl_cons, List.foldl_nil]
    generalize hg : (List.range k).foldl (fun g col => fillCell count i col g) d = g
      at hl hug hcells
    obtain ⟨hl2, hu2, hc2⟩ := fillCell_spec W count i k g hug (by rw [hl]; exact hi) (by omega)
    refine ⟨by rw [hl2, hl], hu2, ?_⟩
    intro r c
    rw [hc2 r c]
    have hval : fillValue count i k g = fillValue count i k d := by
      apply fillValue_congr count g d i k hl
      intro r'
      rw [hcells r' k, if_neg (by omega)]
    by_cases h : r = i ∧ c = k
    · rw [if_pos h, if_pos ⟨h.1, by omega⟩, hval, h.2]
    · rw [if_neg h, hcells r c]
      by_cases h2 : r = i ∧ c < k
      · rw [if_pos h2, if_pos ⟨h2.1, by omega⟩]
      · rw [if_neg h2, if_neg]
        intro h3
        rcases Nat.lt_succ_iff_lt_or_eq.mp h3.2 with h4 | h4
        · exact h2 ⟨h3.1, h4⟩
        · exact h ⟨h3.1, h4⟩

theorem fillRow_spec (W : Nat) (count : Int) (i : Nat) (d : Grid) (hu : Uniform W d)
    (hi : i < d.length) :
    (fillRow count i d).length = d.length ∧ Uniform W (fillRow count i d) ∧
    ∀ r c, getCell (fillRow count i d) r c =
      if r = i ∧ c < W then fillValue count i c d else getCell d r c := by
  unfold fillRow
  rw [getD_row_length W d hu i hi]
  exact fillRow_upto W count i d hu hi W (le_refl _)

theorem getCell_hybrid (T d : Grid) (r : Nat) (hr : r ≤ T.length) (r' c : Nat) :
    getCell (T.take r ++ d.drop r) r' c = if r' < r then getCell T r' c else getCell d r' c := by
  simp only [getCell_eq, List.getElem?_append, List.length_take, Nat.min_eq_left hr]
  by_cases h : r' < r
  · simp only [h, if_true, List.getElem?_take]
  · simp only [h, if_false, List.getElem?_drop]
    have : r + (r' - r) = r' := by omega
    rw [this]

theorem hybrid_length (T d : Grid) (r : Nat) (hr : r ≤ T.length) (hd : r ≤ d.length) :
    (T.take r ++ d.drop r).length = d.length := by
  simp only [List.length_append, List.length_take, Nat.min_eq_left hr, List.length_drop]
  omega

theorem uniform_take (W : Nat) (d : Grid) (hu : Uniform W d) (i : Nat) : Uniform W (d.take i) :=
  fun row hrow => hu row (List.mem_of_mem_take hrow)

theorem getCell_take (d : Grid) (i r c : Nat) (hr : r < i) :
    getCell (d.take i) r c = getCell d r c := by
  simp only [getCell_eq, List.getElem?_take, hr, if_true]

theorem fillRow_take (W : Nat) (count : Int) (i : Nat) (d : Grid) (hu : Uniform W d)
    (hi : i < d.length) : (fillRow count i d).take i = d.take i := by
  obtain ⟨hl, hu1, hc⟩ := fillRow_spec W count i d hu hi
  apply grid_ext W _ _ (by simp [hl]) (uniform_take W _ hu1 i) (uniform_take W _ hu i)
  intro r c hr _
  have hri : r < i := by
    simp only [List.length_take] at hr
    omega
  rw [getCell_take _ _ _ _ hri, getCell_take _ _ _ _ hri, hc r c, if_neg (by omega)]

theorem fillLoop_spec (W : Nat) (count : Int) : ∀ (n i : Nat) (d rows : Grid),
    Uniform W d → i + n ≤ d.length → rows = d.take i →
    ∃ T, fillLoop count n i d rows = .ok T ∧ T.length = i + n ∧ Uniform W T ∧
      T.take i = rows ∧
      ∀ r, i ≤ r → r < i + n → ∀ c, c < W →
        getCell T r c = fillValue count r c (T.take r ++ d.drop r) := by
  intro n
  induction n with
  | zero =>
    intro i d rows hu hi hrows
    refine ⟨rows, rfl, ?_, ?_, ?_, ?_⟩
    · rw [hrows, List.length_take]; omega
    · rw [hrows]; exact uniform_take W d hu i
    · rw [hrows, List.take_take]; simp
    · intro r h1 h2; omega
  | succ n ih =>
    intro i d rows hu hi hrows
    have hilt : i < d.length := by omega
    obtain ⟨hl1, hu1, hc1⟩ := fillRow_spec W count i d hu hilt
    have htake := fillRow_take W count i d hu hilt
    have hrows1 : rows ++ [(fillRow count i d).getD i []] = (fillRow count i d).take (i + 1) := by
      rw [List.take_succ, htake, ← hrows, List.getD_eq_getElem?_getD,
        List.getElem?_eq_getElem (by rw [hl1]; exact hilt)]
      rfl
    obtain ⟨T, hok, hlen, huT, hTtake, hcells⟩ :=
      ih (i + 1) (fillRow count i d) (rows ++ [(fillRow count i d).getD i []]) hu1
        (by rw [hl1]; omega) hrows1
    have hTi : T.take i = rows := by
      have : T.take i = (T.take (i + 1)).take i := by
        rw [List.take_take]; simp
      rw [this, hTtake, List.take_append_of_le_length (by rw [hrows, List.length_take]; omega),
        hrows, List.take_take]
      simp
    refine ⟨T, ?_, by omega, huT, hTi, ?_⟩
    · unfold fillLoop
      rw [if_pos hilt]
      exact hok
    · intro r h1 h2 c hc
      rcases Nat.eq_or_lt_of_le h1 with h | h
      · subst h
        have hTrow : getCell T i c = getCell (fillRow count i d) i c := by
          have h1 : getCell T i c = getCell (T.take (i + 1)) i c :=
            (getCell_take T (i + 1) i c (Nat.lt_succ_self _)).symm
          rw [h1, hTtake, hrows1, getCell_take _ _ _ _ (Nat.lt_succ_self _)]
        rw [hTrow, hc1 i c, if_pos ⟨rfl, hc⟩, hTi, hrows, List.take_append_drop]
      · rw [hcells r (by omega) (by omega) c hc]
        apply fillValue_congr
        · rw [hybrid_length _ _ _ (by omega) (by rw [hl1]; omega),
            hybrid_length _ _ _ (by omega) (by omega), hl1]
        · intro r'
          rw [getCell_hybrid _ _ _ (by omega), getCell_hybrid _ _ _ (by omega)]
          by_cases hr' : r' < r
          · simp only [hr', if_true]
          · simp only [hr', if_false]
            rw [hc1 r' c, if_neg (by omega)]

/-! ## `find_valid` -/

theorem find_valid_loop_up_found (data : Grid) (col : Nat) : ∀ (fuel i k : Nat),
    i ≤ k → k < data.length → k - i < fuel → getCell data k col ≠ 0 →
    (∀ m, i ≤ m → m < k → getCell data m col = 0) →
    find_valid_loop data col 1 fuel i = getCell data k col := by
  intro fuel
  induction fuel with
  | zero => intro i k _ _ h; omega
  | succ fuel ih =>
    intro i k hik hk hfuel hne hzero
    unfold find_valid_loop
    rcases Nat.eq_or_lt_of_le hik with h | h
    · subst h
      rw [if_neg hne]
    · rw [if_pos (hzero i (le_refl _) h)]
      have hj : ¬ ((i : Int) + 1 ≥ (data.length : Int) ∨ (i : Int) + 1 < 0) := by omega
      simp only [hj, if_false]
      have hnat : ((i : Int) + 1).toNat = i + 1 := by omega
      rw [hnat]
      exact ih (i + 1) k h hk (by omega) hne (fun m h1 h2 => hzero m (by omega) h2)

theorem find_valid_loop_up_none (data : Grid) (col : Nat) : ∀ (fuel i : Nat),
    (∀ m, i ≤ m → m < data.length → getCell data m col = 0) →
    i < data.length → find_valid_loop data col 1 fuel i = 0 := by
  intro fuel
  induction fuel with
  | zero => intro i hzero hi; exact hzero i (le_refl _) hi
  | succ fuel ih =>
    intro i hzero hi
    unfold find_valid_loop
    rw [if_pos (hzero i (le_refl _) hi)]
    by_cases hj : ((i : Int) + 1 ≥ (data.length : Int) ∨ (i : Int) + 1 < 0)
    · simp only [hj, if_true]
      exact hzero i (le_refl _) hi
    · simp only [hj, if_false]
      have hnat : ((i : Int) + 1).toNat = i + 1 := by omega
      rw [hnat]
      exact ih (i + 1) (fun m h1 h2 => hzero m (by omega) h2) (by omega)

theorem find_valid_loop_down_found (data : Grid) (col : Nat) : ∀ (fuel i k : Nat),
    k ≤ i → i < data.length → i - k < fuel → getCell data k col ≠ 0 →
    (∀ m, k < m → m ≤ i → getCell data m col = 0) →
    find_valid_loop data col (-1) fuel i = getCell data k col := by
  intro fuel
  induction fuel with
  | zero => intro i k _ _ h; omega
  | succ fuel ih =>
    intro i k hki hi hfuel hne hzero
    unfold find_valid_loop
    rcases Nat.eq_or_lt_of_le hki with h | h
    · subst h
      rw [if_neg hne]
    · rw [if_pos (hzero i h (le_refl _))]
      have hj : ¬ ((i : Int) + -1 ≥ (data.length : Int) ∨ (i : Int) + -1 < 0) := by omega
      simp only [hj, if_false]
      have hnat : ((i : Int) + -1).toNat = i - 1 := by omega
      rw [hnat]
      exact ih (i - 1) k (by omega) (by omega) (by omega) hne
        (fun m h1 h2 => hzero m h1 (by omega))

theorem find_valid_loop_down_none (data : Grid) (col : Nat) : ∀ (fuel i : Nat),
    (∀ m, m ≤ i → getCell data m col = 0) →
    find_valid_loop data col (-1) fuel i = 0 := by
  intro fuel
  induction fuel with
  | zero => intro i hzero; exact hzero i (le_refl _)
  | succ fuel ih =>
    intro i hzero
    unfold find_valid_loop
    rw [if_pos (hzero i (le_refl _))]
    by_cases hj : ((i : Int) + -1 ≥ (data.length : Int) ∨ (i : Int) + -1 < 0)
    · simp only [hj, if_true]
      exact hzero i (le_refl _)
    · simp only [hj, if_false]
      have hnat : ((i : Int) + -1).toNat = i - 1 := by omega
      rw [hnat]
      exact ih (i - 1) (fun m h1 => hzero m (by omega))

/-- Searching towards later rows, `find_valid` returns the nearest non-zero
cell of the column. -/
theorem find_valid_up (data : Grid) (col i k : Nat) (hik : i ≤ k) (hk : k < data.length)
    (hne : getCell data k col ≠ 0) (hzero : ∀ m, i ≤ m → m < k → getCell data m col = 0) :
    find_valid data col i 1 = getCell data k col :=
  find_valid_loop_up_found data col data.length i k hik hk (by omega) hne hzero

theorem find_valid_up_none (data : Grid) (col i : Nat) (hi : i < data.length)
    (hzero : ∀ m, i ≤ m → m < data.length → getCell data m col = 0) :
    find_valid data col i 1 = 0 :=
  find_valid_loop_up_none data col data.length i hzero hi

/-- Searching towards earlier rows, `find_valid` returns the nearest non-zero
cell of the column. -/
theorem find_valid_down (data : Grid) (col i k : Nat) (hki : k ≤ i) (hi : i < data.length)
    (hne : getCell data k col ≠ 0) (hzero : ∀ m, k < m → m ≤ i → getCell data m col = 0) :
    find_valid data col i (-1) = getCell data k col :=
  find_valid_loop_down_found data col data.length i k hki hi (by omega) hne hzero

theorem find_valid_down_none (data : Grid) (col i : Nat)
    (hzero : ∀ m, m ≤ i → getCell data m col = 0) :
    find_valid data col i (-1) = 0 :=
  find_valid_loop_down_none data col data.length i hzero

/-! ## The table as a whole -/

theorem For_of_sound (r : Results) (hs : r.Sound) (dbid verb : String) :
    (r.For dbid verb).timestamps.length = (r.For dbid verb).durations.length ∧
    ∀ t ∈ (r.For dbid verb).timestamps, t ∈ r.allTimestamps := by
  cases h : r.results.lookup (resultKey verb dbid) with
  | none =>
    have hfor : r.For dbid verb =
        { client := dbid, verb := verb, timestamps := [], durations := [] } := by
      unfold Results.For
      simp only [h]
    rw [hfor]
    simp
  | some res =>
    have hfor : r.For dbid verb = res := by
      unfold Results.For
      simp only [h]
    rw [hfor]
    have hmem := lookup_mem_entries r _ _ h
    refine ⟨(hs _ hmem).2.1, ?_⟩
    intro t ht
    exact (mem_allTimestamps r t).mpr ⟨_, hmem, ht⟩

theorem vcell_nil (min : Int) (r c : Nat) :
    vcell min [] r c = if c = 0 then wrap64 (min + (r : Int)) else 0 := by
  simp [vcell]

/-- On a state on which the table can be built, the builder succeeds and the
sample grid and the rows of the table are as `TableFacts` describes. -/
theorem tableRows_spec (w : Workload) (hw : TableReady w) :
    ∃ G T L, TableFacts w G T L := by
  obtain ⟨hs, hrange, cl, hcl, vb, hvb, hmax⟩ := hw
  obtain ⟨hbound, hattain⟩ := MinMax_of_sound w.results hs
  have hmaxall : w.results.MinMax.2 ∈ w.results.allTimestamps :=
    (For_of_sound w.results hs cl.dbid vb).2 _ hmax
  have hne : w.results.allTimestamps ≠ [] := List.ne_nil_of_mem hmaxall
  have hminall := (hattain hne).1
  have hminmax : w.results.MinMax.1 ≤ w.results.MinMax.2 := (hbound _ hmaxall).1
  have hint : ∀ t ∈ w.results.allTimestamps, IsInt64 t := by
    intro t ht
    obtain ⟨e, he, hte⟩ := (mem_allTimestamps _ t).mp ht
    exact (hs e he).2.2 t hte
  have hminint := hint _ hminall
  have hmaxint := hint _ hmaxall
  generalize hmn : w.results.MinMax.1 = mn at *
  generalize hmx : w.results.MinMax.2 = mx at *
  have hser : ∀ client ∈ w.clients, SeriesOK mn (w.results.For client.dbid "read") ∧
      SeriesOK mn (w.results.For client.dbid "write") := by
    intro client _
    constructor
    · obtain ⟨h1, h2⟩ := For_of_sound w.results hs client.dbid "read"
      refine ⟨le_of_eq h1, fun t ht => ?_⟩
      have := hbound t (h2 t ht)
      omega
    · obtain ⟨h1, h2⟩ := For_of_sound w.results hs client.dbid "write"
      refine ⟨le_of_eq h1, fun t ht => ?_⟩
      have := hbound t (h2 t ht)
      omega
  obtain ⟨G, hG, huG, _, hcov, hlenG, hframe, hcells⟩ :=
    addClients_spec w.clients.length mn w.results w.clients 0 []
      (fun row hrow => by simp at hrow) (by omega) hser
  have hGlow : mx - mn < (G.length : Int) := hcov cl hcl vb hvb mx hmax
  have hGlen : (G.length : Int) = mx - mn + 1 := by
    rcases hlenG with h | ⟨c, _, verb, _, t, ht, h⟩
    · simp only [List.length_nil] at h
      omega
    · have := hbound t ((For_of_sound w.results hs c.dbid verb).2 t ht)
      omega
  have hcount : tableCount w.results = (G.length : Int) := by
    unfold tableCount
    rw [hmn, hmx, wrap64_eq_of_bounds (mx - mn) (by omega) (by unfold MaxInt64 at hrange; omega),
      wrap64_eq_of_bounds (mx - mn + 1) (by omega) (by unfold MaxInt64 at hrange; omega), hGlen]
  have hsG : sampleGrid w = .ok G := by
    unfold sampleGrid
    rw [hmn]
    exact hG
  obtain ⟨T, hT, hlenT, huT, _, hfill⟩ :=
    fillLoop_spec (2 * w.clients.length + 1) (G.length : Int) G.length 0 G [] huG (by omega) rfl
  have hrows : tableRows w = .ok T := by
    unfold tableRows
    rw [hsG, hcount]
    have hnat : ((G.length : Int)).toNat = G.length := by omega
    simp only [hnat]
    exact hT
  have hsample : ∀ j client, w.clients[j]? = some client → ∀ i, i < G.length →
      getCell G i (2 * j + 1) =
        ((w.results.For client.dbid "read").sampleAt (mn + (i : Int))).getD 0 ∧
      getCell G i (2 * j + 2) =
        ((w.results.For client.dbid "write").sampleAt (mn + (i : Int))).getD 0 := by
    intro j client hj i hi
    have h := hcells j client hj i
    simp only [vcell_nil, Nat.zero_add] at h
    unfold vcell at h
    simp only [hi, if_true, Nat.add_one_ne_zero, if_false] at h
    exact h
  refine ⟨G, T, G.length, ?_⟩
  refine
    { grid_ok := hsG, rows_ok := hrows, grid_length := rfl, rows_length := by omega,
      pos := by omega, length_eq := by rw [hmn, hmx]; exact hGlen,
      length_int64 := by omega, count_eq := hcount,
      grid_uniform := huG, rows_uniform := huT,
      min_int64 := by rw [hmn]; exact hminint, max_int64 := by rw [hmx]; exact hmaxint,
      timestamp_cell := ?_, sample_cell := ?_, fill_cell := ?_ }
  · intro i hi
    have h := hframe i 0 (Or.inl (by omega))
    rw [vcell_nil] at h
    unfold vcell at h
    rw [if_pos hi, if_pos rfl] at h
    rw [hmn, h]
    apply wrap64_eq_of_bounds
    · unfold IsInt64 MinInt64 at hminint; omega
    · unfold IsInt64 MaxInt64 at hmaxint; omega
  · intro j client verb hj hverb i hi
    rw [hmn]
    rcases hverb with hv | hv
    · subst hv
      have hcol : seriesColumn j "read" = 2 * j + 1 := by
        unfold seriesColumn
        rw [if_neg (by decide)]
        omega
      rw [hcol]
      exact (hsample j client hj i hi).1
    · subst hv
      have hcol : seriesColumn j "write" = 2 * j + 2 := by
        unfold seriesColumn
        rw [if_pos rfl]
        omega
      rw [hcol]
      exact (hsample j client hj i hi).2
  · intro i hi c hc
    exact hfill i (by omega) (by omega) c hc

theorem ResultsTable_of_rows (w : Workload) (T : Grid) (h : tableRows w = .ok T) :
    w.ResultsTable = .ok { Header := tableColumns w.clients,
                           Rows := T.map (fun row => row.map Value.int64) } := by
  unfold Workload.ResultsTable
  rw [h]

theorem cell_of_rows (W : Nat) (T : Grid) (hu : Uniform W T) (hdr : List String) (i c : Nat)
    (hi : i < T.length) (hc : c < W) :
    ({ Header := hdr, Rows := T.map (fun row => row.map Value.int64) } : Neo4jResult).cell i c =
      some (Value.int64 (getCell T i c)) := by
  have hrow : c < (T[i]).length := by rw [hu _ (List.getElem_mem _)]; exact hc
  simp only [Neo4jResult.cell, getCell_eq, List.getElem?_map, List.getElem?_eq_getElem hi,
    Option.map_some', Option.some_bind, Option.getD_some, List.getElem?_eq_getElem hrow]

theorem seriesColumn_bounds (w : Workload) (j : Nat) (client : Neo4jJob) (verb : String)
    (hj : w.clients[j]? = some client) :
    0 < seriesColumn j verb ∧ seriesColumn j verb < 2 * w.clients.length + 1 := by
  have hlt : j < w.clients.length := by
    by_contra hge
    rw [List.getElem?_eq_none (by omega)] at hj
    exact Option.noConfusion hj
  unfold seriesColumn
  split_ifs <;> omega

theorem TableFacts.hybrid_cell {w : Workload} {G T : Grid} {L : Nat} (hf : TableFacts w G T L)
    (i r c : Nat) (hi : i < L) :
    (T.take i ++ G.drop i).length = L ∧
    getCell (T.take i ++ G.drop i) r c = if r < i then getCell T r c else getCell G r c := by
  constructor
  · rw [hybrid_length T G i (by rw [hf.rows_length]; omega) (by rw [hf.grid_length]; omega),
      hf.grid_length]
  · exact getCell_hybrid T G i (by rw [hf.rows_length]; omega) r c

/-- A cell that holds a non-zero sample, or lies in the timestamp column, is
left as it is by the fill loop. -/
theorem TableFacts.kept {w : Workload} {G T : Grid} {L : Nat} (hf : TableFacts w G T L)
    (i c : Nat) (hi : i < L) (hc : c < 2 * w.clients.length + 1)
    (h : c = 0 ∨ getCell G i c ≠ 0) : getCell T i c = getCell G i c := by
  have hcell := (hf.hybrid_cell i i c hi).2
  rw [if_neg (lt_irrefl _)] at hcell
  rw [hf.fill_cell i hi c hc]
  unfold fillValue
  rw [hcell, if_neg]
  intro hcond
  rcases h with h | h
  · omega
  · exact h hcond.2

/-- The first row: an empty cell takes the nearest later non-zero sample. -/
theorem TableFacts.first_row {w : Workload} {G T : Grid} {L : Nat} (hf : TableFacts w G T L)
    (c : Nat) (hc0 : 0 < c) (hc : c < 2 * w.clients.length + 1) (h0 : getCell G 0 c = 0) :
    getCell T 0 c = find_valid G c 0 1 := by
  rw [hf.fill_cell 0 hf.pos c hc]
  simp only [List.take_zero, List.drop_zero, List.nil_append]
  unfold fillValue
  rw [if_pos ⟨hc0, h0⟩, if_pos rfl]

/-- The last row (when it is not the first): an empty cell takes what
`find_valid` finds above it in the grid whose rows above are filled. -/
theorem TableFacts.last_row {w : Workload} {G T : Grid} {L : Nat} (hf : TableFacts w G T L)
    (c : Nat) (hc0 : 0 < c) (hc : c < 2 * w.clients.length + 1) (hL : 2 ≤ L)
    (h0 : getCell G (L - 1) c = 0) :
    getCell T (L - 1) c = find_valid (T.take (L - 1) ++ G.drop (L - 1)) c (L - 1) (-1) := by
  have hcell := (hf.hybrid_cell (L - 1) (L - 1) c (by omega)).2
  rw [if_neg (lt_irrefl _)] at hcell
  rw [hf.fill_cell (L - 1) (by omega) c hc]
  unfold fillValue
  rw [hcell, if_pos ⟨hc0, h0⟩, if_neg (by omega)]
  have hlast : ((L - 1 : Nat) : Int) = wrap64 ((L : Int) - 1) := by
    have h1 := hf.length_int64
    unfold MaxInt64 at h1
    rw [wrap64_eq_of_bounds _ (by omega) (by omega)]
    omega
  rw [if_pos hlast]

/-- An interior row: an empty cell takes the 90/10 blend of what `find_valid`
finds above and below it. -/
theorem TableFacts.interior_row {w : Workload} {G T : Grid} {L : Nat} (hf : TableFacts w G T L)
    (i c : Nat) (hc0 : 0 < c) (hc : c < 2 * w.clients.length + 1) (hi0 : 0 < i)
    (hi : i + 1 < L) (h0 : getCell G i c = 0) :
    getCell T i c =
      Int.tdiv (wrap64 (wrap64 (9 * find_valid (T.take i ++ G.drop i) c i (-1)) +
        find_valid (T.take i ++ G.drop i) c i 1)) 10 := by
  have hcell := (hf.hybrid_cell i i c (by omega)).2
  rw [if_neg (lt_irrefl _)] at hcell
  rw [hf.fill_cell i (by omega) c hc]
  unfold fillValue
  rw [hcell, if_pos ⟨hc0, h0⟩, if_neg (by omega)]
  have hlast : ¬ ((i : Int) = wrap64 ((L : Int) - 1)) := by
    have h1 := hf.length_int64
    unfold MaxInt64 at h1
    rw [wrap64_eq_of_bounds _ (by omega) (by omega)]
    omega
  rw [if_neg hlast]

/-- In the grid met by the fill loop at row `i`, the nearest non-zero cell
above row `i` is found by the search towards earlier rows. -/
theorem TableFacts.prev_found {w : Workload} {G T : Grid} {L : Nat} (hf : TableFacts w G T L)
    (i c a : Nat) (hi : i < L) (ha : a < i) (h0 : getCell G i c = 0)
    (hne : getCell T a c ≠ 0) (hzero : ∀ m, a < m → m < i → getCell T m c = 0) :
    find_valid (T.take i ++ G.drop i) c i (-1) = getCell T a c := by
  have hy := fun r => hf.hybrid_cell i r c hi
  have hval : getCell (T.take i ++ G.drop i) a c = getCell T a c := by
    rw [(hy a).2, if_pos ha]
  rw [← hval]
  apply find_valid_down _ c i a (le_of_lt ha) (by rw [(hy 0).1]; exact hi)
  · rw [hval]; exact hne
  · intro m h1 h2
    rw [(hy m).2]
    by_cases hm : m < i
    · rw [if_pos hm]; exact hzero m h1 hm
    · rw [if_neg hm]
      have : m = i := by omega
      rw [this]; exact h0

/-- In the grid met by the fill loop at row `i`, the nearest non-zero sample
below row `i` is found by the search towards later rows. -/
theorem TableFacts.next_found {w : Workload} {G T : Grid} {L : Nat} (hf : TableFacts w G T L)
    (i c b : Nat) (hb : b < L) (hib : i ≤ b)
    (hne : getCell G b c ≠ 0) (hzero : ∀ m, i ≤ m → m < b → getCell G m c = 0) :
    find_valid (T.take i ++ G.drop i) c i 1 = getCell G b c := by
  have hy := fun r => hf.hybrid_cell i r c (by omega : i < L)
  have hval : getCell (T.take i ++ G.drop i) b c = getCell G b c := by
    rw [(hy b).2, if_neg (by omega)]
  rw [← hval]
  apply find_valid_up _ c i b hib (by rw [(hy 0).1]; exact hb)
  · rw [hval]; exact hne
  · intro m h1 h2
    rw [(hy m).2, if_neg (by omega)]
    exact hzero m h1 h2

/-! ## Samples of a series -/

theorem lastAt_of_mem : ∀ (ts ds : List Int) (t : Int), ts.length ≤ ds.length → t ∈ ts →
    ∃ d, lastAt ts ds t = some d := by
  intro ts
  induction ts with
  | nil => intro ds t _ ht; simp at ht
  | cons t0 ts ih =>
    intro ds t hlen ht
    cases ds with
    | nil => simp at hlen
    | cons d0 ds =>
      unfold lastAt
      cases hla : lastAt ts ds t with
      | some d => exact ⟨d, rfl⟩
      | none =>
        rcases List.mem_cons.mp ht with h | h
        · simp [h]
        · obtain ⟨d, hd⟩ := ih ds t (by simpa using hlen) h
          rw [hd] at hla
          exact Option.noConfusion hla

theorem lastAt_none_of_not_mem : ∀ (ts ds : List Int) (t : Int), t ∉ ts →
    lastAt ts ds t = none := by
  intro ts
  induction ts with
  | nil => intro ds t _; rfl
  | cons t0 ts ih =>
    intro ds t ht
    cases ds with
    | nil => rfl
    | cons d0 ds =>
      unfold lastAt
      rw [ih ds t (fun h => ht (List.mem_cons_of_mem _ h))]
      have : ¬ t0 = t := fun h => ht (by rw [h]; exact List.mem_cons_self _ _)
      simp [this]

/-- What `lastAt` returns is the duration at the last position of the series
whose timestamp is `t`. -/
theorem lastAt_spec : ∀ (ts ds : List Int) (t d : Int), ts.length ≤ ds.length →
    lastAt ts ds t = some d →
    ∃ k : Nat, ts[k]? = some t ∧ ds[k]? = some d ∧ ∀ k' : Nat, k < k' → ts[k']? ≠ some t := by
  intro ts
  induction ts with
  | nil => intro ds t d _ h; simp [lastAt] at h
  | cons t0 ts ih =>
    intro ds t d hlen h
    cases ds with
    | nil => simp [lastAt] at h
    | cons d0 ds =>
      have hlen' : ts.length ≤ ds.length := by simpa using hlen
      unfold lastAt at h
      cases hla : lastAt ts ds t with
      | some d' =>
        rw [hla] at h
        simp only [Option.some.injEq] at h
        subst h
        obtain ⟨k, h1, h2, h3⟩ := ih ds t d' hlen' hla
        refine ⟨k + 1, by simpa using h1, by simpa using h2, ?_⟩
        intro k' hk'
        cases k' with
        | zero => omega
        | succ k' =>
          simp only [List.getElem?_cons_succ]
          exact h3 k' (by omega)
      | none =>
        rw [hla] at h
        simp only at h
        by_cases ht0 : t0 = t
        · rw [if_pos ht0] at h
          simp only [Option.some.injEq] at h
          subst h
          refine ⟨0, by simp [ht0], by simp, ?_⟩
          intro k' hk'
          cases k' with
          | zero => omega
          | succ k' =>
            simp only [List.getElem?_cons_succ]
            intro hk
            have hmem : t ∈ ts := List.getElem?_mem hk
            obtain ⟨y, hy⟩ := lastAt_of_mem ts ds t hlen' hmem
            rw [hy] at hla
            exact Option.noConfusion hla
        · rw [if_neg ht0] at h
          exact Option.noConfusion h

theorem TableFacts.row_of_tick {w : Workload} {G T : Grid} {L : Nat} (hf : TableFacts w G T L)
    (t : Int) (h1 : w.results.MinMax.1 ≤ t) (h2 : t ≤ w.results.MinMax.2) :
    (t - w.results.MinMax.1).toNat < L ∧
    w.results.MinMax.1 + (((t - w.results.MinMax.1).toNat : Nat) : Int) = t := by
  have := hf.length_eq
  omega

theorem TableFacts.table_cell {w : Workload} {G T : Grid} {L : Nat} (hf : TableFacts w G T L)
    (i c : Nat) (hi : i < L) (hc : c < 2 * w.clients.length + 1) :
    ∃ R, w.ResultsTable = .ok R ∧ R.Header = tableColumns w.clients ∧
      R.Rows = T.map (fun row => row.map Value.int64) ∧
      R.cell i c = some (Value.int64 (getCell T i c)) :=
  ⟨_, ResultsTable_of_rows w T hf.rows_ok, rfl, rfl,
    cell_of_rows _ T hf.rows_uniform _ i c (by rw [hf.rows_length]; exact hi) hc⟩

theorem tick_bounds (w : Workload) (hw : TableReady w) (dbid verb : String) (t : Int)
    (ht : t ∈ (w.results.For dbid verb).timestamps) :
    w.results.MinMax.1 ≤ t ∧ t ≤ w.results.MinMax.2 :=
  (MinMax_of_sound w.results hw.1).1 t ((For_of_sound w.results hw.1 dbid verb).2 t ht)

/-- The duration at the last position of the series with timestamp `t` is what
`lastAt` returns. -/
theorem lastAt_of_last (ts ds : List Int) (t d : Int) (k : Nat) (hlen : ts.length ≤ ds.length)
    (hk1 : ts[k]? = some t) (hk2 : ds[k]? = some d)
    (hk3 : ∀ k' : Nat, k < k' → ts[k']? ≠ some t) : lastAt ts ds t = some d := by
  obtain ⟨d', hd'⟩ := lastAt_of_mem ts ds t hlen (List.getElem?_mem hk1)
  obtain ⟨k', h1, h2, h3⟩ := lastAt_spec ts ds t d' hlen hd'
  have hkk : k = k' := by
    rcases Nat.lt_trichotomy k k' with h | h | h
    · exact absurd h1 (hk3 k' h)
    · exact h
    · exact absurd hk1 (h3 k h)
  rw [hkk, h2] at hk2
  rw [hd']
  exact hk2

/-- C7: for every registered target (position `j` of the registry), operation
`read` or `write` and tick `t` at which the series has a sample, the table has
in row `t - min`, in the column of that series, the duration `d` of the last
sample recorded at tick `t` (the sample at the last position `k` of the series
whose timestamp is `t`), provided `d` is not zero. -/
theorem sample_cell_kept (w : Workload) (hw : TableReady w) (j : Nat) (client : Neo4jJob)
    (verb : String) (hj : w.clients[j]? = some client) (hv : verb = "read" ∨ verb = "write")
    (t d : Int) (k : Nat)
    (hk1 : (w.results.For client.dbid verb).timestamps[k]? = some t)
    (hk2 : (w.results.For client.dbid verb).durations[k]? = some d)
    (hk3 : ∀ k' : Nat, k < k' → (w.results.For client.dbid verb).timestamps[k']? ≠ some t)
    (hne : d ≠ 0) :
    ∃ R, w.ResultsTable = .ok R ∧
      R.cell (t - w.results.MinMax.1).toNat (seriesColumn j verb) = some (Value.int64 d) := by
  obtain ⟨G, T, L, hf⟩ := tableRows_spec w hw
  have hlen := (For_of_sound w.results hw.1 client.dbid verb).1
  have hd := lastAt_of_last _ _ t d k (le_of_eq hlen) hk1 hk2 hk3
  obtain ⟨hb1, hb2⟩ := tick_bounds w hw client.dbid verb t (List.getElem?_mem hk1)
  obtain ⟨hrow, htick⟩ := hf.row_of_tick t hb1 hb2
  obtain ⟨hc0, hc⟩ := seriesColumn_bounds w j client verb hj
  obtain ⟨R, hR, _, _, hcell⟩ := hf.table_cell _ _ hrow hc
  refine ⟨R, hR, ?_⟩
  have hG := hf.sample_cell j client verb hj hv _ hrow
  rw [htick] at hG
  unfold Result.sampleAt at hG
  rw [hd] at hG
  simp only [Option.getD_some] at hG
  rw [hcell, hf.kept _ _ hrow hc (Or.inr (by rw [hG]; exact hne)), hG]

theorem sample_cell_kept_witness :
    ∃ R, (exampleWorkload ["abc"]
        [("read", "abc", 1, 10), ("write", "abc", 2, 20), ("read", "abc", 3, 15),
          ("read", "abc", 3, 30)]).ResultsTable = .ok R ∧
      R.cell (3 - (exampleWorkload ["abc"]
        [("read", "abc", 1, 10), ("write", "abc", 2, 20), ("read", "abc", 3, 15),
          ("read", "abc", 3, 30)]).results.MinMax.1).toNat (seriesColumn 0 "read") =
        some (Value.int64 30) :=
  sample_cell_kept
    (exampleWorkload ["abc"]
      [("read", "abc", 1, 10), ("write", "abc", 2, 20), ("read", "abc", 3, 15),
        ("read", "abc", 3, 30)])
    ⟨by decide, by decide, exampleJob "abc", by decide, "read", Or.inl rfl, by decide⟩
    0 (exampleJob "abc") "read" rfl (Or.inl rfl) 3 30 2 (by decide) (by decide)
    (by
      intro k' hk'
      have hts : ((exampleWorkload ["abc"]
          [("read", "abc", 1, 10), ("write", "abc", 2, 20), ("read", "abc", 3, 15),
            ("read", "abc", 3, 30)]).results.For (exampleJob "abc").dbid "read").timestamps
          = [1, 3, 3] := by decide
      rw [hts, List.getElem?_eq_none (by simp only [List.length_cons, List.length_nil]; omega)]
      exact fun h => Option.noConfusion h)
    (by decide)

/-- The table returned for a state described by `TableFacts`. -/
theorem TableFacts.result {w : Workload} {G T : Grid} {L : Nat} (hf : TableFacts w G T L) :
    ∃ R, w.ResultsTable = .ok R ∧ R.Header = tableColumns w.clients ∧ R.Rows.length = L ∧
      (∀ row ∈ R.Rows, row.length = 2 * w.clients.length + 1) ∧
      ∀ i c, i < L → c < 2 * w.clients.length + 1 →
        R.cell i c = some (Value.int64 (getCell T i c)) := by
  refine ⟨_, ResultsTable_of_rows w T hf.rows_ok, rfl, ?_, ?_, ?_⟩
  · simp [hf.rows_length]
  · intro row hrow
    simp only [List.mem_map] at hrow
    obtain ⟨r, hr, rfl⟩ := hrow
    rw [List.length_map]
    exact hf.rows_uniform r hr
  · intro i c hi hc
    exact cell_of_rows _ T hf.rows_uniform _ i c (by rw [hf.rows_length]; exact hi) hc

theorem lastAt_some_mem (ts ds : List Int) (t d : Int) (hlen : ts.length ≤ ds.length)
    (h : lastAt ts ds t = some d) : t ∈ ts ∧ d ∈ ds := by
  obtain ⟨k, h1, h2, _⟩ := lastAt_spec ts ds t d hlen h
  exact ⟨List.getElem?_mem h1, List.getElem?_mem h2⟩

/-- The sample grid cell of a series column at the row of tick `min + i`. -/
theorem TableFacts.grid_cell {w : Workload} {G T : Grid} {L : Nat} (hf : TableFacts w G T L)
    (j : Nat) (client : Neo4jJob) (verb : String) (hj : w.clients[j]? = some client)
    (hv : verb = "read" ∨ verb = "write") (i : Nat) (hi : i < L) :
    getCell G i (seriesColumn j verb) =
      ((w.results.For client.dbid verb).sampleAt (w.results.MinMax.1 + (i : Int))).getD 0 :=
  hf.sample_cell j client verb hj hv i hi

theorem blend_same (d : Int) (h : IsInt64 (10 * d)) :
    Int.tdiv (wrap64 (wrap64 (9 * d) + d)) 10 = d := by
  unfold IsInt64 MinInt64 MaxInt64 at h
  rw [wrap64_eq_of_bounds (9 * d) (by omega) (by omega),
    wrap64_eq_of_bounds (9 * d + d) (by omega) (by omega)]
  have : 9 * d + d = 10 * d := by ring
  rw [this]
  exact Int.mul_tdiv_cancel_left d (by decide)

theorem blend_floor (p n : Int) (hp : 0 ≤ p) (hn : 0 ≤ n) (h : 9 * p + n ≤ MaxInt64) :
    Int.tdiv (wrap64 (wrap64 (9 * p) + n)) 10 = (9 * p + n) / 10 := by
  unfold MaxInt64 at h
  rw [wrap64_eq_of_bounds (9 * p) (by omega) (by omega),
    wrap64_eq_of_bounds (9 * p + n) (by omega) (by omega)]
  exact Int.tdiv_eq_ediv (by omega) (by decide)

/-- Forward fill of a leading gap, on the rows of the table. -/
theorem TableFacts.leading_gap {w : Workload} {G T : Grid} {L : Nat} (hf : TableFacts w G T L)
    (c k : Nat) (d : Int) (hc0 : 0 < c) (hc : c < 2 * w.clients.length + 1) (hk : k < L)
    (hd : getCell G k c = d) (hne : d ≠ 0) (hint : IsInt64 (10 * d))
    (hzero : ∀ m, m < k → getCell G m c = 0) :
    ∀ i, i ≤ k → getCell T i c = d := by
  intro i
  induction i with
  | zero =>
    intro _
    by_cases hk0 : k = 0
    · rw [hf.kept 0 c hf.pos hc (Or.inr (by rw [← hk0, hd]; exact hne)), ← hk0, hd]
    · rw [hf.first_row c hc0 hc (hzero 0 (by omega)), ← hd]
      exact find_valid_up G c 0 k (by omega) (by rw [hf.grid_length]; exact hk)
        (by rw [hd]; exact hne) (fun m _ h2 => hzero m h2)
  | succ i ih =>
    intro hi
    have hprev := ih (by omega)
    rcases Nat.eq_or_lt_of_le hi with h | h
    · rw [h, hf.kept k c hk hc (Or.inr (by rw [hd]; exact hne)), hd]
    · have hG0 : getCell G (i + 1) c = 0 := hzero (i + 1) h
      rw [hf.interior_row (i + 1) c hc0 hc (by omega) (by omega) hG0,
        hf.prev_found (i + 1) c i (by omega) (by omega) hG0 (by rw [hprev]; exact hne)
          (fun m h1 h2 => by omega),
        hf.next_found (i + 1) c k hk (by omega) (by rw [hd]; exact hne)
          (fun m _ h2 => hzero m h2),
        hprev, hd]
      exact blend_same d hint

/-- C3: for every column (series of a registered target) whose first non-zero
sample, of duration `d`, lies at a tick `t0` (later than the first tick `min`
of the grid, or at it), every row from tick `min` up to tick `t0` holds `d` in
that column (durations being small enough for `10*d` to be an `int64`). -/
theorem leading_gap_forward_fill (w : Workload) (hw : TableReady w) (j : Nat)
    (client : Neo4jJob) (verb : String) (hj : w.clients[j]? = some client)
    (hv : verb = "read" ∨ verb = "write") (t0 d : Int)
    (hd : (w.results.For client.dbid verb).sampleAt t0 = some d) (hne : d ≠ 0)
    (hint : IsInt64 (10 * d))
    (hbefore : ∀ t, t < t0 → ((w.results.For client.dbid verb).sampleAt t).getD 0 = 0) :
    ∃ R, w.ResultsTable = .ok R ∧
      ∀ i : Nat, (i : Int) ≤ t0 - w.results.MinMax.1 →
        R.cell i (seriesColumn j verb) = some (Value.int64 d) := by
  obtain ⟨G, T, L, hf⟩ := tableRows_spec w hw
  have hlen := (For_of_sound w.results hw.1 client.dbid verb).1
  have hmem := (lastAt_some_mem _ _ t0 d (le_of_eq hlen) hd).1
  obtain ⟨hb1, hb2⟩ := tick_bounds w hw client.dbid verb t0 hmem
  obtain ⟨hrow, htick⟩ := hf.row_of_tick t0 hb1 hb2
  obtain ⟨hc0, hc⟩ := seriesColumn_bounds w j client verb hj
  obtain ⟨R, hR, _, _, _, hcell⟩ := hf.result
  refine ⟨R, hR, ?_⟩
  intro i hi
  have hik : i ≤ (t0 - w.results.MinMax.1).toNat := by omega
  rw [hcell i _ (by omega) hc]
  congr 2
  apply hf.leading_gap (seriesColumn j verb) (t0 - w.results.MinMax.1).toNat d hc0 hc hrow
    ?_ hne hint ?_ i hik
  · rw [hf.grid_cell j client verb hj hv _ hrow, htick, hd]
    rfl
  · intro m hm
    rw [hf.grid_cell j client verb hj hv m (by omega)]
    exact hbefore _ (by omega)

theorem leading_gap_forward_fill_witness :
    ∃ R, (exampleWorkload ["abc"]
        [("write", "abc", 2, 7), ("write", "abc", 5, 9), ("read", "abc", 5, 10)]).ResultsTable
          = .ok R ∧
      ∀ i : Nat, (i : Int) ≤ 5 - (exampleWorkload ["abc"]
        [("write", "abc", 2, 7), ("write", "abc", 5, 9),
          ("read", "abc", 5, 10)]).results.MinMax.1 →
        R.cell i (seriesColumn 0 "read") = some (Value.int64 10) :=
  leading_gap_forward_fill
    (exampleWorkload ["abc"]
      [("write", "abc", 2, 7), ("write", "abc", 5, 9), ("read", "abc", 5, 10)])
    ⟨by decide, by decide, exampleJob "abc", by decide, "read", Or.inl rfl, by decide⟩
    0 (exampleJob "abc") "read" rfl (Or.inl rfl) 5 10 (by decide) (by decide) (by decide)
    (by
      intro t ht
      have hnot : t ∉ ((exampleWorkload ["abc"]
          [("write", "abc", 2, 7), ("write", "abc", 5, 9),
            ("read", "abc", 5, 10)]).results.For (exampleJob "abc").dbid "read").timestamps := by
        have hts : ((exampleWorkload ["abc"]
            [("write", "abc", 2, 7), ("write", "abc", 5, 9),
              ("read", "abc", 5, 10)]).results.For (exampleJob "abc").dbid "read").timestamps
            = [5] := by decide
        rw [hts, List.mem_singleton]
        omega
      unfold Result.sampleAt
      rw [lastAt_none_of_not_mem _ _ t hnot]
      rfl)

/-- A column without a non-zero sample is zero in every row of the table. -/
theorem TableFacts.zero_column {w : Workload} {G T : Grid} {L : Nat} (hf : TableFacts w G T L)
    (c : Nat) (hc0 : 0 < c) (hc : c < 2 * w.clients.length + 1)
    (hzero : ∀ m, m < L → getCell G m c = 0) :
    ∀ i, i < L → getCell T i c = 0 := by
  intro i
  induction i using Nat.strong_induction_on with
  | _ i ih =>
    intro hi
    have hy := fun r => hf.hybrid_cell i r c hi
    have hall : ∀ m, m < L → getCell (T.take i ++ G.drop i) m c = 0 := by
      intro m hm
      rw [(hy m).2]
      by_cases h : m < i
      · rw [if_pos h]; exact ih m h hm
      · rw [if_neg h]; exact hzero m hm
    have hup : find_valid (T.take i ++ G.drop i) c i 1 = 0 :=
      find_valid_up_none _ c i (by rw [(hy 0).1]; exact hi)
        (fun m _ h2 => hall m (by rw [(hy 0).1] at h2; exact h2))
    have hdown : find_valid (T.take i ++ G.drop i) c i (-1) = 0 :=
      find_valid_down_none _ c i (fun m h1 => hall m (by omega))
    rw [hf.fill_cell i hi c hc]
    unfold fillValue
    rw [hall i hi, if_pos ⟨hc0, rfl⟩, hup, hdown]
    split_ifs <;> decide

/-- C5, as amended: `ResultsTable` has no degenerate-column error; where the
table can be built (the series of the store are sorted with a duration for
every timestamp, the range of the ticks fits `int64`, and the latest tick of
the store belongs to a series of a registered target), when a column of the
grid (the read or write series of a registered target) has no non-zero
duration, the table is returned all the same, and that column holds 0 in
every row. -/
theorem degenerate_column_is_zero (w : Workload) (hw : TableReady w) (j : Nat)
    (client : Neo4jJob) (verb : String) (hj : w.clients[j]? = some client)
    (hv : verb = "read" ∨ verb = "write")
    (hnone : ∀ d ∈ (w.results.For client.dbid verb).durations, d = 0) :
    ∃ R, w.ResultsTable = .ok R ∧
      ∀ i : Nat, (i : Int) ≤ w.results.MinMax.2 - w.results.MinMax.1 →
        R.cell i (seriesColumn j verb) = some (Value.int64 0) := by
  obtain ⟨G, T, L, hf⟩ := tableRows_spec w hw
  have hlen := (For_of_sound w.results hw.1 client.dbid verb).1
  obtain ⟨hc0, hc⟩ := seriesColumn_bounds w j client verb hj
  obtain ⟨R, hR, _, _, _, hcell⟩ := hf.result
  refine ⟨R, hR, ?_⟩
  intro i hi
  have hiL : i < L := by have := hf.length_eq; omega
  rw [hcell i _ hiL hc]
  congr 2
  apply hf.zero_column (seriesColumn j verb) hc0 hc ?_ i hiL
  intro m hm
  rw [hf.grid_cell j client verb hj hv m hm]
  cases hs : (w.results.For client.dbid verb).sampleAt (w.results.MinMax.1 + (m : Int)) with
  | none => rfl
  | some d =>
    exact hnone d (lastAt_some_mem _ _ _ d (le_of_eq hlen) hs).2

theorem degenerate_column_is_zero_witness :
    ∃ R, (exampleWorkload ["abc"] [("read", "abc", 1, 5), ("read", "abc", 2, 6)]).ResultsTable
          = .ok R ∧
      ∀ i : Nat, (i : Int) ≤
          (exampleWorkload ["abc"] [("read", "abc", 1, 5), ("read", "abc", 2, 6)]).results.MinMax.2
          - (exampleWorkload ["abc"]
              [("read", "abc", 1, 5), ("read", "abc", 2, 6)]).results.MinMax.1 →
        R.cell i (seriesColumn 0 "write") = some (Value.int64 0) :=
  degenerate_column_is_zero
    (exampleWorkload ["abc"] [("read", "abc", 1, 5), ("read", "abc", 2, 6)])
    ⟨by decide, by decide, exampleJob "abc", by decide, "read", Or.inl rfl, by decide⟩
    0 (exampleJob "abc") "write" rfl (Or.inr rfl) (by decide)

/-- C5, counterexample: a registered target with read samples at ticks 1 and 2
and no write sample; `ResultsTable` returns a table (its write column is 0)
instead of failing. -/
theorem degenerate_column_returns_table :
    (exampleWorkload ["abc"] [("read", "abc", 1, 5), ("read", "abc", 2, 6)]).ResultsTable =
      .ok { Header := ["timestamp", "read:abc", "write:abc"],
            Rows := [[.int64 1, .int64 5, .int64 0], [.int64 2, .int64 6, .int64 0]] } := by
  decide

theorem cell_value (T : Grid) (L W : Nat) (R : Neo4jResult)
    (hcell : ∀ i c, i < L → c < W → R.cell i c = some (Value.int64 (getCell T i c)))
    (i c : Nat) (hi : i < L) (hc : c < W) (v : Int)
    (h : R.cell i c = some (Value.int64 v)) : getCell T i c = v := by
  rw [hcell i c hi hc] at h
  injection h with h
  injection h

/-- C2, as amended: where the table can be built, for every interior row `i`
(neither the first nor the last row) and every data column (series of a
registered target), a cell that received no sample is filled with
`(9*p + n)/10` rounded down, where `n` is the nearest later non-zero sample of
the column and `p` is the nearest earlier non-zero value of the column in the
table as gap-filled so far (rows are filled in place, in ascending order): the
sample of the row above when that row holds a non-zero sample, and otherwise
the value the row above was filled with; for durations that are not negative
and do not overflow `int64`.  The series with samples 10 and 20 at ticks 2 and
4 gives the column 10, 11, 20. -/
theorem interior_gap_blend (w : Workload) (hw : TableReady w) (j : Nat)
    (client : Neo4jJob) (verb : String) (hj : w.clients[j]? = some client)
    (hv : verb = "read" ∨ verb = "write") :
    (∃ R, w.ResultsTable = .ok R ∧
      (∀ (i a b : Nat) (p n : Int),
        0 < i → (i : Int) < w.results.MinMax.2 - w.results.MinMax.1 →
        ((w.results.For client.dbid verb).sampleAt (w.results.MinMax.1 + (i : Int))).getD 0 = 0 →
        a < i → R.cell a (seriesColumn j verb) = some (Value.int64 p) → p ≠ 0 →
        (∀ m, a < m → m < i → R.cell m (seriesColumn j verb) = some (Value.int64 0)) →
        i < b →
        (w.results.For client.dbid verb).sampleAt (w.results.MinMax.1 + (b : Int)) = some n →
        n ≠ 0 →
        (∀ m : Nat, i < m → m < b →
          ((w.results.For client.dbid verb).sampleAt (w.results.MinMax.1 + (m : Int))).getD 0
            = 0) →
        0 ≤ p → 0 ≤ n → 9 * p + n ≤ MaxInt64 →
        R.cell i (seriesColumn j verb) = some (Value.int64 ((9 * p + n) / 10))) ∧
      (∀ (i b : Nat) (p n : Int),
        (i : Int) < w.results.MinMax.2 - w.results.MinMax.1 →
        ((w.results.For client.dbid verb).sampleAt
          (w.results.MinMax.1 + ((i + 1 : Nat) : Int))).getD 0 = 0 →
        (w.results.For client.dbid verb).sampleAt (w.results.MinMax.1 + (i : Int)) = some p →
        p ≠ 0 → i + 1 < b →
        (w.results.For client.dbid verb).sampleAt (w.results.MinMax.1 + (b : Int)) = some n →
        n ≠ 0 →
        (∀ m : Nat, i + 1 < m → m < b →
          ((w.results.For client.dbid verb).sampleAt (w.results.MinMax.1 + (m : Int))).getD 0
            = 0) →
        0 ≤ p → 0 ≤ n → 9 * p + n ≤ MaxInt64 →
        R.cell i (seriesColumn j verb) = some (Value.int64 p) ∧
        R.cell (i + 1) (seriesColumn j verb) = some (Value.int64 ((9 * p + n) / 10)))) ∧
    (exampleWorkload ["abc"] [("read", "abc", 2, 10), ("read", "abc", 4, 20)]).ResultsTable =
      .ok { Header := ["timestamp", "read:abc", "write:abc"],
            Rows := [[.int64 2, .int64 10, .int64 0], [.int64 3, .int64 11, .int64 0],
                     [.int64 4, .int64 20, .int64 0]] } := by
  refine ⟨?_, by decide⟩
  obtain ⟨G, T, L, hf⟩ := tableRows_spec w hw
  have hlen := (For_of_sound w.results hw.1 client.dbid verb).1
  obtain ⟨hc0, hc⟩ := seriesColumn_bounds w j client verb hj
  obtain ⟨R, hR, _, _, _, hcell⟩ := hf.result
  have hgen : ∀ (i a b : Nat) (p n : Int),
      0 < i → (i : Int) < w.results.MinMax.2 - w.results.MinMax.1 →
      ((w.results.For client.dbid verb).sampleAt (w.results.MinMax.1 + (i : Int))).getD 0 = 0 →
      a < i → R.cell a (seriesColumn j verb) = some (Value.int64 p) → p ≠ 0 →
      (∀ m, a < m → m < i → R.cell m (seriesColumn j verb) = some (Value.int64 0)) →
      i < b →
      (w.results.For client.dbid verb).sampleAt (w.results.MinMax.1 + (b : Int)) = some n →
      n ≠ 0 →
      (∀ m : Nat, i < m → m < b →
        ((w.results.For client.dbid verb).sampleAt (w.results.MinMax.1 + (m : Int))).getD 0
          = 0) →
      0 ≤ p → 0 ≤ n → 9 * p + n ≤ MaxInt64 →
      R.cell i (seriesColumn j verb) = some (Value.int64 ((9 * p + n) / 10)) := ?_
  · refine ⟨R, hR, hgen, ?_⟩
    intro i b p n hi hzi hpi hp0 hib hnb hn0 hnz hp hn hsmall
    have hL := hf.length_eq
    have hiL : i < L := by omega
    have hGi : getCell G i (seriesColumn j verb) = p := by
      rw [hf.grid_cell j client verb hj hv i hiL, hpi]; rfl
    have hRi : R.cell i (seriesColumn j verb) = some (Value.int64 p) := by
      rw [hcell i _ hiL hc, hf.kept i _ hiL hc (Or.inr (by rw [hGi]; exact hp0)), hGi]
    refine ⟨hRi, ?_⟩
    have hmem := (lastAt_some_mem _ _ _ n (le_of_eq hlen) hnb).1
    obtain ⟨_, hb2⟩ := tick_bounds w hw client.dbid verb _ hmem
    exact hgen (i + 1) i b p n (by omega) (by push_cast; omega) hzi (by omega) hRi hp0
      (fun m h1 h2 => by omega) hib hnb hn0 hnz hp hn hsmall
  intro i a b p n hi0 hi hzi ha hpa hp0 hpz hib hnb hn0 hnz hp hn hsmall
  have hL := hf.length_eq
  have hiL : i + 1 < L := by omega
  have hmem := (lastAt_some_mem _ _ _ n (le_of_eq hlen) hnb).1
  obtain ⟨_, hb2⟩ := tick_bounds w hw client.dbid verb _ hmem
  have hbL : b < L := by omega
  have hGi : getCell G i (seriesColumn j verb) = 0 := by
    rw [hf.grid_cell j client verb hj hv i (by omega)]; exact hzi
  have hGb : getCell G b (seriesColumn j verb) = n := by
    rw [hf.grid_cell j client verb hj hv b hbL, hnb]; rfl
  have hTa : getCell T a (seriesColumn j verb) = p :=
    cell_value T L _ R hcell a _ (by omega) hc p hpa
  rw [hcell i _ (by omega) hc]
  congr 2
  rw [hf.interior_row i _ hc0 hc hi0 hiL hGi,
    hf.prev_found i _ a (by omega) ha hGi (by rw [hTa]; exact hp0)
      (fun m h1 h2 => cell_value T L _ R hcell m _ (by omega) hc 0 (hpz m h1 h2)),
    hf.next_found i _ b hbL (by omega) (by rw [hGb]; exact hn0) ?_, hTa, hGb]
  · exact blend_floor p n hp hn hsmall
  · intro m h1 h2
    rcases Nat.eq_or_lt_of_le h1 with h | h
    · rw [← h]; exact hGi
    · rw [hf.grid_cell j client verb hj hv m (by omega)]
      exact hnz m h h2

theorem interior_gap_blend_witness :
    ∃ R, (exampleWorkload ["abc"]
        [("read", "abc", 2, 10), ("read", "abc", 4, 20)]).ResultsTable = .ok R ∧
      R.cell 1 (seriesColumn 0 "read") = some (Value.int64 ((9 * 10 + 20) / 10)) := by
  obtain ⟨R, hR, h, -⟩ := (interior_gap_blend
    (exampleWorkload ["abc"] [("read", "abc", 2, 10), ("read", "abc", 4, 20)])
    ⟨by decide, by decide, exampleJob "abc", by decide, "read", Or.inl rfl, by decide⟩
    0 (exampleJob "abc") "read" rfl (Or.inl rfl)).1
  have hE : (exampleWorkload ["abc"]
      [("read", "abc", 2, 10), ("read", "abc", 4, 20)]).ResultsTable =
      .ok { Header := ["timestamp", "read:abc", "write:abc"],
            Rows := [[.int64 2, .int64 10, .int64 0], [.int64 3, .int64 11, .int64 0],
                     [.int64 4, .int64 20, .int64 0]] } := by decide
  have hRe := Except.ok.inj (hE.symm.trans hR)
  refine ⟨R, hR, h 1 0 2 10 20 (by decide) (by decide) (by decide) (by decide) ?_ (by decide)
    ?_ (by decide) (by decide) (by decide) ?_ (by decide) (by decide) (by decide)⟩
  · rw [← hRe]; decide
  · intro m h1 h2; omega
  · intro m h1 h2; omega

/-- C2, counterexample: the read series of the only target has the samples 100
at tick 1 and 10 at tick 4.  For the interior row of tick 3 the nearest earlier
sample is 100 and the nearest later one 10, and `(9*100 + 10)/10` is 91, but the
cell holds 82: the blend of the filled cell 91 of tick 2 with 10. -/
theorem interior_gap_not_nearest_sample :
    (exampleWorkload ["abc"] [("read", "abc", 1, 100), ("read", "abc", 4, 10)]).ResultsTable =
      .ok { Header := ["timestamp", "read:abc", "write:abc"],
            Rows := [[.int64 1, .int64 100, .int64 0], [.int64 2, .int64 91, .int64 0],
                     [.int64 3, .int64 82, .int64 0], [.int64 4, .int64 10, .int64 0]] } ∧
    ((exampleWorkload ["abc"] [("read", "abc", 1, 100), ("read", "abc", 4, 10)]).results.For
      "abc" "read").timestamps = [1, 4] ∧
    ((exampleWorkload ["abc"] [("read", "abc", 1, 100), ("read", "abc", 4, 10)]).results.For
      "abc" "read").durations = [100, 10] ∧
    (9 * 100 + 10) / 10 = (91 : Int) ∧ (9 * 91 + 10) / 10 = (82 : Int) := by
  refine ⟨by decide, by decide, by decide, by decide, by decide⟩

/-- C4, as amended: for every column (series of a registered target) without a
non-zero sample at the last tick `max` of the grid, the cell of the last row is
the value `p` of the nearest earlier row whose cell in the table, gap-filled by
then, is not zero; it is the duration of the column's last sample when that
sample lies at tick `max - 1`. -/
theorem trailing_gap_last_row (w : Workload) (hw : TableReady w) (j : Nat)
    (client : Neo4jJob) (verb : String) (hj : w.clients[j]? = some client)
    (hv : verb = "read" ∨ verb = "write")
    (hlast : ((w.results.For client.dbid verb).sampleAt w.results.MinMax.2).getD 0 = 0) :
    ∃ R, w.ResultsTable = .ok R ∧
      (∀ (a : Nat) (p : Int), (a : Int) < w.results.MinMax.2 - w.results.MinMax.1 →
        R.cell a (seriesColumn j verb) = some (Value.int64 p) → p ≠ 0 →
        (∀ m : Nat, a < m → (m : Int) < w.results.MinMax.2 - w.results.MinMax.1 →
          R.cell m (seriesColumn j verb) = some (Value.int64 0)) →
        R.cell (w.results.MinMax.2 - w.results.MinMax.1).toNat (seriesColumn j verb) =
          some (Value.int64 p)) ∧
      (∀ d : Int, (w.results.For client.dbid verb).sampleAt (w.results.MinMax.2 - 1) = some d →
        d ≠ 0 →
        R.cell (w.results.MinMax.2 - w.results.MinMax.1).toNat (seriesColumn j verb) =
          some (Value.int64 d)) := by
  obtain ⟨G, T, L, hf⟩ := tableRows_spec w hw
  have hlen := (For_of_sound w.results hw.1 client.dbid verb).1
  obtain ⟨hc0, hc⟩ := seriesColumn_bounds w j client verb hj
  obtain ⟨R, hR, _, _, _, hcell⟩ := hf.result
  have hL := hf.length_eq
  have hrow : (w.results.MinMax.2 - w.results.MinMax.1).toNat = L - 1 := by omega
  have hGlast : 2 ≤ L → getCell G (L - 1) (seriesColumn j verb) = 0 := by
    intro h2
    rw [hf.grid_cell j client verb hj hv (L - 1) (by omega)]
    have : w.results.MinMax.1 + ((L - 1 : Nat) : Int) = w.results.MinMax.2 := by omega
    rw [this]; exact hlast
  have key : ∀ (a : Nat) (p : Int), a < L - 1 → getCell T a (seriesColumn j verb) = p → p ≠ 0 →
      (∀ m : Nat, a < m → m < L - 1 → getCell T m (seriesColumn j verb) = 0) →
      R.cell (L - 1) (seriesColumn j verb) = some (Value.int64 p) := by
    intro a p ha hTa hp0 hz
    rw [hcell (L - 1) _ (by omega) hc]
    congr 2
    rw [hf.last_row _ hc0 hc (by omega) (hGlast (by omega)),
      hf.prev_found (L - 1) _ a (by omega) ha (hGlast (by omega)) (by rw [hTa]; exact hp0) hz,
      hTa]
  refine ⟨R, hR, ?_, ?_⟩
  · intro a p ha hpa hp0 hz
    rw [hrow]
    exact key a p (by omega) (cell_value T L _ R hcell a _ (by omega) hc p hpa) hp0
      (fun m h1 h2 => cell_value T L _ R hcell m _ (by omega) hc 0 (hz m h1 (by omega)))
  · intro d hd hd0
    have hmem := (lastAt_some_mem _ _ _ d (le_of_eq hlen) hd).1
    obtain ⟨hb1, _⟩ := tick_bounds w hw client.dbid verb _ hmem
    rw [hrow]
    apply key (L - 2) d (by omega) ?_ hd0 (fun m h1 h2 => by omega)
    have hG : getCell G (L - 2) (seriesColumn j verb) = d := by
      rw [hf.grid_cell j client verb hj hv (L - 2) (by omega)]
      have : w.results.MinMax.1 + ((L - 2 : Nat) : Int) = w.results.MinMax.2 - 1 := by omega
      rw [this, hd]; rfl
    rw [hf.kept (L - 2) _ (by omega) hc (Or.inr (by rw [hG]; exact hd0)), hG]

theorem trailing_gap_last_row_witness :
    ∃ R, (exampleWorkload ["abc"]
        [("read", "abc", 1, 100), ("write", "abc", 1, 7), ("write", "abc", 2, 7),
          ("write", "abc", 3, 7), ("write", "abc", 4, 7)]).ResultsTable = .ok R ∧
      R.cell ((exampleWorkload ["abc"]
          [("read", "abc", 1, 100), ("write", "abc", 1, 7), ("write", "abc", 2, 7),
            ("write", "abc", 3, 7), ("write", "abc", 4, 7)]).results.MinMax.2 -
        (exampleWorkload ["abc"]
          [("read", "abc", 1, 100), ("write", "abc", 1, 7), ("write", "abc", 2, 7),
            ("write", "abc", 3, 7), ("write", "abc", 4, 7)]).results.MinMax.1).toNat
        (seriesColumn 0 "read") = some (Value.int64 81) := by
  obtain ⟨R, hR, h, _⟩ := trailing_gap_last_row
    (exampleWorkload ["abc"]
      [("read", "abc", 1, 100), ("write", "abc", 1, 7), ("write", "abc", 2, 7),
        ("write", "abc", 3, 7), ("write", "abc", 4, 7)])
    ⟨by decide, by decide, exampleJob "abc", by decide, "write", Or.inr rfl, by decide⟩
    0 (exampleJob "abc") "read" rfl (Or.inl rfl) (by decide)
  have hE : (exampleWorkload ["abc"]
      [("read", "abc", 1, 100), ("write", "abc", 1, 7), ("write", "abc", 2, 7),
        ("write", "abc", 3, 7), ("write", "abc", 4, 7)]).ResultsTable =
      .ok { Header := ["timestamp", "read:abc", "write:abc"],
            Rows := [[.int64 1, .int64 100, .int64 7], [.int64 2, .int64 90, .int64 7],
                     [.int64 3, .int64 81, .int64 7], [.int64 4, .int64 81, .int64 7]] } := by
    decide
  have hRe := Except.ok.inj (hE.symm.trans hR)
  refine ⟨R, hR, h 2 81 (by decide) ?_ (by decide) ?_⟩
  · rw [← hRe]; decide
  · intro m h1 h2
    have h3 : (m : Int) < 3 := h2
    omega

/-- C4, counterexample: the read series of the only target has one sample, of
duration 100 at tick 1, and the write series reaches tick 4; the last row of
the read column holds 81, not 100. -/
theorem trailing_gap_not_last_sample :
    (exampleWorkload ["abc"]
        [("read", "abc", 1, 100), ("write", "abc", 1, 7), ("write", "abc", 2, 7),
          ("write", "abc", 3, 7), ("write", "abc", 4, 7)]).ResultsTable =
      .ok { Header := ["timestamp", "read:abc", "write:abc"],
            Rows := [[.int64 1, .int64 100, .int64 7], [.int64 2, .int64 90, .int64 7],
                     [.int64 3, .int64 81, .int64 7], [.int64 4, .int64 81, .int64 7]] } ∧
    ((exampleWorkload ["abc"]
        [("read", "abc", 1, 100), ("write", "abc", 1, 7), ("write", "abc", 2, 7),
          ("write", "abc", 3, 7), ("write", "abc", 4, 7)]).results.For "abc" "read").durations
      = [100] := by
  decide

/-- The dense grid, on the states on which the table can be built: `max-min+1`
rows of `2*(number of targets)+1` cells, row `i` starting with the timestamp
`min+i`, under the header of the registry. -/
theorem ResultsTable_dense (w : Workload) (hw : TableReady w) :
    ∃ R, w.ResultsTable = .ok R ∧
      R.Header = tableColumns w.clients ∧
      (R.Rows.length : Int) = w.results.MinMax.2 - w.results.MinMax.1 + 1 ∧
      (∀ row ∈ R.Rows, row.length = 2 * w.clients.length + 1) ∧
      ∀ i : Nat, i < R.Rows.length →
        R.cell i 0 = some (Value.int64 (w.results.MinMax.1 + (i : Int))) := by
  obtain ⟨G, T, L, hf⟩ := tableRows_spec w hw
  obtain ⟨R, hR, hH, hlen, hwidth, hcell⟩ := hf.result
  refine ⟨R, hR, hH, by rw [hlen]; exact hf.length_eq, hwidth, ?_⟩
  intro i hi
  rw [hlen] at hi
  rw [hcell i 0 hi (by omega), hf.kept i 0 hi (by omega) (Or.inl rfl), hf.timestamp_cell i hi]

/-- C6: in the state left by a run on the targets `abc` and `xyz` that stored
a read sample of `abc` at tick 1 and one of `xyz` at tick 2, once `xyz` has
been removed from the registry, the store holds samples and `MinMax` is
`(1, 2)`, but `ResultsTable` panics at `data[1]` instead of returning the two
rows of the ticks 1 and 2. -/
theorem ResultsTable_panics_beyond_registered :
    removedTargetState.clients = [exampleJob "abc"] ∧
    removedTargetState.results.allTimestamps = [2, 1] ∧
    removedTargetState.results.MinMax = (1, 2) ∧
    removedTargetState.ResultsTable = .error .indexOutOfRange := by
  decide

theorem addClients_cleared (nclients : Nat) (min : Int) (tm : TimestampMaker) :
    ∀ (clients : List Neo4jJob) (k0 : Nat) (data : Grid),
      addClients nclients min { timestampMaker := tm, results := ∅ } k0 clients data =
        .ok data := by
  intro clients
  induction clients with
  | nil => intro k0 data; rfl
  | cons client rest ih =>
    intro k0 data
    unfold addClients
    have hfor : ∀ verb : String,
        (Results.For { timestampMaker := tm, results := ∅ } client.dbid verb).timestamps = [] := by
      intro verb
      unfold Results.For
      simp only [AList.lookup_empty]
    rw [hfor "read", hfor "write"]
    simp only [add_data]
    exact ih (k0 + 1) data

/-- C8: on every state whose store is empty (as `Clear` leaves it, whatever
the registry), `MinMax` is `(MaxInt64, MinInt64)`, the row count `max-min+1`
wraps to 2, no row is allocated, and `ResultsTable` panics at `data[0]`. -/
theorem ResultsTable_panics_on_empty_store (w : Workload) :
    ({ w with results := w.results.Clear } : Workload).results.MinMax = (MaxInt64, MinInt64) ∧
    tableCount ({ w with results := w.results.Clear } : Workload).results = 2 ∧
    ({ w with results := w.results.Clear } : Workload).ResultsTable =
      .error .indexOutOfRange := by
  have hcount : tableCount w.results.Clear = 2 := by
    have h : w.results.Clear.MinMax = (MaxInt64, MinInt64) := rfl
    unfold tableCount
    rw [h]
    decide
  refine ⟨rfl, hcount, ?_⟩
  have hgrid : sampleGrid ({ w with results := w.results.Clear } : Workload) = .ok [] := by
    unfold sampleGrid
    exact addClients_cleared _ _ _ _ _ _
  unfold Workload.ResultsTable tableRows
  rw [hgrid]
  simp only [hcount]
  rfl

/-! ## Store invariant -/

/-- Lengths and order of every series, kept by `Add`: `R` relates any two
values the source has returned, the earlier to the later. -/
theorem Add_series (R : Int → Int → Prop) (r : Results) (verb dbid : String) (value : Int)
    (hR : ∀ j, j < r.timestampMaker.calls →
      R (r.timestampMaker.stream j) (r.timestampMaker.stream r.timestampMaker.calls))
    (hp : r.Past)
    (hs : ∀ e ∈ r.results.entries,
      e.2.timestamps.Pairwise R ∧ e.2.timestamps.length = e.2.durations.length) :
    (r.Add verb dbid value).Past ∧
    ∀ e ∈ (r.Add verb dbid value).results.entries,
      e.2.timestamps.Pairwise R ∧ e.2.timestamps.length = e.2.durations.length := by
  have hcalls := Add_calls r verb dbid value
  constructor
  · intro e he t ht
    rw [hcalls.1, hcalls.2]
    rcases Add_mem_entries r verb dbid value e he with h | ⟨h1, _⟩ | ⟨e0, he0, h1, _⟩
    · obtain ⟨j, hj, rfl⟩ := hp e h t ht
      exact ⟨j, Nat.lt_succ_of_lt hj, rfl⟩
    · rw [h1, List.mem_singleton] at ht
      exact ⟨_, Nat.lt_succ_self _, ht⟩
    · rw [h1] at ht
      rcases List.mem_append.mp ht with ht | ht
      · obtain ⟨j, hj, rfl⟩ := hp e0 he0 t ht
        exact ⟨j, Nat.lt_succ_of_lt hj, rfl⟩
      · rw [List.mem_singleton] at ht
        exact ⟨_, Nat.lt_succ_self _, ht⟩
  · intro e he
    rcases Add_mem_entries r verb dbid value e he with h | ⟨h1, h2⟩ | ⟨e0, he0, h1, h2⟩
    · exact hs e h
    · rw [h1, h2]
      exact ⟨List.pairwise_singleton _ _, rfl⟩
    · obtain ⟨hsort, hlen⟩ := hs e0 he0
      rw [h1, h2]
      refine ⟨?_, by simp [hlen]⟩
      refine List.pairwise_append.mpr ⟨hsort, List.pairwise_singleton _ _, ?_⟩
      intro a ha b hb
      rw [List.mem_singleton] at hb
      obtain ⟨j, hj, rfl⟩ := hp e0 he0 a ha
      rw [hb]
      exact hR j hj

theorem run_series (R : Int → Int → Prop) (N : Nat) (ops : List StoreOp) : ∀ (r : Results),
    r.timestampMaker.calls + ops.length ≤ N →
    (∀ i j, i < j → j < N → R (r.timestampMaker.stream i) (r.timestampMaker.stream j)) →
    r.Past →
    (∀ e ∈ r.results.entries,
      e.2.timestamps.Pairwise R ∧ e.2.timestamps.length = e.2.durations.length) →
    ∀ e ∈ (r.run ops).results.entries,
      e.2.timestamps.Pairwise R ∧ e.2.timestamps.length = e.2.durations.length := by
  induction ops with
  | nil => intro r _ _ _ hs; exact hs
  | cons op ops ih =>
    intro r hN hR hp hs
    simp only [List.length_cons] at hN
    have hst := apply_stream r op
    have hstep : (r.apply op).Past ∧ ∀ e ∈ (r.apply op).results.entries,
        e.2.timestamps.Pairwise R ∧ e.2.timestamps.length = e.2.durations.length := by
      cases op with
      | add verb dbid value =>
        exact Add_series R r verb dbid value (fun j hj => hR j _ hj (by omega)) hp hs
      | clear =>
        refine ⟨(Clear_sound r).2, ?_⟩
        intro e he
        simp [Results.apply, Results.Clear] at he
    exact ih (r.apply op) (by omega) (by rw [hst.1]; exact hR) hstep.1 hstep.2

theorem strict_of_step (stream : Nat → Int) (N : Nat)
    (h : ∀ n, n + 1 < N → stream n < stream (n + 1)) :
    ∀ i j, i < j → j < N → stream i < stream j := by
  intro i j hij
  induction hij with
  | refl => intro hj; exact h i hj
  | step _ ih => intro hj; exact lt_trans (ih (by omega)) (h _ hj)

theorem TestTimestampMaker_strict (N : Nat) (hN : (N : Int) ≤ MaxInt64) :
    ∀ n, n + 1 < N → TestTimestampMaker.stream n < TestTimestampMaker.stream (n + 1) := by
  intro n hn
  unfold MaxInt64 at hN
  show wrap64 ((n : Int) + 1) < wrap64 (((n + 1 : Nat) : Int) + 1)
  rw [wrap64_eq_of_bounds _ (by omega) (by omega), wrap64_eq_of_bounds _ (by omega) (by omega)]
  omega

/-- C11: in every store reached from the empty store by calls of `Add` and
`Clear`, when the values the timestamp source returns during these calls are
non-decreasing, every series has non-decreasing timestamps (in insertion
order) and as many timestamps as durations; when the source never repeats a
value the timestamps are strictly increasing, as they are with the incrementing
source of the tests. -/
theorem store_invariant (stream : Nat → Int) (ops : List StoreOp) :
    ((∀ n, n + 1 < ops.length → stream n ≤ stream (n + 1)) →
      ∀ e ∈ ((NewResults ⟨stream, 0⟩).run ops).results.entries,
        e.2.timestamps.Sorted (· ≤ ·) ∧ e.2.timestamps.length = e.2.durations.length) ∧
    ((∀ n, n + 1 < ops.length → stream n < stream (n + 1)) →
      ∀ e ∈ ((NewResults ⟨stream, 0⟩).run ops).results.entries,
        e.2.timestamps.Sorted (· < ·) ∧ e.2.timestamps.length = e.2.durations.length) ∧
    ((ops.length : Int) ≤ MaxInt64 →
      ∀ e ∈ ((NewResults TestTimestampMaker).run ops).results.entries,
        e.2.timestamps.Sorted (· < ·) ∧ e.2.timestamps.length = e.2.durations.length) := by
  have hempty : ∀ tm : TimestampMaker, ∀ (R : Int → Int → Prop),
      ∀ e ∈ (NewResults tm).results.entries,
        e.2.timestamps.Pairwise R ∧ e.2.timestamps.length = e.2.durations.length := by
    intro tm R e he
    simp [NewResults] at he
  refine ⟨?_, ?_, ?_⟩
  · intro hmono
    exact run_series (· ≤ ·) ops.length ops (NewResults ⟨stream, 0⟩) (by simp [NewResults])
      (fun i j hij hj => mono_of_step stream ops.length hmono i j (le_of_lt hij) hj)
      (NewResults_sound _).2 (hempty _ _)
  · intro hstrict
    exact run_series (· < ·) ops.length ops (NewResults ⟨stream, 0⟩) (by simp [NewResults])
      (strict_of_step stream ops.length hstrict) (NewResults_sound _).2 (hempty _ _)
  · intro hlen
    exact run_series (· < ·) ops.length ops (NewResults TestTimestampMaker)
      (by simp [NewResults, TestTimestampMaker])
      (strict_of_step _ ops.length (TestTimestampMaker_strict ops.length hlen))
      (NewResults_sound _).2 (hempty _ _)

theorem store_invariant_witness :
    (((NewResults TestTimestampMaker).run
        [.add "read" "abc" 10, .add "write" "abc" 20, .clear, .add "read" "abc" 30,
          .add "read" "abc" 40]).For "abc" "read").timestamps.Sorted (· < ·) ∧
    (((NewResults TestTimestampMaker).run
        [.add "read" "abc" 10, .add "write" "abc" 20, .clear, .add "read" "abc" 30,
          .add "read" "abc" 40]).For "abc" "read").timestamps.length =
      (((NewResults TestTimestampMaker).run
        [.add "read" "abc" 10, .add "write" "abc" 20, .clear, .add "read" "abc" 30,
          .add "read" "abc" 40]).For "abc" "read").durations.length :=
  (store_invariant TestTimestampMaker.stream
    [.add "read" "abc" 10, .add "write" "abc" 20, .clear, .add "read" "abc" 30,
      .add "read" "abc" 40]).2.2 (by decide)
    ⟨"read:abc", { client := "abc", verb := "read", timestamps := [3, 4],
                   durations := [30, 40] }⟩ (by decide)

/-! ## Lifecycle -/

theorem startClients_dbid (maker : SessionMaker) (clients : List Neo4jJob) :
    (startClients maker clients).1.map (fun client => client.dbid) =
      clients.map (fun client => client.dbid) := by
  induction clients with
  | nil => rfl
  | cons client rest ih =>
    simp only [startClients, List.map_cons, ih]
    congr 1
    unfold Neo4jJob.Start
    split_ifs
    · cases client.createModel maker <;> rfl
    · rfl

theorem Len_cleared (r : Results) (dbid verb : String) : r.Clear.Len dbid verb = 0 := by
  unfold Results.Len Results.Clear
  simp only [AList.lookup_empty]

theorem For_cleared (r : Results) (dbid verb : String) :
    r.Clear.For dbid verb = { client := dbid, verb := verb, timestamps := [], durations := [] } := by
  unfold Results.For Results.Clear
  simp only [AList.lookup_empty]

theorem maxDurationCount_zero (w : Workload)
    (h : ∀ dbid verb, w.results.Len dbid verb = 0) : w.maxDurationCount = 0 := by
  have hinner : ∀ (verb : String) (clients : List Neo4jJob),
      clients.foldl (fun max client =>
        let count := w.results.Len client.dbid verb
        if max < count then count else max) 0 = 0 := by
    intro verb clients
    induction clients with
    | nil => rfl
    | cons client rest ih =>
      simp only [List.foldl_cons, h, lt_irrefl, if_false]
      simp [h]
  unfold Workload.maxDurationCount
  simp only [List.foldl_cons, List.foldl_nil, hinner]

theorem waitLoop_zero (obs : Nat → Workload) (fuel k sleeps : Nat) :
    waitLoop 0 obs (fuel + 1) k sleeps =
      some (toString (obs (k + 1)).maxDurationCount, sleeps) := by
  unfold waitLoop
  rw [if_neg (by omega)]

/-- C12: after a successful `Start` (a call on a stopped workload, whatever its
store holds), and before the aggregator consumes a message, the store is
empty: every series is empty, `Results()` reports the count 0 for every
registered target and both operations, and `WaitForAtLeast(0)` returns "0"
without sleeping; `WaitForAtLeast(0)` never sleeps, whatever the store. -/
theorem after_Start_empty (w : Workload) (hstopped : w.running = false) :
    w.Start.err = none ∧ w.Start.result = "Started" ∧
    w.Start.state.results.results = ∅ ∧
    (∀ dbid verb,
      w.Start.state.results.For dbid verb =
        { client := dbid, verb := verb, timestamps := [], durations := [] } ∧
      w.Start.state.results.Len dbid verb = 0) ∧
    w.Start.state.clients.map (fun client => client.dbid) =
      w.clients.map (fun client => client.dbid) ∧
    w.Start.state.Results =
      ({ Header := ["dbid", "verb", "count"],
         Rows := ["read", "write"].flatMap (fun verb =>
           w.Start.state.clients.map (fun client =>
             [Value.str client.dbid, Value.str verb, Value.int 0])) }, none) ∧
    (∀ fuel, WaitForAtLeast (fun _ => w.Start.state) 0 (fuel + 1) = some ("0", 0)) ∧
    (∀ (obs : Nat → Workload) (fuel : Nat),
      ∃ s, WaitForAtLeast obs 0 (fuel + 1) = some (s, 0)) := by
  have hstart : w.Start =
      { state := { w with running := true,
                          clients := (startClients w.runnerMaker w.clients).1,
                          results := w.results.Clear },
        channel := (startClients w.runnerMaker w.clients).2,
        result := "Started", err := none } := by
    unfold Workload.Start
    simp [hstopped]
  rw [hstart]
  refine ⟨rfl, rfl, rfl, ?_, startClients_dbid _ _, ?_, ?_, ?_⟩
  · intro dbid verb
    exact ⟨For_cleared _ _ _, Len_cleared _ _ _⟩
  · unfold Workload.Results
    simp only [Len_cleared]
    rfl
  · intro fuel
    unfold WaitForAtLeast
    rw [waitLoop_zero, maxDurationCount_zero _ (fun dbid verb => Len_cleared _ _ _)]
    rfl
  · intro obs fuel
    exact ⟨_, waitLoop_zero obs fuel 0 0⟩

theorem after_Start_empty_witness :
    (exampleWorkload ["abc", "xyz"]
        [("read", "abc", 1, 10), ("write", "xyz", 2, 20)]).Start.state.Results =
      ({ Header := ["dbid", "verb", "count"],
         Rows := [[.str "abc", .str "read", .int 0], [.str "xyz", .str "read", .int 0],
                  [.str "abc", .str "write", .int 0], [.str "xyz", .str "write", .int 0]] },
       none) ∧
    WaitForAtLeast (fun _ => (exampleWorkload ["abc", "xyz"]
        [("read", "abc", 1, 10), ("write", "xyz", 2, 20)]).Start.state) 0 1 = some ("0", 0) :=
  ⟨(after_Start_empty (exampleWorkload ["abc", "xyz"]
      [("read", "abc", 1, 10), ("write", "xyz", 2, 20)]) rfl).2.2.2.2.2.1,
   (after_Start_empty (exampleWorkload ["abc", "xyz"]
      [("read", "abc", 1, 10), ("write", "xyz", 2, 20)]) rfl).2.2.2.2.2.2.1 0⟩

/-- C13: `Start` fails, with "Already started", exactly when the workload is
running, and `Stop` fails, with "Already stopped", exactly when it is stopped;
a failed call leaves the workload as it is; a successful `Start` sets the
running flag; a successful `Stop` hands the stop signal to the aggregator,
which clears the running flag when it takes it; so from the initial (stopped)
state `Stop` fails, `Start; Start` fails on the second call, and `Stop; Stop`
fails on the second call once the signal of the first is taken. -/
theorem lifecycle_guard :
    (∀ w : Workload, (w.Start.err = some "Already started" ↔ w.running = true) ∧
      (w.Start.err = none ↔ w.running = false)) ∧
    (∀ w : Workload, (w.Stop.err = some "Already stopped" ↔ w.running = false) ∧
      (w.Stop.err = none ↔ w.running = true)) ∧
    (∀ w : Workload, w.running = true → w.Start.state = w) ∧
    (∀ w : Workload, w.running = false → w.Stop.state = w ∧ w.Stop.done = false) ∧
    (∀ w : Workload, w.running = false →
      w.Start.result = "Started" ∧ w.Start.state.running = true) ∧
    (∀ w : Workload, w.running = true →
      w.Stop.result = "Stopped" ∧ w.Stop.done = true ∧ w.Stop.state.running = true ∧
      (readLoop w.Stop.state [LoopEvent.done]).running = false) ∧
    (∀ maker : SessionMaker, (NewWorkload maker).running = false ∧
      (NewWorkload maker).Stop.err = some "Already stopped") ∧
    (∀ w : Workload, w.running = false →
      w.Start.err = none ∧ w.Start.state.Start.err = some "Already started") ∧
    (∀ w : Workload, w.running = true →
      w.Stop.err = none ∧
      (readLoop w.Stop.state [LoopEvent.done]).Stop.err = some "Already stopped") := by
  have hStart : ∀ w : Workload, w.running = false →
      w.Start.err = none ∧ w.Start.result = "Started" ∧ w.Start.state.running = true := by
    intro w h
    unfold Workload.Start
    simp [h]
  have hStartR : ∀ w : Workload, w.running = true →
      w.Start.err = some "Already started" ∧ w.Start.state = w := by
    intro w h
    unfold Workload.Start
    simp [h]
  have hStop : ∀ w : Workload, w.running = true →
      w.Stop.err = none ∧ w.Stop.result = "Stopped" ∧ w.Stop.done = true ∧ w.Stop.state = w := by
    intro w h
    unfold Workload.Stop
    simp [h]
  have hStopS : ∀ w : Workload, w.running = false →
      w.Stop.err = some "Already stopped" ∧ w.Stop.state = w ∧ w.Stop.done = false := by
    intro w h
    unfold Workload.Stop
    simp [h]
  have hTaken : ∀ w : Workload, w.running = true →
      (readLoop w [LoopEvent.done]).running = false := by
    intro w h
    simp [readLoop, readLoopStep, h]
  refine ⟨?_, ?_, fun w h => (hStartR w h).2, fun w h => (hStopS w h).2, fun w h => (hStart w h).2,
    ?_, ?_, ?_, ?_⟩
  · intro w
    cases h : w.running with
    | true => simp [(hStartR w h).1]
    | false => simp [(hStart w h).1]
  · intro w
    cases h : w.running with
    | true => simp [(hStop w h).1]
    | false => simp [(hStopS w h).1]
  · intro w h
    obtain ⟨_, h2, h3, h4⟩ := hStop w h
    refine ⟨h2, h3, by rw [h4]; exact h, by rw [h4]; exact hTaken w h⟩
  · intro maker
    exact ⟨rfl, (hStopS _ rfl).1⟩
  · intro w h
    exact ⟨(hStart w h).1, (hStartR _ (hStart w h).2.2).1⟩
  · intro w h
    obtain ⟨h1, _, _, h4⟩ := hStop w h
    refine ⟨h1, ?_⟩
    rw [h4]
    exact (hStopS _ (hTaken w h)).1

theorem lifecycle_guard_witness :
    (NewWorkload exampleMaker).Start.err = none ∧
    (NewWorkload exampleMaker).Start.state.Start.err = some "Already started" ∧
    (NewWorkload exampleMaker).Start.state.Stop.err = none ∧
    (readLoop (NewWorkload exampleMaker).Start.state.Stop.state [LoopEvent.done]).Stop.err =
      some "Already stopped" :=
  ⟨(lifecycle_guard.2.2.2.2.2.2.2.1 (NewWorkload exampleMaker) rfl).1,
   (lifecycle_guard.2.2.2.2.2.2.2.1 (NewWorkload exampleMaker) rfl).2,
   (lifecycle_guard.2.2.2.2.2.2.2.2 (NewWorkload exampleMaker).Start.state rfl).1,
   (lifecycle_guard.2.2.2.2.2.2.2.2 (NewWorkload exampleMaker).Start.state rfl).2⟩

/-! ## `ResultsFor`, `CountsFor` -/

theorem resultsForRows_ok : ∀ (timestamps durations : List Int),
    durations.length ≤ timestamps.length →
    ∃ rows, resultsForRows timestamps durations = .ok rows ∧ rows.length = durations.length := by
  intro timestamps durations
  induction durations generalizing timestamps with
  | nil => intro _; exact ⟨[], by cases timestamps <;> rfl, rfl⟩
  | cons d ds ih =>
    intro h
    cases timestamps with
    | nil => simp at h
    | cons t ts =>
      obtain ⟨rows, hrows, hlen⟩ := ih ts (by simpa using h)
      exact ⟨[Value.int64 t, Value.int64 d] :: rows, by simp only [resultsForRows, hrows],
        by simp [hlen]⟩

/-- C14: `ResultsFor` and `CountsFor` return the error "Invalid result verb:
..." exactly when the operation name is neither "read" nor "write" (`CountsFor`
with the count -1, `ResultsFor` with no result); for "read" and "write"
`CountsFor` returns the length of the series and no error, and `ResultsFor`
returns one row per sample and no error, for every target id (for an unknown
id, the count 0 and no row), on a store whose series hold a timestamp for every
duration. -/
theorem invalid_operation_guard (w : Workload) (dbid verb : String) :
    ((w.CountsFor dbid verb).2 = some ("Invalid result verb: " ++ verb) ↔
      (verb ≠ "read" ∧ verb ≠ "write")) ∧
    ((∃ result e, w.ResultsFor dbid verb = .ok (result, some e)) ↔
      (verb ≠ "read" ∧ verb ≠ "write")) ∧
    ((verb ≠ "read" ∧ verb ≠ "write") →
      w.CountsFor dbid verb = (-1, some ("Invalid result verb: " ++ verb)) ∧
      w.ResultsFor dbid verb = .ok (none, some ("Invalid result verb: " ++ verb))) ∧
    ((verb = "read" ∨ verb = "write") →
      w.CountsFor dbid verb = (((w.results.Len dbid verb : Nat) : Int), none) ∧
      ((w.results.For dbid verb).durations.length ≤ (w.results.For dbid verb).timestamps.length →
        ∃ R, w.ResultsFor dbid verb = .ok (some R, none) ∧
          R.Header = ["timestamp", "duration"] ∧ R.Rows.length = w.results.Len dbid verb) ∧
      (w.results.results.lookup (resultKey verb dbid) = none →
        w.CountsFor dbid verb = (0, none) ∧
        w.ResultsFor dbid verb =
          .ok (some { Header := ["timestamp", "duration"], Rows := [] }, none))) := by
  by_cases hv : verb ≠ "read" ∧ verb ≠ "write"
  · have hC : w.CountsFor dbid verb = (-1, some ("Invalid result verb: " ++ verb)) := by
      unfold Workload.CountsFor
      rw [if_pos hv]
    have hR : w.ResultsFor dbid verb = .ok (none, some ("Invalid result verb: " ++ verb)) := by
      unfold Workload.ResultsFor
      rw [if_pos hv]
    refine ⟨?_, ?_, fun _ => ⟨hC, hR⟩, ?_⟩
    · rw [hC]
      exact ⟨fun _ => hv, fun _ => rfl⟩
    · exact ⟨fun _ => hv, fun _ => ⟨none, _, hR⟩⟩
    · intro h
      rcases h with h | h
      · exact absurd h hv.1
      · exact absurd h hv.2
  · have hC : w.CountsFor dbid verb = (((w.results.Len dbid verb : Nat) : Int), none) := by
      unfold Workload.CountsFor
      rw [if_neg hv]
    have hR : w.ResultsFor dbid verb =
        match resultsForRows (w.results.For dbid verb).timestamps
            (w.results.For dbid verb).durations with
        | .error e => .error e
        | .ok rows => .ok (some { Header := ["timestamp", "duration"], Rows := rows }, none) := by
      unfold Workload.ResultsFor
      rw [if_neg hv]
    refine ⟨?_, ?_, fun h => absurd h hv, fun _ => ⟨hC, ?_, ?_⟩⟩
    · rw [hC]
      exact ⟨fun h => Option.noConfusion h, fun h => absurd h hv⟩
    · refine ⟨?_, fun h => absurd h hv⟩
      rintro ⟨result, e, h⟩
      rw [hR] at h
      cases hrows : resultsForRows (w.results.For dbid verb).timestamps
          (w.results.For dbid verb).durations with
      | error p => rw [hrows] at h; exact Except.noConfusion h
      | ok rows =>
        rw [hrows] at h
        have h2 := congrArg Prod.snd (Except.ok.inj h)
        exact Option.noConfusion h2
    · intro hlen
      obtain ⟨rows, hrows, hl⟩ := resultsForRows_ok _ _ hlen
      refine ⟨{ Header := ["timestamp", "duration"], Rows := rows }, ?_, rfl, ?_⟩
      · rw [hR, hrows]
      · rw [Len_eq_For]; exact hl
    · intro hnone
      have hfor : w.results.For dbid verb =
          { client := dbid, verb := verb, timestamps := [], durations := [] } := by
        unfold Results.For
        simp only [hnone]
      have hlen0 : w.results.Len dbid verb = 0 := by
        rw [Len_eq_For, hfor]
        rfl
      refine ⟨by rw [hC, hlen0]; rfl, ?_⟩
      rw [hR, hfor]
      rfl

theorem invalid_operation_guard_witness :
    (exampleWorkload ["abc"] [("read", "abc", 1, 10)]).CountsFor "abc" "other" =
      (-1, some "Invalid result verb: other") ∧
    (exampleWorkload ["abc"] [("read", "abc", 1, 10)]).ResultsFor "abc" "other" =
      .ok (none, some "Invalid result verb: other") ∧
    (exampleWorkload ["abc"] [("read", "abc", 1, 10)]).CountsFor "nosuch" "write" = (0, none) :=
  ⟨((invalid_operation_guard (exampleWorkload ["abc"] [("read", "abc", 1, 10)])
      "abc" "other").2.2.1 (by decide)).1,
   ((invalid_operation_guard (exampleWorkload ["abc"] [("read", "abc", 1, 10)])
      "abc" "other").2.2.1 (by decide)).2,
   (((invalid_operation_guard (exampleWorkload ["abc"] [("read", "abc", 1, 10)])
      "nosuch" "write").2.2.2 (Or.inr rfl)).2.2 (by decide)).1⟩

/-! ## `Add` and `Remove` -/

theorem removeAt_last (a : List Neo4jJob) (x : Neo4jJob) :
    removeAt (a ++ [x]) a.length = a := by
  unfold removeAt
  simp

theorem removeAt_inner (a b : List Neo4jJob) (x last : Neo4jJob) :
    removeAt (a ++ x :: (b ++ [last])) a.length = a ++ last :: b := by
  have hlast : (a ++ x :: (b ++ [last])).getLast? = some last := by
    have : a ++ x :: (b ++ [last]) = (a ++ x :: b) ++ [last] := by simp
    rw [this, List.getLast?_concat]
  unfold removeAt
  rw [hlast]
  simp only [List.set_append_right _ _ (le_refl _), Nat.sub_self, List.set_cons_zero]
  have : a ++ last :: (b ++ [last]) = (a ++ last :: b) ++ [last] := by simp
  rw [this, List.dropLast_concat]

theorem indexOf_none_iff (clients : List Neo4jJob) (client : Neo4jJob) :
    indexOf clients client < 0 ↔ ∀ x ∈ clients, x.neo4j.dbid ≠ client.neo4j.dbid := by
  unfold indexOf
  cases h : clients.findIdx? (fun x => x.neo4j.dbid == client.neo4j.dbid) with
  | none =>
    rw [List.findIdx?_eq_none_iff] at h
    simp only [show ((-1 : Int) < 0) from by decide, true_iff]
    intro x hx
    simpa using h x hx
  | some i =>
    simp only [show ¬ ((i : Int) < 0) from by omega, false_iff]
    intro hall
    have hnone : clients.findIdx? (fun x => x.neo4j.dbid == client.neo4j.dbid) = none := by
      rw [List.findIdx?_eq_none_iff]
      intro x hx
      simpa using hall x hx
    rw [hnone] at h
    exact Option.noConfusion h

/-- The first index at which the registry holds the id, with the list split
around it. -/
theorem indexOf_found (clients : List Neo4jJob) (client : Neo4jJob)
    (h : ∃ x ∈ clients, x.neo4j.dbid = client.neo4j.dbid) :
    ∃ (a c : List Neo4jJob) (x : Neo4jJob), clients = a ++ x :: c ∧
      x.neo4j.dbid = client.neo4j.dbid ∧ (∀ y ∈ a, y.neo4j.dbid ≠ client.neo4j.dbid) ∧
      indexOf clients client = (a.length : Int) := by
  induction clients with
  | nil => obtain ⟨x, hx, _⟩ := h; simp at hx
  | cons y rest ih =>
    by_cases hy : y.neo4j.dbid = client.neo4j.dbid
    · refine ⟨[], rest, y, rfl, hy, fun z hz => by simp at hz, ?_⟩
      unfold indexOf
      simp [hy]
    · have hrest : ∃ x ∈ rest, x.neo4j.dbid = client.neo4j.dbid := by
        obtain ⟨x, hx, hxe⟩ := h
        rcases List.mem_cons.mp hx with h1 | h1
        · rw [h1] at hxe; exact absurd hxe hy
        · exact ⟨x, h1, hxe⟩
      obtain ⟨a, c, x, hsplit, hx, ha, hidx⟩ := ih hrest
      refine ⟨y :: a, c, x, by rw [hsplit]; rfl, hx, ?_, ?_⟩
      · intro z hz
        rcases List.mem_cons.mp hz with h1 | h1
        · rw [h1]; exact hy
        · exact ha z h1
      · unfold indexOf at hidx ⊢
        simp only [List.findIdx?_cons, beq_iff_eq, hy, if_false, Nat.zero_add,
          List.findIdx?_succ]
        cases hf : rest.findIdx? (fun x => x.neo4j.dbid == client.neo4j.dbid) with
        | none => rw [hf] at hidx; simp at hidx
        | some i =>
          rw [hf] at hidx
          simp only [Option.map_some', List.length_cons] at hidx ⊢
          omega

/-- C15: `Remove` fails, with the error "Could not find client for database
'<id>'", exactly when no entry of the registry has the id of the given target,
and the workload (the registry with its entries and their order) is then left
as it is. -/
theorem Remove_not_found (w : Workload) (client : Neo4jJob) :
    ((w.Remove client).2 ≠ none ↔ ∀ x ∈ w.clients, x.neo4j.dbid ≠ client.neo4j.dbid) ∧
    ((∀ x ∈ w.clients, x.neo4j.dbid ≠ client.neo4j.dbid) →
      w.Remove client =
        (w, some ("Could not find client for database '" ++ client.neo4j.dbid ++ "'"))) := by
  have hnf : (∀ x ∈ w.clients, x.neo4j.dbid ≠ client.neo4j.dbid) →
      w.Remove client =
        (w, some ("Could not find client for database '" ++ client.neo4j.dbid ++ "'")) := by
    intro h
    unfold Workload.Remove
    simp only [(indexOf_none_iff w.clients client).mpr h, if_true]
  refine ⟨⟨?_, ?_⟩, hnf⟩
  · intro herr
    by_contra hex
    apply herr
    unfold Workload.Remove
    simp only [mt (indexOf_none_iff w.clients client).mp hex, if_false]
  · intro h
    rw [hnf h]
    exact fun h2 => Option.noConfusion h2

theorem Remove_not_found_witness :
    (exampleWorkload ["abc", "xyz"] []).Remove (exampleJob "123") =
      (exampleWorkload ["abc", "xyz"] [],
        some ("Could not find client for database '" ++ (exampleJob "123").neo4j.dbid ++ "'")) :=
  (Remove_not_found (exampleWorkload ["abc", "xyz"] []) (exampleJob "123")).2 (by decide)

/-- C16: when the registry holds an entry with the id of the given target,
`Remove` succeeds and removes the first such entry `x`, putting the former last
entry in its slot: the registry is `a ++ x :: c` before, with no entry of the id
in `a`, and `a ++ last :: c'` after, where `c = c' ++ [last]` (or `a` after,
when `x` was the last entry); it shrinks by one, and the entries before the
call are `x` together with the entries after it, which `List` returns, further
entries with the same id included. -/
theorem Remove_removes_one (w : Workload) (client : Neo4jJob)
    (h : ∃ x ∈ w.clients, x.neo4j.dbid = client.neo4j.dbid) :
    (w.Remove client).2 = none ∧
    ∃ (a c : List Neo4jJob) (x : Neo4jJob), w.clients = a ++ x :: c ∧
      x.neo4j.dbid = client.neo4j.dbid ∧ (∀ y ∈ a, y.neo4j.dbid ≠ client.neo4j.dbid) ∧
      (c = [] → (w.Remove client).1.clients = a) ∧
      (∀ c' last, c = c' ++ [last] → (w.Remove client).1.clients = a ++ last :: c') ∧
      (w.Remove client).1.clients.length + 1 = w.clients.length ∧
      w.clients.Perm (x :: (w.Remove client).1.clients) ∧
      w.clients.Perm (x :: (w.Remove client).1.List) ∧
      (w.Remove client).1.results.results = w.results.results ∧
      (w.Remove client).1.running = w.running := by
  obtain ⟨a, c, x, hsplit, hx, ha, hidx⟩ := indexOf_found w.clients client h
  have hrem : w.Remove client = ({ w with clients := removeAt w.clients a.length }, none) := by
    unfold Workload.Remove
    simp only [hidx, show ¬ ((a.length : Int) < 0) from by omega, if_false, Int.toNat_ofNat]
  have hempty : c = [] → removeAt w.clients a.length = a := by
    intro hc
    rw [hsplit, hc]
    exact removeAt_last a x
  have hinner : ∀ c' last, c = c' ++ [last] →
      removeAt w.clients a.length = a ++ last :: c' := by
    intro c' last hc
    rw [hsplit, hc]
    exact removeAt_inner a c' x last
  have hperm : w.clients.Perm (x :: removeAt w.clients a.length) := by
    rcases List.eq_nil_or_concat c with hc | ⟨c', last, hc⟩
    · rw [hempty hc, hsplit, hc]
      exact List.perm_append_comm
    · rw [List.concat_eq_append] at hc
      rw [hinner c' last hc, hsplit, hc]
      have h1 : (a ++ x :: (c' ++ [last])).Perm (x :: (a ++ (c' ++ [last]))) :=
        List.perm_middle
      have h2 : (a ++ (c' ++ [last])).Perm (a ++ last :: c') :=
        List.Perm.append_left a List.perm_append_comm
      exact h1.trans (List.Perm.cons x h2)
  rw [hrem]
  refine ⟨rfl, a, c, x, hsplit, hx, ha, hempty, hinner, ?_, hperm, ?_, rfl, rfl⟩
  · have := hperm.length_eq
    simp only [List.length_cons] at this
    show (removeAt w.clients a.length).length + 1 = w.clients.length
    omega
  · exact hperm.trans (List.Perm.cons x (sortSlice_perm _ _).symm)

theorem Remove_removes_one_witness :
    ((exampleWorkload ["abc", "xyz", "abc", "123"] []).Remove (exampleJob "abc")).2 = none ∧
    ((exampleWorkload ["abc", "xyz", "abc", "123"] []).Remove (exampleJob "abc")).1.clients =
      [exampleJob "123", exampleJob "xyz", exampleJob "abc"] := by
  obtain ⟨h1, a, c, x, hsplit, hx, ha, _, hinner, _⟩ :=
    Remove_removes_one (exampleWorkload ["abc", "xyz", "abc", "123"] []) (exampleJob "abc")
      ⟨exampleJob "abc", by decide, rfl⟩
  exact ⟨h1, by decide⟩

/-- C18: `Add` appends the target to the registry exactly when its
connectivity check succeeds: when the check fails, `Add` returns the error of
the check and leaves the workload as it is; when it succeeds, the target is
appended whatever the registry holds, so that `List` returns the entries
registered before together with the new one, and one more entry with the id of
the target than the registry held. -/
theorem Add_appends (w : Workload) (client : Neo4jJob) :
    (client.Check w.runnerMaker = none →
      w.Add client = ({ w with clients := w.clients ++ [client] }, none)) ∧
    (∀ e, client.Check w.runnerMaker = some e → w.Add client = (w, some e)) ∧
    ((w.Add client).1.clients = w.clients ++ [client] ↔ client.Check w.runnerMaker = none) ∧
    (client.Check w.runnerMaker = none →
      (w.Add client).1.List.Perm (w.clients ++ [client]) ∧
      client ∈ (w.Add client).1.List ∧ (∀ x ∈ w.clients, x ∈ (w.Add client).1.List) ∧
      (w.Add client).1.List.countP (fun y => y.neo4j.dbid = client.neo4j.dbid) =
        w.clients.countP (fun y => y.neo4j.dbid = client.neo4j.dbid) + 1) := by
  have hok : client.Check w.runnerMaker = none →
      w.Add client = ({ w with clients := w.clients ++ [client] }, none) := by
    intro h
    unfold Workload.Add
    rw [h]
  have herr : ∀ e, client.Check w.runnerMaker = some e → w.Add client = (w, some e) := by
    intro e h
    unfold Workload.Add
    rw [h]
  refine ⟨hok, herr, ⟨?_, fun h => by rw [hok h]⟩, ?_⟩
  · intro h
    cases hc : client.Check w.runnerMaker with
    | none => rfl
    | some e =>
      rw [herr e hc] at h
      have := congrArg List.length h
      simp at this
  · intro h
    have hperm : (w.Add client).1.List.Perm (w.clients ++ [client]) := by
      rw [hok h]
      exact sortSlice_perm _ _
    refine ⟨hperm, ?_, ?_, ?_⟩
    · exact hperm.symm.subset (by simp)
    · intro x hx
      exact hperm.symm.subset (by simp [hx])
    · rw [hperm.countP_eq]
      simp

theorem Add_appends_witness :
    ((exampleWorkload ["abc", "xyz"] []).Add (exampleJob "abc")).1.List =
      [exampleJob "abc", exampleJob "abc", exampleJob "xyz"] ∧
    ((exampleWorkload ["abc", "xyz"] []).Add (exampleJob "abc")).1.List.countP
        (fun y => y.neo4j.dbid = (exampleJob "abc").neo4j.dbid) =
      (exampleWorkload ["abc", "xyz"] []).clients.countP
        (fun y => y.neo4j.dbid = (exampleJob "abc").neo4j.dbid) + 1 :=
  ⟨by decide,
   ((Add_appends (exampleWorkload ["abc", "xyz"] []) (exampleJob "abc")).2.2.2 rfl).2.2.2⟩

/-! ## Byte-wise comparison and equality of ids -/

theorem char_toNat_lt (c : Char) : c.toNat < 1114112 := by
  have := c.valid
  unfold Char.toNat
  unfold UInt32.isValidChar Nat.isValidChar at this
  omega

theorem char_eq_of_toNat (c d : Char) (h : c.toNat = d.toNat) : c = d := by
  apply Char.ext
  apply UInt32.ext
  exact h

/-- The UTF-8 encoding is a prefix code: the bytes of a character followed by
any bytes determine the character. -/
theorem utf8Bytes_head_unique (c d : Char) (s t : List Nat)
    (h : utf8Bytes c ++ s = utf8Bytes d ++ t) : c = d ∧ s = t := by
  have hc := char_toNat_lt c
  have hd := char_toNat_lt d
  unfold utf8Bytes at h
  simp only at h
  split_ifs at h <;>
    simp only [List.cons_append, List.nil_append, List.cons.injEq] at h <;>
    first
      | (exfalso; omega)
      | (refine ⟨char_eq_of_toNat c d (by omega), ?_⟩; tauto)

theorem utf8Bytes_ne_nil (c : Char) : utf8Bytes c ≠ [] := by
  unfold utf8Bytes
  simp only
  split_ifs <;> exact List.cons_ne_nil _ _

theorem stringBytes_chars_injective : ∀ (l m : List Char),
    l.flatMap utf8Bytes = m.flatMap utf8Bytes → l = m := by
  intro l
  induction l with
  | nil =>
    intro m h
    cases m with
    | nil => rfl
    | cons d m =>
      exfalso
      simp only [List.flatMap_nil, List.flatMap_cons] at h
      exact utf8Bytes_ne_nil d (List.append_eq_nil.mp h.symm).1
  | cons c l ih =>
    intro m h
    cases m with
    | nil =>
      exfalso
      simp only [List.flatMap_nil, List.flatMap_cons] at h
      exact utf8Bytes_ne_nil c (List.append_eq_nil.mp h).1
    | cons d m =>
      simp only [List.flatMap_cons] at h
      obtain ⟨h1, h2⟩ := utf8Bytes_head_unique c d _ _ h
      rw [h1, ih m h2]

theorem stringBytes_injective (a b : String) (h : stringBytes a = stringBytes b) : a = b := by
  unfold stringBytes at h
  have := stringBytes_chars_injective _ _ h
  exact String.ext this

theorem stringsCompare_eq_zero_iff (a b : String) : stringsCompare a b = 0 ↔ a = b := by
  unfold stringsCompare
  constructor
  · intro h
    split_ifs at h with h1 h2
    · exact stringBytes_injective a b h1
    · exact absurd h (by decide)
  · intro h
    rw [h]
    simp

/-! ## The registry order and the accessors -/

/-- Two sorted permutations of one another are equal when the order is
antisymmetric on their elements. -/
theorem sorted_perm_unique {α : Type} (r : α → α → Prop) (l1 l2 : List α)
    (hp : l1.Perm l2) (h1 : l1.Sorted r) (h2 : l2.Sorted r)
    (hanti : ∀ a ∈ l1, ∀ b ∈ l1, r a b → r b a → a = b) : l1 = l2 := by
  haveI : IsAntisymm α (fun a b => r a b ∧ (r b a → a = b)) :=
    ⟨fun a b hab hba => hab.2 hba.1⟩
  have s1 : l1.Sorted (fun a b => r a b ∧ (r b a → a = b)) :=
    List.Pairwise.imp_of_mem (fun {a b} ha hb h => ⟨h, hanti a ha b hb h⟩) h1
  have s2 : l2.Sorted (fun a b => r a b ∧ (r b a → a = b)) :=
    List.Pairwise.imp_of_mem
      (fun {a b} ha hb h => ⟨h, hanti a (hp.mem_iff.mpr ha) b (hp.mem_iff.mpr hb) h⟩) h2
  exact List.eq_of_perm_of_sorted hp s1 s2

/-- The sorted listing of two registries that hold the same targets is the
same when targets with the same id are the same target. -/
theorem List_of_perm (w1 w2 : Workload) (hp : w1.clients.Perm w2.clients)
    (hid : ∀ a ∈ w1.clients, ∀ b ∈ w1.clients, a.neo4j.dbid = b.neo4j.dbid → a = b) :
    w1.List = w2.List := by
  have hkey : ∀ a b : Neo4jJob,
      decide (stringsCompare a.neo4j.dbid b.neo4j.dbid < 0) = true ↔
        stringBytes a.neo4j.dbid < stringBytes b.neo4j.dbid := by
    intro a b
    simp [stringsCompare_neg_iff]
  have s1 := sortSlice_sorted_of_key (fun a : Neo4jJob => stringBytes a.neo4j.dbid)
    (fun a b => decide (stringsCompare a.neo4j.dbid b.neo4j.dbid < 0)) hkey w1.clients
  have s2 := sortSlice_sorted_of_key (fun a : Neo4jJob => stringBytes a.neo4j.dbid)
    (fun a b => decide (stringsCompare a.neo4j.dbid b.neo4j.dbid < 0)) hkey w2.clients
  have p1 := sortSlice_perm (fun a b : Neo4jJob =>
    decide (stringsCompare a.neo4j.dbid b.neo4j.dbid < 0)) w1.clients
  have p2 := sortSlice_perm (fun a b : Neo4jJob =>
    decide (stringsCompare a.neo4j.dbid b.neo4j.dbid < 0)) w2.clients
  unfold Workload.List
  refine sorted_perm_unique _ _ _ (p1.trans (hp.trans p2.symm)) s1 s2 ?_
  intro a ha b hb hab hba
  exact hid a (p1.mem_iff.mp ha) b (p1.mem_iff.mp hb)
    (stringBytes_injective _ _ (le_antisymm hab hba))

/-- The rows of `Results`: the read rows of the registry in its order, then
its write rows. -/
theorem Results_rows (w : Workload) :
    w.Results.1.Rows =
      w.clients.map (fun client =>
        [Value.str client.dbid, Value.str "read",
         Value.int (w.results.Len client.dbid "read")]) ++
      w.clients.map (fun client =>
        [Value.str client.dbid, Value.str "write",
         Value.int (w.results.Len client.dbid "write")]) := by
  simp [Workload.Results]

theorem Results_of_perm (w1 w2 : Workload) (hp : w1.clients.Perm w2.clients)
    (hs : w1.results = w2.results) :
    w1.Results.1.Rows.Perm w2.Results.1.Rows := by
  rw [Results_rows, Results_rows, hs]
  exact List.Perm.append (hp.map _) (hp.map _)

/-- The label of a series column in the header of the table. -/
theorem tableColumns_label : ∀ (clients : List Neo4jJob) (j : Nat) (client : Neo4jJob)
    (verb : String), clients[j]? = some client → verb = "read" ∨ verb = "write" →
    (tableColumns clients)[seriesColumn j verb]? = some (resultKey verb client.dbid) := by
  intro clients
  induction clients with
  | nil => intro j client verb h; simp at h
  | cons c cs ih =>
    intro j client verb h hv
    cases j with
    | zero =>
      simp only [List.getElem?_cons_zero, Option.some.injEq] at h
      subst h
      rcases hv with rfl | rfl
      · simp [tableColumns, seriesColumn]
      · simp [tableColumns, seriesColumn]
    | succ j =>
      simp only [List.getElem?_cons_succ] at h
      have := ih j client verb h hv
      unfold tableColumns at this ⊢
      have hcol : seriesColumn (j + 1) verb = seriesColumn j verb + 2 := by
        unfold seriesColumn
        split_ifs <;> omega
      have hpos : seriesColumn j verb = (seriesColumn j verb - 1) + 1 := by
        unfold seriesColumn
        split_ifs <;> omega
      rw [hcol, hpos]
      rw [hpos] at this
      simpa [List.flatMap_cons] using this

theorem tableColumns_perm (c1 c2 : List Neo4jJob) (hp : c1.Perm c2) :
    (tableColumns c1).Perm (tableColumns c2) := by
  unfold tableColumns
  exact List.Perm.cons _ (hp.flatMap_right _)

/-! ## Columns of the table under a reordering of the registry -/

theorem find_valid_loop_columns (d d' : Grid) (col col' : Nat) (step : Int)
    (hl : d.length = d'.length) (hc : ∀ r, getCell d r col = getCell d' r col') :
    ∀ (fuel i : Nat),
      find_valid_loop d col step fuel i = find_valid_loop d' col' step fuel i := by
  intro fuel
  induction fuel with
  | zero => intro i; simp [find_valid_loop, hc]
  | succ fuel ih =>
    intro i
    simp only [find_valid_loop, hc, hl, ih]

theorem fillValue_columns (count : Int) (d d' : Grid) (i col col' : Nat)
    (hl : d.length = d'.length) (hpos : 0 < col ↔ 0 < col')
    (hc : ∀ r, getCell d r col = getCell d' r col') :
    fillValue count i col d = fillValue count i col' d' := by
  unfold fillValue find_valid
  rw [hc i, hl, find_valid_loop_columns d d' col col' 1 hl hc,
    find_valid_loop_columns d d' col col' (-1) hl hc]
  simp only [hpos]

/-- Two states with the same store, on which the table can be built: a column
of the one and a column of the other that hold the same samples hold the same
values after gap filling. -/
theorem filled_columns_eq {w1 w2 : Workload} {G1 T1 G2 T2 : Grid} {L : Nat}
    (hf1 : TableFacts w1 G1 T1 L) (hf2 : TableFacts w2 G2 T2 L) (c1 c2 : Nat)
    (hc1 : c1 < 2 * w1.clients.length + 1) (hc2 : c2 < 2 * w2.clients.length + 1)
    (hpos : 0 < c1 ↔ 0 < c2)
    (hG : ∀ i, i < L → getCell G1 i c1 = getCell G2 i c2) :
    ∀ i, i < L → getCell T1 i c1 = getCell T2 i c2 := by
  intro i
  induction i using Nat.strong_induction_on with
  | _ i ih =>
    intro hi
    rw [hf1.fill_cell i hi c1 hc1, hf2.fill_cell i hi c2 hc2]
    refine fillValue_columns _ _ _ _ _ _ ?_ hpos ?_
    · rw [(hf1.hybrid_cell i 0 0 hi).1, (hf2.hybrid_cell i 0 0 hi).1]
    · intro r
      rw [(hf1.hybrid_cell i r c1 hi).2, (hf2.hybrid_cell i r c2 hi).2]
      by_cases hr : r < i
      · rw [if_pos hr, if_pos hr]
        exact ih r hr (by omega)
      · rw [if_neg hr, if_neg hr]
        by_cases hrL : r < L
        · exact hG r hrL
        · rw [getCell_of_length_le G1 r c1 (by rw [hf1.grid_length]; omega),
            getCell_of_length_le G2 r c2 (by rw [hf2.grid_length]; omega)]

theorem cell_beyond_rows (R : Neo4jResult) (i c : Nat) (h : R.Rows.length ≤ i) :
    R.cell i c = none := by
  unfold Neo4jResult.cell
  rw [List.getElem?_eq_none h]
  rfl

theorem TableReady_of_perm (w1 w2 : Workload) (hp : w1.clients.Perm w2.clients)
    (hs : w1.results = w2.results) (hw : TableReady w1) : TableReady w2 := by
  obtain ⟨h1, h2, client, hmem, verb, hv, hmax⟩ := hw
  rw [hs] at h1 h2 hmax
  exact ⟨h1, h2, client, hp.mem_iff.mp hmem, verb, hv, hmax⟩

/-- The tables of two states with the same store and the same targets in a
different order: the same number of rows, the same timestamp column, and the
same column for each series of each target, at the place of the target in the
order of each registry. -/
theorem ResultsTable_of_perm (w1 w2 : Workload) (hp : w1.clients.Perm w2.clients)
    (hs : w1.results = w2.results) (hw : TableReady w1) :
    ∃ R1 R2, w1.ResultsTable = .ok R1 ∧ w2.ResultsTable = .ok R2 ∧
      R1.Rows.length = R2.Rows.length ∧ R1.Header.Perm R2.Header ∧
      (∀ i, R1.cell i 0 = R2.cell i 0) ∧
      ∀ j1 j2 client verb, w1.clients[j1]? = some client → w2.clients[j2]? = some client →
        verb = "read" ∨ verb = "write" →
        R1.Header[seriesColumn j1 verb]? = some (resultKey verb client.dbid) ∧
        R2.Header[seriesColumn j2 verb]? = some (resultKey verb client.dbid) ∧
        ∀ i, R1.cell i (seriesColumn j1 verb) = R2.cell i (seriesColumn j2 verb) := by
  obtain ⟨G1, T1, L1, hf1⟩ := tableRows_spec w1 hw
  obtain ⟨G2, T2, L2, hf2⟩ := tableRows_spec w2 (TableReady_of_perm w1 w2 hp hs hw)
  have hL : L2 = L1 := by
    have e1 := hf1.length_eq
    have e2 := hf2.length_eq
    rw [hs] at e1
    omega
  subst hL
  obtain ⟨R1, hR1, hH1, hlen1, -, hcell1⟩ := hf1.result
  obtain ⟨R2, hR2, hH2, hlen2, -, hcell2⟩ := hf2.result
  have hcells : ∀ c1 c2, c1 < 2 * w1.clients.length + 1 → c2 < 2 * w2.clients.length + 1 →
      (0 < c1 ↔ 0 < c2) → (∀ i, i < L2 → getCell G1 i c1 = getCell G2 i c2) →
      ∀ i, R1.cell i c1 = R2.cell i c2 := by
    intro c1 c2 hc1 hc2 hpos hG i
    by_cases hi : i < L2
    · rw [hcell1 i c1 hi hc1, hcell2 i c2 hi hc2,
        filled_columns_eq hf1 hf2 c1 c2 hc1 hc2 hpos hG i hi]
    · rw [cell_beyond_rows R1 i c1 (by omega), cell_beyond_rows R2 i c2 (by omega)]
  refine ⟨R1, R2, hR1, hR2, by rw [hlen1, hlen2], ?_, ?_, ?_⟩
  · rw [hH1, hH2]
    exact tableColumns_perm _ _ hp
  · apply hcells 0 0 (by omega) (by omega) Iff.rfl
    intro i hi
    rw [hf1.timestamp_cell i hi, hf2.timestamp_cell i hi, hs]
  · intro j1 j2 client verb hj1 hj2 hv
    have b1 := seriesColumn_bounds w1 j1 client verb hj1
    have b2 := seriesColumn_bounds w2 j2 client verb hj2
    refine ⟨?_, ?_, ?_⟩
    · rw [hH1]
      exact tableColumns_label _ j1 client verb hj1 hv
    · rw [hH2]
      exact tableColumns_label _ j2 client verb hj2 hv
    · apply hcells _ _ b1.2 b2.2 ⟨fun _ => b2.1, fun _ => b1.1⟩
      intro i hi
      rw [hf1.sample_cell j1 client verb hj1 hv i hi,
        hf2.sample_cell j2 client verb hj2 hv i hi, hs]

/-- C17, counterexample: with the store of one run, the registry `abc, xyz`
and the registry `xyz, abc` left by the swap of `Remove` hold the same targets
and give the same `List`, but the rows of `Results` and the columns of
`ResultsTable` come in the order of the registry and differ; and for the
registry that holds two targets with the id `abc` and different user names,
`List` returns the two entries in the order of that registry, so that the
two orders of the registry give different lists. -/
theorem registry_order_shows :
    addedOrderState.results = swappedOrderState.results ∧
    addedOrderState.clients.Perm swappedOrderState.clients ∧
    addedOrderState.List = swappedOrderState.List ∧
    addedOrderState.Results.1.Rows =
      [[.str "abc", .str "read", .int 1], [.str "xyz", .str "read", .int 1],
       [.str "abc", .str "write", .int 0], [.str "xyz", .str "write", .int 0]] ∧
    swappedOrderState.Results.1.Rows =
      [[.str "xyz", .str "read", .int 1], [.str "abc", .str "read", .int 1],
       [.str "xyz", .str "write", .int 0], [.str "abc", .str "write", .int 0]] ∧
    addedOrderState.ResultsTable =
      .ok { Header := ["timestamp", "read:abc", "write:abc", "read:xyz", "write:xyz"],
            Rows := [[.int64 1, .int64 10, .int64 0, .int64 20, .int64 0],
                     [.int64 2, .int64 10, .int64 0, .int64 20, .int64 0]] } ∧
    swappedOrderState.ResultsTable =
      .ok { Header := ["timestamp", "read:xyz", "write:xyz", "read:abc", "write:abc"],
            Rows := [[.int64 1, .int64 20, .int64 0, .int64 10, .int64 0],
                     [.int64 2, .int64 20, .int64 0, .int64 10, .int64 0]] } ∧
    (duplicateIdState "neo4j" "admin").results = (duplicateIdState "admin" "neo4j").results ∧
    (duplicateIdState "neo4j" "admin").clients.Perm (duplicateIdState "admin" "neo4j").clients ∧
    (duplicateIdState "neo4j" "admin").List ≠ (duplicateIdState "admin" "neo4j").List := by
  refine ⟨rfl, by decide, by decide, by decide, by decide, by decide, by decide, rfl,
    by decide, by decide⟩

/-- C17: for two states with the same store whose registries hold the same
targets in a different order, `List` returns the same result when targets with
the same id are the same target; `Results` returns the same rows, in the order
of the registry; and where the table can be built, `ResultsTable` returns as
many rows, the same labels, the same timestamp column and, for each series of
each target, the same column under the same label, at the place of the target
in the order of the registry. -/
theorem registry_order_up_to_order (w1 w2 : Workload)
    (hp : w1.clients.Perm w2.clients) (hs : w1.results = w2.results) :
    ((∀ a ∈ w1.clients, ∀ b ∈ w1.clients, a.neo4j.dbid = b.neo4j.dbid → a = b) →
      w1.List = w2.List) ∧
    (w1.Results.2 = w2.Results.2 ∧ w1.Results.1.Header = w2.Results.1.Header ∧
      w1.Results.1.Rows.Perm w2.Results.1.Rows ∧
      w1.Results.1.Rows =
        w1.clients.map (fun client =>
          [Value.str client.dbid, Value.str "read",
           Value.int (w1.results.Len client.dbid "read")]) ++
        w1.clients.map (fun client =>
          [Value.str client.dbid, Value.str "write",
           Value.int (w1.results.Len client.dbid "write")])) ∧
    (TableReady w1 →
      ∃ R1 R2, w1.ResultsTable = .ok R1 ∧ w2.ResultsTable = .ok R2 ∧
        R1.Rows.length = R2.Rows.length ∧ R1.Header.Perm R2.Header ∧
        (∀ i, R1.cell i 0 = R2.cell i 0) ∧
        ∀ j1 j2 client verb, w1.clients[j1]? = some client →
          w2.clients[j2]? = some client → verb = "read" ∨ verb = "write" →
          R1.Header[seriesColumn j1 verb]? = some (resultKey verb client.dbid) ∧
          R2.Header[seriesColumn j2 verb]? = some (resultKey verb client.dbid) ∧
          ∀ i, R1.cell i (seriesColumn j1 verb) = R2.cell i (seriesColumn j2 verb)) :=
  ⟨List_of_perm w1 w2 hp,
   ⟨rfl, rfl, Results_of_perm w1 w2 hp hs, Results_rows w1⟩,
   ResultsTable_of_perm w1 w2 hp hs⟩

theorem registry_order_up_to_order_witness :
    addedOrderState.List = swappedOrderState.List ∧
    addedOrderState.Results.1.Rows.Perm swappedOrderState.Results.1.Rows ∧
    ∃ R1 R2, addedOrderState.ResultsTable = .ok R1 ∧
      swappedOrderState.ResultsTable = .ok R2 ∧
      ∀ i, R1.cell i (seriesColumn 0 "read") = R2.cell i (seriesColumn 1 "read") := by
  have h := registry_order_up_to_order addedOrderState swappedOrderState (by decide) rfl
  obtain ⟨R1, R2, h1, h2, -, -, -, hcol⟩ := h.2.2
    ⟨by decide, by decide, exampleJob "xyz", by decide, "read", Or.inl rfl, by decide⟩
  exact ⟨h.1 (by decide), h.2.1.2.2.1, R1, R2, h1, h2,
    (hcol 0 1 (exampleJob "abc") "read" rfl rfl (Or.inl rfl)).2.2⟩

/-! ## `FilterResultByRows` -/

/-- C19: on the `SHOW DATABASES` example of the source and the filter
`name = system, role = follower`, in either order of the keys of the filter,
`FilterResultByRows` returns seven rows: every row once for each key of the
filter whose value it holds (the two follower rows of `neo4j` once, the leader
row of `system` once, the two follower rows of `system` twice), not the two
follower rows of `system` that the comment of the function gives. -/
theorem FilterResultByRows_adds_row_per_key :
    showDatabases.FilterResultByRows systemFollowerFilter =
      .ok { Header := showDatabases.Header,
            Rows := [showDatabases.Rows.getD 1 [], showDatabases.Rows.getD 2 [],
                     showDatabases.Rows.getD 3 [], showDatabases.Rows.getD 3 [],
                     showDatabases.Rows.getD 4 [],
                     showDatabases.Rows.getD 5 [], showDatabases.Rows.getD 5 []] } ∧
    showDatabases.FilterResultByRows followerSystemFilter =
      showDatabases.FilterResultByRows systemFollowerFilter ∧
    (showDatabases.Rows.filter (fun row =>
      row.getD 0 Value.null = Value.str "system" ∧
        row.getD 2 Value.null = Value.str "follower")).length = 2 := by
  refine ⟨by decide, by decide, by decide⟩

/-! ## `FilterResultByColumns` -/

theorem zip_count_le (values row : List Value) :
    (List.zip values row).countP (fun p => p.1 = p.2) ≤ values.length := by
  calc (List.zip values row).countP (fun p => p.1 = p.2)
      ≤ (List.zip values row).length := List.countP_le_length _
    _ ≤ values.length := by rw [List.length_zip]; exact Nat.min_le_left _ _

theorem zip_count_eq_iff : ∀ (values row : List Value), row.length = values.length →
    ((List.zip values row).countP (fun p => p.1 = p.2) = values.length ↔ values = row) := by
  intro values
  induction values with
  | nil =>
    intro row h
    cases row with
    | nil => simp
    | cons r rs => simp at h
  | cons v vs ih =>
    intro row h
    cases row with
    | nil => simp at h
    | cons r rs =>
      have hlen : rs.length = vs.length := by simpa using h
      have hle := zip_count_le vs rs
      simp only [List.zip_cons_cons, List.countP_cons, List.length_cons, List.cons.injEq]
      by_cases hv : v = r
      · simp only [hv, decide_True, if_true, true_and, Nat.add_right_cancel_iff]
        exact ih rs hlen
      · simp only [hv, decide_False, false_and, iff_false]
        simp only [Bool.false_eq_true, if_false]
        omega

theorem contains_iff_mem (r : Neo4jResult) (values : List Value) :
    r.contains values = true ↔ values ∈ r.Rows := by
  unfold Neo4jResult.contains
  rw [List.any_eq_true]
  constructor
  · rintro ⟨row, hrow, h⟩
    split_ifs at h with hlen
    · rw [decide_eq_true_iff, zip_count_eq_iff values row hlen] at h
      rw [h]
      exact hrow
  · intro h
    refine ⟨values, h, ?_⟩
    rw [if_pos rfl, decide_eq_true_iff, zip_count_eq_iff values values rfl]

theorem lastHeaderIndex_some_iff (c : String) : ∀ (header : List String),
    (∃ x, lastHeaderIndex c header = some x) ↔ c ∈ header := by
  intro header
  induction header with
  | nil => simp [lastHeaderIndex]
  | cons h hs ih =>
    unfold lastHeaderIndex
    cases hl : lastHeaderIndex c hs with
    | some x =>
      have : c ∈ hs := ih.mp ⟨x, hl⟩
      simp [this]
    | none =>
      have : c ∉ hs := fun hmem => by
        obtain ⟨x, hx⟩ := ih.mpr hmem
        rw [hl] at hx
        exact Option.noConfusion hx
      by_cases hc : c = h
      · simp [hc]
      · simp [hc, this]

/-- The header at the position found is the column, no later header is, and
the position lies within the header. -/
theorem lastHeaderIndex_spec (c : String) : ∀ (header : List String) (x : Nat),
    lastHeaderIndex c header = some x →
      header[x]? = some c ∧ ∀ y, x < y → header[y]? ≠ some c := by
  intro header
  induction header with
  | nil => intro x h; simp [lastHeaderIndex] at h
  | cons h hs ih =>
    intro x hx
    unfold lastHeaderIndex at hx
    cases hl : lastHeaderIndex c hs with
    | some k =>
      rw [hl] at hx
      simp only [Option.some.injEq] at hx
      subst hx
      obtain ⟨h1, h2⟩ := ih k hl
      refine ⟨by simpa using h1, ?_⟩
      intro y hy
      obtain ⟨y', rfl⟩ : ∃ y', y = y' + 1 := ⟨y - 1, by omega⟩
      simpa using h2 y' (by omega)
    | none =>
      rw [hl] at hx
      simp only at hx
      split_ifs at hx with hc
      simp only [Option.some.injEq] at hx
      subst hx
      refine ⟨by simp [hc], ?_⟩
      intro y hy
      obtain ⟨y', rfl⟩ : ∃ y', y = y' + 1 := ⟨y - 1, by omega⟩
      simp only [List.getElem?_cons_succ]
      intro hy'
      have hmem : c ∈ hs := List.getElem?_mem hy'
      obtain ⟨k, hk⟩ := (lastHeaderIndex_some_iff c hs).mpr hmem
      rw [hl] at hk
      exact Option.noConfusion hk

theorem columnIndexOf_eq (c : String) : ∀ (header : List String) (x : Nat) (index : Int),
    columnIndexOf c header x index =
      match lastHeaderIndex c header with
      | some k => ((x + k : Nat) : Int)
      | none => index := by
  intro header
  induction header with
  | nil => intro x index; rfl
  | cons h hs ih =>
    intro x index
    unfold columnIndexOf lastHeaderIndex
    rw [ih]
    cases hl : lastHeaderIndex c hs with
    | some k =>
      simp only
      congr 1
      omega
    | none =>
      simp only
      split_ifs <;> simp

/-- Keeping the first occurrence of each row: the elements added to `A`
are the elements of `P` that `A` lacks, each once, in the order of their first
occurrence in `P`: an element placed before another occurs in `P` before every
occurrence of the other. -/
theorem first_occurrences : ∀ (P A : List (List Value)), A.Nodup →
    ∃ S, P.foldl (fun A p => if p ∈ A then A else A ++ [p]) A = A ++ S ∧ S.Nodup ∧
      (∀ s, s ∈ S ↔ s ∈ P ∧ s ∉ A) ∧
      S.Pairwise (fun p q => ∃ l1 l2, P = l1 ++ p :: l2 ∧ p ∉ l1 ∧ q ∉ l1) := by
  intro P
  induction P with
  | nil =>
    intro A _
    exact ⟨[], by simp, List.nodup_nil, by simp, List.Pairwise.nil⟩
  | cons x P ih =>
    intro A hA
    by_cases hx : x ∈ A
    · obtain ⟨S, hS, hnd, hmem, hpw⟩ := ih A hA
      refine ⟨S, by simp only [List.foldl_cons, if_pos hx]; exact hS, hnd, ?_, ?_⟩
      · intro s
        rw [hmem s, List.mem_cons]
        constructor
        · rintro ⟨h1, h2⟩
          exact ⟨Or.inr h1, h2⟩
        · rintro ⟨h1 | h1, h2⟩
          · rw [h1] at h2
            exact absurd hx h2
          · exact ⟨h1, h2⟩
      · refine List.Pairwise.imp_of_mem ?_ hpw
        rintro p q hp hq ⟨l1, l2, hP, hp1, hq1⟩
        have hpx : p ≠ x := fun e => ((hmem p).mp hp).2 (e ▸ hx)
        have hqx : q ≠ x := fun e => ((hmem q).mp hq).2 (e ▸ hx)
        refine ⟨x :: l1, l2, by rw [hP]; rfl, ?_, ?_⟩
        · rw [List.mem_cons]
          rintro (h | h)
          · exact hpx h
          · exact hp1 h
        · rw [List.mem_cons]
          rintro (h | h)
          · exact hqx h
          · exact hq1 h
    · have hA2 : (A ++ [x]).Nodup := by
        rw [List.nodup_append]
        refine ⟨hA, List.nodup_singleton x, ?_⟩
        intro a ha hb
        rw [List.mem_singleton] at hb
        exact hx (hb ▸ ha)
      obtain ⟨S, hS, hnd, hmem, hpw⟩ := ih (A ++ [x]) hA2
      have hnotx : ∀ s ∈ S, x ≠ s := by
        intro s hs e
        exact ((hmem s).mp hs).2 (by rw [← e]; simp)
      refine ⟨x :: S, ?_, ?_, ?_, ?_⟩
      · simp only [List.foldl_cons, if_neg hx]
        rw [hS]
        simp
      · rw [List.nodup_cons]
        exact ⟨fun h => hnotx x h rfl, hnd⟩
      · intro s
        rw [List.mem_cons, List.mem_cons, hmem s]
        constructor
        · rintro (h | ⟨h1, h2⟩)
          · rw [h]
            exact ⟨Or.inl rfl, hx⟩
          · exact ⟨Or.inr h1, fun h => h2 (List.mem_append_left _ h)⟩
        · rintro ⟨h1 | h1, h2⟩
          · exact Or.inl h1
          · by_cases hsx : s = x
            · exact Or.inl hsx
            · refine Or.inr ⟨h1, ?_⟩
              rw [List.mem_append, List.mem_singleton]
              rintro (h | h)
              · exact h2 h
              · exact hsx h
      · rw [List.pairwise_cons]
        constructor
        · intro s _
          exact ⟨[], P, rfl, List.not_mem_nil _, List.not_mem_nil _⟩
        · refine List.Pairwise.imp_of_mem ?_ hpw
          rintro p q hp hq ⟨l1, l2, hP, hp1, hq1⟩
          refine ⟨x :: l1, l2, by rw [hP]; rfl, ?_, ?_⟩
          · rw [List.mem_cons]
            rintro (h | h)
            · exact hnotx p hp h.symm
            · exact hp1 h
          · rw [List.mem_cons]
            rintro (h | h)
            · exact hnotx q hq h.symm
            · exact hq1 h

theorem projectRow_eq (header : List String) (row : List Value)
    (hrow : row.length = header.length) : ∀ (columns : List String),
    projectRow row (columns.map (fun c => columnIndexOf c header 0 (-1))) =
      .ok (projection header columns row) := by
  intro columns
  induction columns with
  | nil => rfl
  | cons c cs ih =>
    simp only [List.map_cons, projectRow, ih, projection]
    rw [columnIndexOf_eq]
    cases hl : lastHeaderIndex c header with
    | some k =>
      have hk : k < row.length := by
        have h1 := (lastHeaderIndex_spec c header k hl).1
        rw [hrow]
        by_contra hge
        rw [List.getElem?_eq_none (by omega)] at h1
        exact Option.noConfusion h1
      simp only [Nat.zero_add, ge_iff_le, Int.natCast_nonneg, if_true, Int.toNat_ofNat,
        List.getElem?_eq_getElem hk, List.getD_eq_getElem _ _ hk]
    | none =>
      simp only [ge_iff_le, show ¬ ((0 : Int) ≤ -1) by decide, if_false]

theorem columnRows_eq (header columns : List String) : ∀ (rows : List (List Value))
    (acc : Neo4jResult), (∀ row ∈ rows, row.length = header.length) →
    columnRows (columns.map (fun c => columnIndexOf c header 0 (-1))) rows acc =
      .ok { Header := acc.Header,
            Rows := (rows.map (projection header columns)).foldl
              (fun A p => if p ∈ A then A else A ++ [p]) acc.Rows } := by
  intro rows
  induction rows with
  | nil => intro acc _; rfl
  | cons row rows ih =>
    intro acc hrows
    have hrow := hrows row (List.mem_cons_self _ _)
    have hrest : ∀ r ∈ rows, r.length = header.length :=
      fun r hr => hrows r (List.mem_cons_of_mem _ hr)
    simp only [columnRows, projectRow_eq header row hrow, List.map_cons, List.foldl_cons]
    by_cases hmem : projection header columns row ∈ acc.Rows
    · have hc : acc.contains (projection header columns row) = true :=
        (contains_iff_mem _ _).mpr hmem
      simp only [hc, Bool.not_true, Bool.false_eq_true, if_false, if_pos hmem]
      exact ih acc hrest
    · have hc : acc.contains (projection header columns row) = false := by
        rw [← Bool.not_eq_true, contains_iff_mem]
        exact hmem
      simp only [hc, Bool.not_false, if_true, if_neg hmem]
      rw [ih (acc.add (projection header columns row)) hrest]
      rfl

theorem lastHeaderIndex_of_last (c : String) (header : List String) (x : Nat)
    (hx : header[x]? = some c) (hlast : ∀ y, x < y → header[y]? ≠ some c) :
    lastHeaderIndex c header = some x := by
  obtain ⟨k, hk⟩ := (lastHeaderIndex_some_iff c header).mpr (List.getElem?_mem hx)
  obtain ⟨h1, h2⟩ := lastHeaderIndex_spec c header k hk
  have hxk : ¬ x < k := fun h => hlast k h h1
  have hkx : ¬ k < x := fun h => h2 x h hx
  rw [hk, show k = x by omega]

theorem lastHeaderIndex_of_not_mem (c : String) (header : List String) (h : c ∉ header) :
    lastHeaderIndex c header = none := by
  cases hl : lastHeaderIndex c header with
  | none => rfl
  | some x => exact absurd ((lastHeaderIndex_some_iff c header).mp ⟨x, hl⟩) h

theorem projection_cell (header columns : List String) (row : List Value) (k : Nat) (c : String)
    (hk : columns[k]? = some c) :
    (projection header columns row)[k]? =
      some (match lastHeaderIndex c header with
        | some x => row.getD x Value.null
        | none => Value.str "") := by
  unfold projection
  rw [List.getElem?_map, hk]
  rfl

/-- C20: for every result whose rows have a cell for every header, and every
non-empty column list of which at least one column occurs in the header,
`FilterResultByColumns` returns a result whose header is the column list and
whose rows are the projections of the rows onto the columns, duplicates
removed: no two returned rows are equal, the returned rows are exactly the
projected rows, and they come in the order of their first occurrence (a row
returned before another occurs among the projected rows before every
occurrence of the other).  The
projection of a row holds, at the place of each column of the list, the empty
string when the column is not a header and otherwise the cell of the row under
the last header equal to the column. -/
theorem FilterResultByColumns_projects (r : Neo4jResult) (columns : List String)
    (hne : columns ≠ []) (hex : ∃ c ∈ columns, c ∈ r.Header)
    (hrows : ∀ row ∈ r.Rows, row.length = r.Header.length) :
    ∃ out, r.FilterResultByColumns columns = .ok out ∧ out.Header = columns ∧
      out.Rows.Nodup ∧
      (∀ p, p ∈ out.Rows ↔ p ∈ r.Rows.map (projection r.Header columns)) ∧
      out.Rows.Pairwise (fun p q => ∃ l1 l2,
        r.Rows.map (projection r.Header columns) = l1 ++ p :: l2 ∧ p ∉ l1 ∧ q ∉ l1) ∧
      ∀ row ∈ r.Rows, (projection r.Header columns row).length = columns.length ∧
        ∀ (k : Nat) (c : String), columns[k]? = some c →
          (c ∉ r.Header → (projection r.Header columns row)[k]? = some (Value.str "")) ∧
          ∀ x : Nat, r.Header[x]? = some c → (∀ y : Nat, x < y → r.Header[y]? ≠ some c) →
            (projection r.Header columns row)[k]? = row[x]? := by
  obtain ⟨S, hS, hnd, hmem, hpw⟩ :=
    first_occurrences (r.Rows.map (projection r.Header columns)) [] List.nodup_nil
  have hlen : ¬ columns.length = 0 := fun h => hne (List.length_eq_zero.mp h)
  have hany : (columns.map (fun c => columnIndexOf c r.Header 0 (-1))).any
      (fun coli => decide (coli ≥ 0)) = true := by
    obtain ⟨c, hc, hch⟩ := hex
    rw [List.any_eq_true]
    refine ⟨columnIndexOf c r.Header 0 (-1), List.mem_map_of_mem _ hc, ?_⟩
    obtain ⟨x, hx⟩ := (lastHeaderIndex_some_iff c r.Header).mpr hch
    rw [columnIndexOf_eq, hx, decide_eq_true_iff]
    exact Int.natCast_nonneg _
  refine ⟨{ Header := columns, Rows := S }, ?_, rfl, hnd, ?_, hpw, ?_⟩
  · unfold Neo4jResult.FilterResultByColumns
    rw [if_neg hlen]
    simp only [hany, if_true]
    rw [columnRows_eq r.Header columns r.Rows (NewNeo4jResult columns) hrows]
    simp only [NewNeo4jResult]
    rw [hS]
    rfl
  · intro p
    rw [hmem p]
    simp
  · intro row hrow
    refine ⟨by simp [projection], ?_⟩
    intro k c hk
    rw [projection_cell r.Header columns row k c hk]
    constructor
    · intro hc
      rw [lastHeaderIndex_of_not_mem c r.Header hc]
    · intro x hx hlast
      rw [lastHeaderIndex_of_last c r.Header x hx hlast]
      have hxlt : x < row.length := by
        rw [hrows row hrow]
        by_contra hge
        rw [List.getElem?_eq_none (by omega)] at hx
        exact Option.noConfusion hx
      simp only [List.getElem?_eq_getElem hxlt, List.getD_eq_getElem _ _ hxlt]

theorem FilterResultByColumns_projects_witness :
    showDatabases.FilterResultByColumns ["name", "role"] =
      .ok { Header := ["name", "role"],
            Rows := [[.str "neo4j", .str "leader"], [.str "neo4j", .str "follower"],
                     [.str "system", .str "follower"], [.str "system", .str "leader"]] } ∧
    ∃ out, showDatabases.FilterResultByColumns ["name", "role"] = .ok out ∧
      out.Header = ["name", "role"] ∧ out.Rows.Nodup ∧
      ∀ p, p ∈ out.Rows ↔
        p ∈ showDatabases.Rows.map (projection showDatabases.Header ["name", "role"]) := by
  obtain ⟨out, h1, h2, h3, h4, -⟩ :=
    FilterResultByColumns_projects showDatabases ["name", "role"] (by decide)
      ⟨"name", by decide, by decide⟩ (by decide)
  exact ⟨by decide, out, h1, h2, h3, h4⟩

/-! ## Keys of the store -/

theorem resultKey_data (verb dbid : String) :
    (resultKey verb dbid).data = verb.data ++ ':' :: dbid.data := by
  unfold resultKey
  simp [String.data_append]

/-- The keys of the operations `read` and `write` determine the operation and
the id. -/
theorem resultKey_injective (verb dbid verb' dbid' : String)
    (hv : verb = "read" ∨ verb = "write") (hv' : verb' = "read" ∨ verb' = "write")
    (h : resultKey verb dbid = resultKey verb' dbid') : verb = verb' ∧ dbid = dbid' := by
  have hd := congrArg String.data h
  rw [resultKey_data, resultKey_data] at hd
  have hr : "read".data = ['r', 'e', 'a', 'd'] := rfl
  have hw : "write".data = ['w', 'r', 'i', 't', 'e'] := rfl
  rcases hv with rfl | rfl <;> rcases hv' with rfl | rfl
  · rw [hr] at hd
    simp only [List.cons_append, List.nil_append, List.cons.injEq, true_and] at hd
    exact ⟨rfl, String.ext hd⟩
  · rw [hr, hw] at hd
    simp at hd
  · rw [hr, hw] at hd
    simp at hd
  · rw [hw] at hd
    simp only [List.cons_append, List.nil_append, List.cons.injEq, true_and] at hd
    exact ⟨rfl, String.ext hd⟩

theorem Add_For_other (r : Results) (verb dbid : String) (value : Int) (verb' dbid' : String)
    (h : resultKey verb' dbid' ≠ resultKey verb dbid) :
    (r.Add verb dbid value).For dbid' verb' = r.For dbid' verb' := by
  unfold Results.For
  simp only [Add_lookup_other r verb dbid value _ h]

theorem Add_Len_other (r : Results) (verb dbid : String) (value : Int) (verb' dbid' : String)
    (h : resultKey verb' dbid' ≠ resultKey verb dbid) :
    (r.Add verb dbid value).Len dbid' verb' = r.Len dbid' verb' := by
  unfold Results.Len
  simp only [Add_lookup_other r verb dbid value _ h]

theorem Add_Len_same (r : Results) (verb dbid : String) (value : Int) :
    (r.Add verb dbid value).Len dbid verb = r.Len dbid verb + 1 := by
  unfold Results.Len
  simp only [Add_lookup_same]
  unfold Results.For
  cases h : r.results.lookup (resultKey verb dbid) <;> simp [h]

/-- C25: for operations `op`, `op'` among `read` and `write` and all ids `t`,
`t'` (an id may contain `:`), when `(op, t)` differs from `(op', t')` the keys
`op:t` and `op':t'` differ and `Add(op, t, v)` leaves `For(t', op')` and
`Len(t', op')` as they were. -/
theorem Add_frame (r : Results) (op t : String) (v : Int) (op' t' : String)
    (hop : op = "read" ∨ op = "write") (hop' : op' = "read" ∨ op' = "write")
    (hne : (op, t) ≠ (op', t')) :
    resultKey op t ≠ resultKey op' t' ∧
    (r.Add op t v).For t' op' = r.For t' op' ∧
    (r.Add op t v).Len t' op' = r.Len t' op' := by
  have hkey : resultKey op' t' ≠ resultKey op t := by
    intro h
    obtain ⟨h1, h2⟩ := resultKey_injective op' t' op t hop' hop h
    exact hne (by rw [h1, h2])
  exact ⟨Ne.symm hkey, Add_For_other r op t v op' t' hkey, Add_Len_other r op t v op' t' hkey⟩

theorem Add_frame_witness :
    ((NewResults TestTimestampMaker).Add "write" "a:b" 7).For "read:a" "read" =
      (NewResults TestTimestampMaker).For "read:a" "read" ∧
    (((NewResults TestTimestampMaker).Add "read" "a:b" 5).Add "write" "a:b" 7).Len "a:b" "read"
      = ((NewResults TestTimestampMaker).Add "read" "a:b" 5).Len "a:b" "read" :=
  ⟨(Add_frame (NewResults TestTimestampMaker) "write" "a:b" 7 "read" "read:a"
      (Or.inr rfl) (Or.inl rfl) (by decide)).2.1,
   (Add_frame ((NewResults TestTimestampMaker).Add "read" "a:b" 5) "write" "a:b" 7 "read" "a:b"
      (Or.inr rfl) (Or.inl rfl) (by decide)).2.2⟩

/-! ## The aggregator and the number of samples -/

theorem sum_bump (f g : String → Nat) (dbid : String) : ∀ (ids : List String),
    ids.Nodup → (∀ id, id ≠ dbid → g id = f id) → g dbid = f dbid + 1 →
    (ids.map g).sum = (ids.map f).sum + if dbid ∈ ids then 1 else 0 := by
  intro ids
  induction ids with
  | nil => intro _ _ _; rfl
  | cons id ids ih =>
    intro hnd hother hsame
    rw [List.nodup_cons] at hnd
    have hrest := ih hnd.2 hother hsame
    simp only [List.map_cons, List.sum_cons, List.mem_cons, hrest]
    by_cases hid : id = dbid
    · subst hid
      rw [hsame, if_neg hnd.1, if_pos (Or.inl rfl)]
      omega
    · rw [hother id hid]
      by_cases hmem : dbid ∈ ids
      · rw [if_pos hmem, if_pos (Or.inr hmem)]
        omega
      · rw [if_neg hmem, if_neg (fun h => h.elim (fun e => hid e.symm) hmem)]
        omega

/-- A sample added for an id of the list raises the number of samples by one. -/
theorem totalSamples_Add (r : Results) (verb dbid : String) (value : Int) (ids : List String)
    (hv : verb = "read" ∨ verb = "write") (hnd : ids.Nodup) (hmem : dbid ∈ ids) :
    totalSamples (r.Add verb dbid value) ids = totalSamples r ids + 1 := by
  have hrw : "read" ≠ "write" := by decide
  unfold totalSamples
  rw [sum_bump (fun id => r.Len id "read" + r.Len id "write")
    (fun id => (r.Add verb dbid value).Len id "read" + (r.Add verb dbid value).Len id "write")
    dbid ids hnd, if_pos hmem]
  · intro id hid
    have h1 : resultKey "read" id ≠ resultKey verb dbid := fun h =>
      hid (resultKey_injective _ _ _ _ (Or.inl rfl) hv h).2
    have h2 : resultKey "write" id ≠ resultKey verb dbid := fun h =>
      hid (resultKey_injective _ _ _ _ (Or.inr rfl) hv h).2
    simp only [Add_Len_other r verb dbid value _ _ h1, Add_Len_other r verb dbid value _ _ h2]
  · rcases hv with rfl | rfl
    · have h2 : resultKey "write" dbid ≠ resultKey "read" dbid := fun h =>
        hrw (resultKey_injective _ _ _ _ (Or.inr rfl) (Or.inl rfl) h).1.symm
      simp only [Add_Len_same, Add_Len_other r "read" dbid value _ _ h2]
      omega
    · have h1 : resultKey "read" dbid ≠ resultKey "write" dbid := fun h =>
        hrw (resultKey_injective _ _ _ _ (Or.inl rfl) (Or.inr rfl) h).1
      simp only [Add_Len_same, Add_Len_other r "write" dbid value _ _ h1]
      omega

theorem readLoopStep_message_running (w : Workload) (msg : Message) :
    (readLoopStep w (.message msg)).running = w.running := by
  simp only [readLoopStep]
  split_ifs <;> rfl

theorem readLoopStep_other (w : Workload) (msg : Message)
    (h : msg.verb ≠ "read" ∧ msg.verb ≠ "write") : readLoopStep w (.message msg) = w := by
  simp only [readLoopStep]
  rw [if_neg h.1, if_neg h.2]

theorem readLoopStep_sample (w : Workload) (msg : Message)
    (h : msg.verb = "read" ∨ msg.verb = "write") :
    (readLoopStep w (.message msg)).results = w.results.Add msg.verb msg.dbid msg.value := by
  simp only [readLoopStep]
  rcases h with h | h
  · rw [if_pos h]
  · by_cases h1 : msg.verb = "read"
    · rw [if_pos h1]
    · rw [if_neg h1, if_pos h]

/-- The store after the aggregator has consumed the messages, one by one. -/
theorem readLoop_messages (ids : List String) (hnd : ids.Nodup) : ∀ (msgs : List Message)
    (w : Workload), w.running = true →
    (∀ m ∈ msgs, m.isSample = true → m.dbid ∈ ids) →
    (readLoop w (msgs.map LoopEvent.message)).running = true ∧
    (readLoop w (msgs.map LoopEvent.message)).clients = w.clients ∧
    totalSamples (readLoop w (msgs.map LoopEvent.message)).results ids =
      totalSamples w.results ids + msgs.countP Message.isSample := by
  intro msgs
  induction msgs with
  | nil => intro w hw _; exact ⟨hw, rfl, rfl⟩
  | cons m msgs ih =>
    intro w hw hids
    have hrun : (readLoopStep w (.message m)).running = true := by
      rw [readLoopStep_message_running, hw]
    obtain ⟨h1, h2, h3⟩ := ih (readLoopStep w (.message m)) hrun
      (fun x hx => hids x (List.mem_cons_of_mem _ hx))
    simp only [List.map_cons, readLoop, hw, if_true]
    refine ⟨h1, ?_, ?_⟩
    · rw [h2]
      simp only [readLoopStep]
      split_ifs <;> rfl
    · rw [h3, List.countP_cons]
      by_cases hs : m.isSample = true
      · have hv : m.verb = "read" ∨ m.verb = "write" := by
          unfold Message.isSample at hs
          exact of_decide_eq_true hs
        rw [readLoopStep_sample w m hv,
          totalSamples_Add _ _ _ _ ids hv hnd (hids m (List.mem_cons_self _ _) hs), if_pos hs]
        omega
      · have hv : m.verb ≠ "read" ∧ m.verb ≠ "write" := by
          unfold Message.isSample at hs
          rw [decide_eq_true_iff] at hs
          exact not_or.mp hs
        rw [readLoopStep_other w m hv, if_neg hs]
        omega

theorem totalSamples_cleared (r : Results) (ids : List String) :
    totalSamples r.Clear ids = 0 := by
  unfold totalSamples
  simp [Len_cleared]

/-- Every duration held by the store after the aggregator has consumed the
messages was held before or is the value of a consumed message that carries a
sample. -/
theorem readLoop_durations (all : List Message) : ∀ (msgs : List Message) (w : Workload),
    (∀ m ∈ msgs, m ∈ all) →
    (∀ e ∈ w.results.results.entries, ∀ d ∈ e.2.durations,
      ∃ m ∈ all, m.isSample = true ∧ m.value = d) →
    ∀ e ∈ (readLoop w (msgs.map LoopEvent.message)).results.results.entries,
      ∀ d ∈ e.2.durations, ∃ m ∈ all, m.isSample = true ∧ m.value = d := by
  intro msgs
  induction msgs with
  | nil => intro w _ hw; exact hw
  | cons m msgs ih =>
    intro w hall hw
    simp only [List.map_cons, readLoop]
    split_ifs with hrun
    · apply ih _ (fun x hx => hall x (List.mem_cons_of_mem _ hx))
      by_cases hs : m.isSample = true
      · have hv : m.verb = "read" ∨ m.verb = "write" := by
          unfold Message.isSample at hs
          exact of_decide_eq_true hs
        rw [readLoopStep_sample w m hv]
        intro e he d hd
        have hm : ∃ x ∈ all, x.isSample = true ∧ x.value = m.value :=
          ⟨m, hall m (List.mem_cons_self _ _), hs, rfl⟩
        rcases Add_mem_entries _ _ _ _ e he with h | ⟨-, h⟩ | ⟨e0, he0, -, h⟩
        · exact hw e h d hd
        · rw [h, List.mem_singleton] at hd
          rw [hd]
          exact hm
        · rw [h, List.mem_append, List.mem_singleton] at hd
          rcases hd with hd | hd
          · exact hw e0 he0 d hd
          · rw [hd]
            exact hm
      · have hv : m.verb ≠ "read" ∧ m.verb ≠ "write" := by
          unfold Message.isSample at hs
          rw [decide_eq_true_iff] at hs
          exact not_or.mp hs
        rw [readLoopStep_other w m hv]
        exact hw
    · exact hw

/-- C21: after a successful `Start`, for every sequence of messages consumed
by the aggregator, the number of samples in the store (the sum of `Len` over
the ids of the targets, each id once, and the operations `read` and `write`)
is the number of consumed messages whose operation is exactly `read` or
`write`, also once the stop signal is taken after them; a message whose
operation is `read:error`, `write:error` or `model:error` leaves the store as
it is, and every duration in the store is the value of a consumed message
whose operation is `read` or `write`. -/
theorem aggregator_counts (w : Workload) (hstopped : w.running = false)
    (ids : List String) (hnd : ids.Nodup) (msgs : List Message)
    (hids : ∀ m ∈ msgs, m.isSample = true → m.dbid ∈ ids) :
    w.Start.err = none ∧
    totalSamples (readLoop w.Start.state (msgs.map LoopEvent.message)).results ids =
      msgs.countP Message.isSample ∧
    totalSamples
      (readLoop w.Start.state (msgs.map LoopEvent.message ++ [LoopEvent.done])).results ids =
      msgs.countP Message.isSample ∧
    (∀ (w0 : Workload) (m : Message),
      m.verb = "read:error" ∨ m.verb = "write:error" ∨ m.verb = "model:error" →
      m.isSample = false ∧ readLoopStep w0 (LoopEvent.message m) = w0) ∧
    (∀ e ∈ (readLoop w.Start.state (msgs.map LoopEvent.message)).results.results.entries,
      ∀ d ∈ e.2.durations, ∃ m ∈ msgs, m.isSample = true ∧ m.value = d) := by
  have hstart : w.Start.state =
      { w with running := true, clients := (startClients w.runnerMaker w.clients).1,
               results := w.results.Clear } := by
    unfold Workload.Start
    simp [hstopped]
  have herr : w.Start.err = none := by
    unfold Workload.Start
    simp [hstopped]
  have hrun : w.Start.state.running = true := by rw [hstart]
  have hclear : w.Start.state.results = w.results.Clear := by rw [hstart]
  obtain ⟨h1, -, h3⟩ := readLoop_messages ids hnd msgs w.Start.state hrun hids
  rw [hclear, totalSamples_cleared, Nat.zero_add] at h3
  refine ⟨herr, h3, ?_, ?_, ?_⟩
  · have happ : ∀ (evs : List LoopEvent) (w0 : Workload),
        (readLoop w0 (evs ++ [LoopEvent.done])).results = (readLoop w0 evs).results := by
      intro evs
      induction evs with
      | nil =>
        intro w0
        simp only [List.nil_append, readLoop, readLoopStep]
        split_ifs <;> rfl
      | cons e evs ih =>
        intro w0
        simp only [List.cons_append, readLoop]
        split_ifs
        · exact ih _
        · rfl
    rw [happ, h3]
  · intro w0 m hm
    have hv : m.verb ≠ "read" ∧ m.verb ≠ "write" := by
      rcases hm with h | h | h <;> rw [h] <;> decide
    refine ⟨?_, readLoopStep_other w0 m hv⟩
    unfold Message.isSample
    rw [decide_eq_false_iff_not]
    exact not_or.mpr hv
  · apply readLoop_durations msgs msgs w.Start.state (fun m hm => hm)
    rw [hclear]
    intro e he
    exact absurd he (List.not_mem_nil _)

theorem aggregator_counts_witness :
    totalSamples (readLoop (exampleWorkload ["abc", "xyz"] [("read", "abc", 1, 10)]).Start.state
      ([{ verb := "read", dbid := "abc", value := 12 },
        { verb := "write:error", dbid := "xyz", value := 1 },
        { verb := "write", dbid := "abc", value := 30 },
        { verb := "model:error", dbid := "xyz", value := -1 },
        { verb := "read", dbid := "xyz", value := 9 }].map LoopEvent.message)).results
      ["abc", "xyz"] = 3 :=
  (aggregator_counts (exampleWorkload ["abc", "xyz"] [("read", "abc", 1, 10)]) rfl
    ["abc", "xyz"] (by decide)
    [{ verb := "read", dbid := "abc", value := 12 },
     { verb := "write:error", dbid := "xyz", value := 1 },
     { verb := "write", dbid := "abc", value := 30 },
     { verb := "model:error", dbid := "xyz", value := -1 },
     { verb := "read", dbid := "xyz", value := 9 }] (by decide)).2.1

/-! ## Gap cells and the cells above them -/

/-- An interior gap cell between the nearest non-zero value `p` of the rows
above, in the table, and the nearest non-zero sample `n` of the rows below. -/
theorem TableFacts.blend_cell {w : Workload} {G T : Grid} {L : Nat} (hf : TableFacts w G T L)
    (c : Nat) (hc0 : 0 < c) (hc : c < 2 * w.clients.length + 1) (i a b : Nat) (p n : Int)
    (hi0 : 0 < i) (hGi : getCell G i c = 0)
    (ha : a < i) (hTa : getCell T a c = p) (hp0 : p ≠ 0)
    (habove : ∀ m, a < m → m < i → getCell T m c = 0)
    (hib : i < b) (hbL : b < L) (hGb : getCell G b c = n) (hn0 : n ≠ 0)
    (hbelow : ∀ m, i < m → m < b → getCell G m c = 0)
    (hp : 0 ≤ p) (hn : 0 ≤ n) (hsmall : 9 * p + n ≤ MaxInt64) :
    getCell T i c = (9 * p + n) / 10 := by
  rw [hf.interior_row i c hc0 hc hi0 (by omega) hGi,
    hf.prev_found i c a (by omega) ha hGi (by rw [hTa]; exact hp0) habove,
    hf.next_found i c b hbL (by omega) (by rw [hGb]; exact hn0) ?_, hTa, hGb]
  · exact blend_floor p n hp hn hsmall
  · intro m h1 h2
    rcases Nat.eq_or_lt_of_le h1 with h | h
    · rw [← h]; exact hGi
    · exact hbelow m h h2

theorem blendChain_bounds (p n : Int) (hp : 0 < p) (hn : 0 < n) (j : Nat) :
    0 < blendChain p n j ∧ blendChain p n j ≤ max p n := by
  induction j with
  | zero => exact ⟨hp, le_max_left p n⟩
  | succ j ih =>
    obtain ⟨h1, h2⟩ := ih
    have hn2 : n ≤ max p n := le_max_right p n
    show 0 < (9 * blendChain p n j + n) / 10 ∧ (9 * blendChain p n j + n) / 10 ≤ max p n
    constructor <;> omega

/-- A run of gap cells below the sample `p` of row `a`, with the next sample `n`
in row `b`: the cells of the run are the values of `blendChain`. -/
theorem TableFacts.chain_cell {w : Workload} {G T : Grid} {L : Nat} (hf : TableFacts w G T L)
    (c : Nat) (hc0 : 0 < c) (hc : c < 2 * w.clients.length + 1) (a b : Nat) (p n : Int)
    (hab : a < b) (hbL : b < L) (hGa : getCell G a c = p) (hGb : getCell G b c = n)
    (hp : 0 < p) (hn : 0 < n) (hgap : ∀ m, a < m → m < b → getCell G m c = 0)
    (hp10 : 10 * p ≤ MaxInt64) (hn10 : 10 * n ≤ MaxInt64) :
    ∀ j, a + j < b → getCell T (a + j) c = blendChain p n j := by
  intro j
  induction j with
  | zero =>
    intro _
    rw [Nat.add_zero, hf.kept a c (by omega) hc (Or.inr (by rw [hGa]; omega)), hGa]
    rfl
  | succ j ih =>
    intro hj
    have hprev := ih (by omega)
    obtain ⟨h1, h2⟩ := blendChain_bounds p n hp hn j
    have hsmall : 9 * blendChain p n j + n ≤ MaxInt64 := by
      rcases le_total p n with h | h
      · rw [max_eq_right h] at h2
        omega
      · rw [max_eq_left h] at h2
        omega
    rw [show a + (j + 1) = a + j + 1 by omega]
    exact hf.blend_cell c hc0 hc (a + j + 1) (a + j) b (blendChain p n j) n (by omega)
      (hgap _ (by omega) (by omega)) (by omega) hprev (by omega) (fun m h3 h4 => by omega)
      (by omega) hbL hGb (by omega) (fun m h3 h4 => hgap m (by omega) h4)
      (by omega) (by omega) hsmall

/-- The row of a tick at which a series of the store has a sample lies in the
table. -/
theorem TableFacts.sample_row {w : Workload} {G T : Grid} {L : Nat} (hf : TableFacts w G T L)
    (hw : TableReady w) (dbid verb : String) (b : Nat) (n : Int)
    (h : (w.results.For dbid verb).sampleAt (w.results.MinMax.1 + (b : Int)) = some n) :
    b < L := by
  have hlen := (For_of_sound w.results hw.1 dbid verb).1
  have hmem := (lastAt_some_mem _ _ _ n (le_of_eq hlen) h).1
  obtain ⟨_, hb2⟩ := tick_bounds w hw dbid verb _ hmem
  have hL := hf.length_eq
  omega

/-- C23: in the column of a series of a registered target, let row `a` hold
a sample `p > 0`, row `a + k + 1` a sample `n > 0`, and the `k` rows between
them no sample (or one of duration 0); these rows are interior rows.  Then the
cell of row `a + 1` is `(9*p + n)/10` and the cell of each further row
`a + x`, `2 ≤ x ≤ k`, is `(9*c + n)/10` where `c` is the cell of row
`a + x - 1` of the table, filled before it (integer division, for samples whose
tenfold fits `int64`): the cell of row `a + x` is `blendChain p n x`.  With the
samples 100 at tick 1 and 10 at tick 4 the column is 100, 91, 82, 10. -/
theorem chained_gap_fill (w : Workload) (hw : TableReady w) (j : Nat)
    (client : Neo4jJob) (verb : String) (hj : w.clients[j]? = some client)
    (hv : verb = "read" ∨ verb = "write") :
    (∃ R, w.ResultsTable = .ok R ∧
      ∀ (a k : Nat) (p n : Int),
        (w.results.For client.dbid verb).sampleAt (w.results.MinMax.1 + (a : Int)) = some p →
        0 < p →
        (w.results.For client.dbid verb).sampleAt
          (w.results.MinMax.1 + ((a + k + 1 : Nat) : Int)) = some n →
        0 < n →
        (∀ m : Nat, a < m → m ≤ a + k →
          ((w.results.For client.dbid verb).sampleAt (w.results.MinMax.1 + (m : Int))).getD 0
            = 0) →
        10 * p ≤ MaxInt64 → 10 * n ≤ MaxInt64 →
        (1 ≤ k → R.cell (a + 1) (seriesColumn j verb) = some (Value.int64 ((9 * p + n) / 10))) ∧
        (∀ x : Nat, 2 ≤ x → x ≤ k →
          ∃ c : Int, R.cell (a + x - 1) (seriesColumn j verb) = some (Value.int64 c) ∧
            R.cell (a + x) (seriesColumn j verb) = some (Value.int64 ((9 * c + n) / 10))) ∧
        (∀ x : Nat, x ≤ k →
          R.cell (a + x) (seriesColumn j verb) = some (Value.int64 (blendChain p n x)))) ∧
    (exampleWorkload ["abc"] [("read", "abc", 1, 100), ("read", "abc", 4, 10)]).ResultsTable =
      .ok { Header := ["timestamp", "read:abc", "write:abc"],
            Rows := [[.int64 1, .int64 100, .int64 0], [.int64 2, .int64 91, .int64 0],
                     [.int64 3, .int64 82, .int64 0], [.int64 4, .int64 10, .int64 0]] } := by
  refine ⟨?_, by decide⟩
  obtain ⟨G, T, L, hf⟩ := tableRows_spec w hw
  obtain ⟨hc0, hc⟩ := seriesColumn_bounds w j client verb hj
  obtain ⟨R, hR, _, _, _, hcell⟩ := hf.result
  refine ⟨R, hR, ?_⟩
  intro a k p n hpa hp hnb hn hgap hp10 hn10
  have hbL : a + k + 1 < L := hf.sample_row hw client.dbid verb _ n hnb
  have hGa : getCell G a (seriesColumn j verb) = p := by
    rw [hf.grid_cell j client verb hj hv a (by omega), hpa]; rfl
  have hGb : getCell G (a + k + 1) (seriesColumn j verb) = n := by
    rw [hf.grid_cell j client verb hj hv _ hbL, hnb]; rfl
  have hG0 : ∀ m, a < m → m < a + k + 1 → getCell G m (seriesColumn j verb) = 0 := by
    intro m h1 h2
    rw [hf.grid_cell j client verb hj hv m (by omega)]
    exact hgap m h1 (by omega)
  have hchain := hf.chain_cell _ hc0 hc a (a + k + 1) p n (by omega) hbL hGa hGb hp hn hG0
    hp10 hn10
  have hall : ∀ x : Nat, x ≤ k →
      R.cell (a + x) (seriesColumn j verb) = some (Value.int64 (blendChain p n x)) := by
    intro x hx
    rw [hcell (a + x) _ (by omega) hc, hchain x (by omega)]
  refine ⟨?_, ?_, hall⟩
  · intro hk
    exact hall 1 hk
  · intro x hx2 hxk
    obtain ⟨y, rfl⟩ : ∃ y, x = y + 1 := ⟨x - 1, by omega⟩
    refine ⟨blendChain p n y, ?_, hall (y + 1) hxk⟩
    rw [show a + (y + 1) - 1 = a + y by omega]
    exact hall y (by omega)

theorem chained_gap_fill_witness :
    ∃ R, (exampleWorkload ["abc"]
        [("read", "abc", 1, 100), ("read", "abc", 4, 10)]).ResultsTable = .ok R ∧
      R.cell 1 (seriesColumn 0 "read") = some (Value.int64 91) ∧
      R.cell 2 (seriesColumn 0 "read") = some (Value.int64 82) := by
  obtain ⟨R, hR, h⟩ := (chained_gap_fill
    (exampleWorkload ["abc"] [("read", "abc", 1, 100), ("read", "abc", 4, 10)])
    ⟨by decide, by decide, exampleJob "abc", by decide, "read", Or.inl rfl, by decide⟩
    0 (exampleJob "abc") "read" rfl (Or.inl rfl)).1
  have hg : ∀ m : Nat, 0 < m → m ≤ 0 + 2 →
      (((exampleWorkload ["abc"] [("read", "abc", 1, 100), ("read", "abc", 4, 10)]).results.For
        (exampleJob "abc").dbid "read").sampleAt
          ((exampleWorkload ["abc"]
            [("read", "abc", 1, 100), ("read", "abc", 4, 10)]).results.MinMax.1 + (m : Int))).getD 0
        = 0 := by
    intro m h1 h2
    have hm : m = 1 ∨ m = 2 := by omega
    rcases hm with rfl | rfl <;> decide
  obtain ⟨-, -, h3⟩ := h 0 2 100 10 (by decide) (by decide) (by decide) (by decide) hg
    (by decide) (by decide)
  exact ⟨R, hR, h3 1 (by decide), h3 2 (by decide)⟩

/-- C24: for a series of a registered target whose sample at the tick of row
`i` has the duration 0 (the last sample recorded at that tick), when the column
has in the table a non-zero value `p` in a row `a` above (the nearest one) and
the series a non-zero sample `n` at a row `b` below (the nearest one), so that
row `i` is an interior row, the cell of row `i` holds `(9*p + n)/10`, as it
does for a missing sample, and not the recorded 0 (for durations that are not
negative and do not overflow `int64`). -/
theorem zero_sample_is_gap (w : Workload) (hw : TableReady w) (j : Nat)
    (client : Neo4jJob) (verb : String) (hj : w.clients[j]? = some client)
    (hv : verb = "read" ∨ verb = "write") :
    ∃ R, w.ResultsTable = .ok R ∧
      ∀ (i a b : Nat) (p n : Int),
        (w.results.For client.dbid verb).sampleAt (w.results.MinMax.1 + (i : Int)) = some 0 →
        a < i → R.cell a (seriesColumn j verb) = some (Value.int64 p) → p ≠ 0 →
        (∀ m, a < m → m < i → R.cell m (seriesColumn j verb) = some (Value.int64 0)) →
        i < b →
        (w.results.For client.dbid verb).sampleAt (w.results.MinMax.1 + (b : Int)) = some n →
        n ≠ 0 →
        (∀ m : Nat, i < m → m < b →
          ((w.results.For client.dbid verb).sampleAt (w.results.MinMax.1 + (m : Int))).getD 0
            = 0) →
        0 ≤ p → 0 ≤ n → 9 * p + n ≤ MaxInt64 →
        0 < i ∧ (i : Int) < w.results.MinMax.2 - w.results.MinMax.1 ∧
        R.cell i (seriesColumn j verb) = some (Value.int64 ((9 * p + n) / 10)) ∧
        (9 * p + n) / 10 ≠ 0 := by
  obtain ⟨G, T, L, hf⟩ := tableRows_spec w hw
  obtain ⟨hc0, hc⟩ := seriesColumn_bounds w j client verb hj
  obtain ⟨R, hR, _, _, _, hcell⟩ := hf.result
  refine ⟨R, hR, ?_⟩
  intro i a b p n hzi ha hpa hp0 hpz hib hnb hn0 hnz hp hn hsmall
  have hbL : b < L := hf.sample_row hw client.dbid verb b n hnb
  have hL := hf.length_eq
  have hGi : getCell G i (seriesColumn j verb) = 0 := by
    rw [hf.grid_cell j client verb hj hv i (by omega), hzi]; rfl
  have hGb : getCell G b (seriesColumn j verb) = n := by
    rw [hf.grid_cell j client verb hj hv b hbL, hnb]; rfl
  have hTa : getCell T a (seriesColumn j verb) = p :=
    cell_value T L _ R hcell a _ (by omega) hc p hpa
  refine ⟨by omega, by omega, ?_, by omega⟩
  rw [hcell i _ (by omega) hc,
    hf.blend_cell _ hc0 hc i a b p n (by omega) hGi ha hTa hp0
      (fun m h1 h2 => cell_value T L _ R hcell m _ (by omega) hc 0 (hpz m h1 h2))
      hib hbL hGb hn0
      (fun m h1 h2 => by
        rw [hf.grid_cell j client verb hj hv m (by omega)]
        exact hnz m h1 h2)
      hp hn hsmall]

theorem zero_sample_is_gap_witness :
    ((exampleWorkload ["abc"]
        [("read", "abc", 2, 10), ("read", "abc", 3, 0), ("read", "abc", 4, 20)]).results.For
      "abc" "read").durations = [10, 0, 20] ∧
    ∃ R, (exampleWorkload ["abc"]
        [("read", "abc", 2, 10), ("read", "abc", 3, 0), ("read", "abc", 4, 20)]).ResultsTable
        = .ok R ∧
      R.cell 1 (seriesColumn 0 "read") = some (Value.int64 11) := by
  refine ⟨by decide, ?_⟩
  obtain ⟨R, hR, h⟩ := zero_sample_is_gap
    (exampleWorkload ["abc"]
      [("read", "abc", 2, 10), ("read", "abc", 3, 0), ("read", "abc", 4, 20)])
    ⟨by decide, by decide, exampleJob "abc", by decide, "read", Or.inl rfl, by decide⟩
    0 (exampleJob "abc") "read" rfl (Or.inl rfl)
  have hE : (exampleWorkload ["abc"]
      [("read", "abc", 2, 10), ("read", "abc", 3, 0), ("read", "abc", 4, 20)]).ResultsTable =
      .ok { Header := ["timestamp", "read:abc", "write:abc"],
            Rows := [[.int64 2, .int64 10, .int64 0], [.int64 3, .int64 11, .int64 0],
                     [.int64 4, .int64 20, .int64 0]] } := by decide
  have hRe := Except.ok.inj (hE.symm.trans hR)
  refine ⟨R, hR, (h 1 0 2 10 20 (by decide) (by decide) ?_ (by decide) ?_ (by decide)
    (by decide) (by decide) ?_ (by decide) (by decide) (by decide)).2.2.1⟩
  · rw [← hRe]; decide
  · intro m h1 h2; omega
  · intro m h1 h2; omega

/-! ## The worker loop -/

theorem workerLoop_exited (name errorMsg dbid : String) (s : WorkerState)
    (h : ¬ (s.running = true ∧ s.countErrors < 10)) (events : List WorkerEvent) :
    workerLoop name errorMsg dbid s events = s := by
  cases events with
  | nil => rfl
  | cons event events => simp only [workerLoop, if_neg h]

theorem workerLoop_append (name errorMsg dbid : String) : ∀ (pre rest : List WorkerEvent)
    (s : WorkerState),
    workerLoop name errorMsg dbid s (pre ++ rest) =
      workerLoop name errorMsg dbid (workerLoop name errorMsg dbid s pre) rest := by
  intro pre
  induction pre with
  | nil => intro rest s; rfl
  | cons event pre ih =>
    intro rest s
    by_cases hc : s.running = true ∧ s.countErrors < 10
    · cases event with
      | flagCleared =>
        simp only [List.cons_append, workerLoop, if_pos hc]
        rw [workerLoop_exited]
        simp
      | done =>
        simp only [List.cons_append, workerLoop, if_pos hc]
        exact ih rest _
      | query outcome =>
        simp only [List.cons_append, workerLoop, if_pos hc]
        exact ih rest _
    · simp only [List.cons_append, workerLoop, if_neg hc]
      rw [workerLoop_exited _ _ _ s hc]

theorem workerQuery_failure (name dbid : String) (s : WorkerState) (outcome : QueryOutcome)
    (h : outcome.isFailure = true) :
    workerQuery name (name ++ ":error") dbid s outcome =
      { s with countErrors := s.countErrors + 1,
               sent := s.sent ++
                 [{ verb := name ++ ":error", dbid := dbid, value := s.countErrors + 1 }],
               executed := s.executed ++ [outcome] } := by
  cases outcome with
  | failed => rfl
  | rows count elapsed =>
    have hne : count ≠ 1 := by simpa [QueryOutcome.isFailure] using h
    simp only [workerQuery, if_pos hne]

theorem workerQuery_success (name dbid : String) (s : WorkerState) (outcome : QueryOutcome)
    (h : outcome.isFailure = false) :
    ∃ elapsed, outcome = .rows 1 elapsed ∧
      workerQuery name (name ++ ":error") dbid s outcome =
        { s with sent := s.sent ++ [{ verb := name, dbid := dbid, value := elapsed }],
                 executed := s.executed ++ [outcome] } := by
  cases outcome with
  | failed => simp [QueryOutcome.isFailure] at h
  | rows count elapsed =>
    have he : count = 1 := by simpa [QueryOutcome.isFailure] using h
    subst he
    exact ⟨elapsed, rfl, by simp [workerQuery]⟩

theorem expectedMessages_failure (name dbid : String) (k : Nat) (outcome : QueryOutcome)
    (outcomes : List QueryOutcome) (h : outcome.isFailure = true) :
    expectedMessages name dbid k (outcome :: outcomes) =
      { verb := name ++ ":error", dbid := dbid, value := (k : Int) + 1 } ::
        expectedMessages name dbid (k + 1) outcomes := by
  cases outcome with
  | failed => rfl
  | rows count elapsed =>
    have hne : count ≠ 1 := by simpa [QueryOutcome.isFailure] using h
    simp only [expectedMessages, if_neg hne]

theorem expectedMessages_success (name dbid : String) (k : Nat) (elapsed : Int)
    (outcomes : List QueryOutcome) :
    expectedMessages name dbid k (.rows 1 elapsed :: outcomes) =
      { verb := name, dbid := dbid, value := elapsed } ::
        expectedMessages name dbid k outcomes := by
  simp only [expectedMessages, if_true]

theorem workerLoop_flag (name errorMsg dbid : String) (s : WorkerState)
    (hc : s.running = true ∧ s.countErrors < 10) (events : List WorkerEvent) :
    workerLoop name errorMsg dbid s (.flagCleared :: events) = { s with running := false } := by
  simp only [workerLoop, if_pos hc]

theorem workerLoop_done (name errorMsg dbid : String) (s : WorkerState)
    (hc : s.running = true ∧ s.countErrors < 10) (events : List WorkerEvent) :
    workerLoop name errorMsg dbid s (.done :: events) =
      workerLoop name errorMsg dbid { s with running := false } events := by
  simp only [workerLoop, if_pos hc]

theorem workerLoop_query (name errorMsg dbid : String) (s : WorkerState)
    (hc : s.running = true ∧ s.countErrors < 10) (outcome : QueryOutcome)
    (events : List WorkerEvent) :
    workerLoop name errorMsg dbid s (.query outcome :: events) =
      workerLoop name errorMsg dbid (workerQuery name errorMsg dbid s outcome) events := by
  simp only [workerLoop, if_pos hc]

/-- The loop from any state with `k` failures so far: the queries it executes
are the first of the queries offered, and it sends the message owed for each,
in order. -/
theorem workerLoop_spec (name dbid : String) : ∀ (events : List WorkerEvent)
    (s : WorkerState) (k : Nat), s.countErrors = (k : Int) →
    ∃ ex rest, offeredQueries events = ex ++ rest ∧
      (workerLoop name (name ++ ":error") dbid s events).executed = s.executed ++ ex ∧
      (workerLoop name (name ++ ":error") dbid s events).sent =
        s.sent ++ expectedMessages name dbid k ex ∧
      (workerLoop name (name ++ ":error") dbid s events).countErrors =
        ((k + ex.countP QueryOutcome.isFailure : Nat) : Int) ∧
      (k ≤ 10 → k + ex.countP QueryOutcome.isFailure ≤ 10) := by
  have hstay : ∀ (s : WorkerState) (k : Nat) (l : List QueryOutcome), s.countErrors = (k : Int) →
      ∃ ex rest, l = ex ++ rest ∧ s.executed = s.executed ++ ex ∧
        s.sent = s.sent ++ expectedMessages name dbid k ex ∧
        s.countErrors = ((k + ex.countP QueryOutcome.isFailure : Nat) : Int) ∧
        (k ≤ 10 → k + ex.countP QueryOutcome.isFailure ≤ 10) := by
    intro s k l hk
    refine ⟨[], l, rfl, ?_, ?_, ?_, ?_⟩
    · rw [List.append_nil]
    · simp only [expectedMessages, List.append_nil]
    · rw [hk]; rfl
    · intro h; exact h
  intro events
  induction events with
  | nil =>
    intro s k hk
    exact hstay s k _ hk
  | cons event events ih =>
    intro s k hk
    by_cases hc : s.running = true ∧ s.countErrors < 10
    · have hk10 : k < 10 := by
        have := hc.2
        omega
      cases event with
      | flagCleared =>
        rw [workerLoop_flag _ _ _ s hc]
        exact hstay { s with running := false } k _ hk
      | done =>
        rw [workerLoop_done _ _ _ s hc]
        exact ih { s with running := false } k hk
      | query outcome =>
        rw [workerLoop_query _ _ _ s hc]
        by_cases hf : outcome.isFailure = true
        · have hq := workerQuery_failure name dbid s outcome hf
          have hqc : (workerQuery name (name ++ ":error") dbid s outcome).countErrors =
              ((k + 1 : Nat) : Int) := by
            rw [hq]
            show s.countErrors + 1 = ((k + 1 : Nat) : Int)
            rw [hk]
            rfl
          have hqe : (workerQuery name (name ++ ":error") dbid s outcome).executed =
              s.executed ++ [outcome] := by rw [hq]
          have hqs : (workerQuery name (name ++ ":error") dbid s outcome).sent =
              s.sent ++ [{ verb := name ++ ":error", dbid := dbid, value := (k : Int) + 1 }] := by
            rw [hq, hk]
          obtain ⟨ex, rest, h1, h2, h3, h4, h5⟩ :=
            ih (workerQuery name (name ++ ":error") dbid s outcome) (k + 1) hqc
          have hcount : (outcome :: ex).countP QueryOutcome.isFailure =
              ex.countP QueryOutcome.isFailure + 1 := by
            rw [List.countP_cons, if_pos hf]
          refine ⟨outcome :: ex, rest, ?_, ?_, ?_, ?_, ?_⟩
          · show outcome :: offeredQueries events = outcome :: ex ++ rest
            rw [h1]
            rfl
          · rw [h2, hqe, List.append_assoc]
            rfl
          · rw [h3, hqs, List.append_assoc, expectedMessages_failure name dbid k outcome ex hf]
            rfl
          · rw [h4, hcount]
            congr 1
            omega
          · intro _
            have := h5 (by omega)
            rw [hcount]
            omega
        · have hf2 : outcome.isFailure = false := by simpa using hf
          obtain ⟨elapsed, ho, hq⟩ := workerQuery_success name dbid s outcome hf2
          have hqc : (workerQuery name (name ++ ":error") dbid s outcome).countErrors =
              (k : Int) := by
            rw [hq]
            exact hk
          have hqe : (workerQuery name (name ++ ":error") dbid s outcome).executed =
              s.executed ++ [outcome] := by rw [hq]
          have hqs : (workerQuery name (name ++ ":error") dbid s outcome).sent =
              s.sent ++ [{ verb := name, dbid := dbid, value := elapsed }] := by rw [hq]
          obtain ⟨ex, rest, h1, h2, h3, h4, h5⟩ :=
            ih (workerQuery name (name ++ ":error") dbid s outcome) k hqc
          have hcount : (outcome :: ex).countP QueryOutcome.isFailure =
              ex.countP QueryOutcome.isFailure := by
            rw [List.countP_cons, if_neg hf]
            rfl
          refine ⟨outcome :: ex, rest, ?_, ?_, ?_, ?_, ?_⟩
          · show outcome :: offeredQueries events = outcome :: ex ++ rest
            rw [h1]
            rfl
          · rw [h2, hqe, List.append_assoc]
            rfl
          · rw [h3, hqs, List.append_assoc, ho, expectedMessages_success]
            rfl
          · rw [h4, hcount]
          · intro h10
            rw [hcount]
            exact h5 h10
    · rw [workerLoop_exited _ _ _ s hc]
      exact hstay s k _ hk

theorem expectedMessages_length (name dbid : String) : ∀ (outcomes : List QueryOutcome) (k : Nat),
    (expectedMessages name dbid k outcomes).length = outcomes.length := by
  intro outcomes
  induction outcomes with
  | nil => intro k; rfl
  | cons outcome outcomes ih =>
    intro k
    by_cases hf : outcome.isFailure = true
    · rw [expectedMessages_failure name dbid k outcome outcomes hf, List.length_cons, ih,
        List.length_cons]
    · have hf2 : outcome.isFailure = false := by simpa using hf
      cases outcome with
      | failed => simp [QueryOutcome.isFailure] at hf2
      | rows count elapsed =>
        have he : count = 1 := by simpa [QueryOutcome.isFailure] using hf2
        subst he
        rw [expectedMessages_success, List.length_cons, ih, List.length_cons]

theorem name_ne_errorMsg (name : String) : name ≠ name ++ ":error" := by
  intro h
  have hl := congrArg String.length h
  rw [String.length_append] at hl
  have h6 : ":error".length = 6 := by decide
  omega

/-- The values sent under the operation with the suffix `:error`, `k` failures
having occurred before: `k + 1`, `k + 2`, ..., one for each failed query. -/
theorem expectedMessages_errors (name dbid : String) : ∀ (outcomes : List QueryOutcome) (k : Nat),
    ((expectedMessages name dbid k outcomes).filter
        (fun m => decide (m.verb = name ++ ":error"))).map (fun m => m.value) =
      (List.range (outcomes.countP QueryOutcome.isFailure)).map
        (fun i => ((k + i : Nat) : Int) + 1) := by
  intro outcomes
  induction outcomes with
  | nil => intro k; rfl
  | cons outcome outcomes ih =>
    intro k
    by_cases hf : outcome.isFailure = true
    · rw [expectedMessages_failure name dbid k outcome outcomes hf, List.countP_cons, if_pos hf,
        List.range_succ_eq_map, List.filter_cons, if_pos (by simp), List.map_cons, ih (k + 1),
        List.map_cons, List.map_map]
      congr 1
      apply List.map_congr_left
      intro i _
      show ((k + 1 + i : Nat) : Int) + 1 = ((k + (i + 1) : Nat) : Int) + 1
      congr 2
      omega
    · have hf2 : outcome.isFailure = false := by simpa using hf
      cases outcome with
      | failed => simp [QueryOutcome.isFailure] at hf2
      | rows count elapsed =>
        have he : count = 1 := by simpa [QueryOutcome.isFailure] using hf2
        subst he
        rw [expectedMessages_success, List.countP_cons, if_neg hf, List.filter_cons,
          if_neg (by simpa using name_ne_errorMsg name), ih k]
        rfl

theorem workerQuery_running (name errorMsg dbid : String) (s : WorkerState)
    (outcome : QueryOutcome) :
    (workerQuery name errorMsg dbid s outcome).running = s.running := by
  cases outcome with
  | failed => rfl
  | rows count elapsed =>
    simp only [workerQuery]
    split_ifs <;> rfl

theorem workerQuery_executed (name errorMsg dbid : String) (s : WorkerState)
    (outcome : QueryOutcome) :
    (workerQuery name errorMsg dbid s outcome).executed = s.executed ++ [outcome] := by
  cases outcome with
  | failed => rfl
  | rows count elapsed =>
    simp only [workerQuery]
    split_ifs <;> rfl

theorem workerQuery_countErrors (name errorMsg dbid : String) (s : WorkerState)
    (outcome : QueryOutcome) :
    (workerQuery name errorMsg dbid s outcome).countErrors =
      s.countErrors + if outcome.isFailure = true then 1 else 0 := by
  cases outcome with
  | failed => simp [workerQuery, QueryOutcome.isFailure]
  | rows count elapsed =>
    simp only [workerQuery, QueryOutcome.isFailure]
    split_ifs with h1 h2 h2
    · rfl
    · simp at h2; exact absurd h1 (by simpa using h2)
    · simp at h2; exact absurd h2 h1
    · simp

/-- While fewer than 10 queries have failed, every query offered is executed. -/
theorem workerLoop_all (name errorMsg dbid : String) : ∀ (outcomes : List QueryOutcome)
    (s : WorkerState) (k : Nat), s.running = true → s.countErrors = (k : Int) →
    k + outcomes.dropLast.countP QueryOutcome.isFailure < 10 →
    (workerLoop name errorMsg dbid s (outcomes.map WorkerEvent.query)).executed =
      s.executed ++ outcomes := by
  intro outcomes
  induction outcomes with
  | nil => intro s k _ _ _; simp [workerLoop]
  | cons outcome outcomes ih =>
    intro s k hrun hk hlt
    have hc : s.running = true ∧ s.countErrors < 10 := ⟨hrun, by omega⟩
    rw [List.map_cons, workerLoop_query _ _ _ s hc]
    cases outcomes with
    | nil => simp [workerLoop, workerQuery_executed]
    | cons o2 os =>
      have hdrop : (outcome :: o2 :: os).dropLast = outcome :: (o2 :: os).dropLast := rfl
      rw [hdrop, List.countP_cons] at hlt
      rw [ih (workerQuery name errorMsg dbid s outcome)
        (k + if outcome.isFailure = true then 1 else 0)
        (by rw [workerQuery_running]; exact hrun)
        (by rw [workerQuery_countErrors, hk]; split_ifs <;> simp)
        (by omega), workerQuery_executed, List.append_assoc]
      rfl

/-- C22: a worker that has opened its session, on every sequence of events
(query outcomes, the stop signal, the flag cleared by the other worker of the
target): it sends one message for each query it executes, in order, a success
(exactly one row) with the operation, the id and the elapsed milliseconds, a
failure with the operation followed by `:error`, the id and the number of
failures so far; the queries executed are the first of the queries offered;
the values sent under `:error` are 1, 2, ..., `k` where `k`, at most 10, is the
number of failed queries; once 10 queries have failed nothing more is executed
or sent, and while fewer have failed and no stop is met every query offered is
executed.  A worker whose session cannot be opened executes no query and sends
the single message with the operation followed by `:error` and the value -1. -/
theorem worker_messages (n : Neo4jJob) (maker : SessionMaker) (accessMode : AccessMode)
    (events : List WorkerEvent) :
    (maker.sessionError n.neo4j accessMode = none →
      (n.runWorkload maker accessMode events).sent =
        expectedMessages (nameOf accessMode) n.dbid 0
          (n.runWorkload maker accessMode events).executed ∧
      (n.runWorkload maker accessMode events).sent.length =
        (n.runWorkload maker accessMode events).executed.length ∧
      (∃ rest, offeredQueries events =
        (n.runWorkload maker accessMode events).executed ++ rest) ∧
      (n.runWorkload maker accessMode events).countErrors =
        (((n.runWorkload maker accessMode events).executed.countP
          QueryOutcome.isFailure : Nat) : Int) ∧
      (n.runWorkload maker accessMode events).executed.countP QueryOutcome.isFailure ≤ 10 ∧
      (((n.runWorkload maker accessMode events).sent.filter
          (fun m => decide (m.verb = nameOf accessMode ++ ":error"))).map (fun m => m.value) =
        (List.range ((n.runWorkload maker accessMode events).executed.countP
          QueryOutcome.isFailure)).map (fun (i : Nat) => (i : Int) + 1)) ∧
      (∀ pre rest, events = pre ++ rest →
        (n.runWorkload maker accessMode pre).countErrors = 10 →
        n.runWorkload maker accessMode events = n.runWorkload maker accessMode pre) ∧
      (∀ outcomes, events = outcomes.map WorkerEvent.query →
        outcomes.dropLast.countP QueryOutcome.isFailure < 10 →
        (n.runWorkload maker accessMode events).executed = outcomes)) ∧
    (∀ e, maker.sessionError n.neo4j accessMode = some e →
      (n.runWorkload maker accessMode events).executed = [] ∧
      (n.runWorkload maker accessMode events).sent =
        [{ verb := nameOf accessMode ++ ":error", dbid := n.dbid, value := -1 }]) := by
  constructor
  · intro hsession
    have hrun : ∀ evs, n.runWorkload maker accessMode evs =
        workerLoop (nameOf accessMode) (nameOf accessMode ++ ":error") n.dbid
          { countErrors := 0, running := true, sent := [], executed := [] } evs := by
      intro evs
      unfold Neo4jJob.runWorkload
      rw [hsession]
    obtain ⟨ex, rest, h1, h2, h3, h4, h5⟩ := workerLoop_spec (nameOf accessMode) n.dbid events
      { countErrors := 0, running := true, sent := [], executed := [] } 0 rfl
    rw [← hrun] at h2 h3 h4
    simp only [List.nil_append] at h2 h3
    rw [Nat.zero_add] at h4
    rw [h2]
    refine ⟨h3, ?_, ⟨rest, h1⟩, h4, by have := h5 (by omega); omega, ?_, ?_, ?_⟩
    · rw [h3, expectedMessages_length]
    · rw [h3, expectedMessages_errors]
      apply List.map_congr_left
      intro i _
      simp
    · intro pre rest2 hev hten
      rw [hev, hrun, workerLoop_append, ← hrun pre]
      exact workerLoop_exited _ _ _ _ (fun hc => by have := hc.2; omega) _
    · intro outcomes hev hlt
      rw [← h2, hev, hrun, workerLoop_all _ _ _ outcomes _ 0 rfl rfl (by omega)]
      rfl
  · intro e hsession
    unfold Neo4jJob.runWorkload
    rw [hsession]
    exact ⟨rfl, rfl⟩

theorem worker_messages_witness :
    ((exampleJob "abc").runWorkload exampleMaker AccessMode.read
      [.query (.rows 1 12), .query .failed, .query (.rows 0 5), .done,
       .query (.rows 1 3)]).sent =
      [{ verb := "read", dbid := "abc", value := 12 },
       { verb := "read:error", dbid := "abc", value := 1 },
       { verb := "read:error", dbid := "abc", value := 2 }] :=
  ((worker_messages (exampleJob "abc") exampleMaker AccessMode.read
      [.query (.rows 1 12), .query .failed, .query (.rows 0 5), .done,
       .query (.rows 1 3)]).1 rfl).1.trans (by decide)

end Benchmark
